import Mathlib

/-!
# CLHT garbage collection of hash-table versions (`src/clht_gc.c`)

A shallow embedding of the version garbage collector of CLHT and the
properties of it that are verified.

Memory model.  Table descriptors (`clht_hashtable_t`) and thread records
(`ht_ts_t`) live in finite heaps addressed by natural numbers; a pointer is
`Option Nat` with `none` for `NULL`.  Dereferencing `NULL` or an address that
is not allocated (never was, or was freed) is a `Fault`.  The bucket storage
of a table is owned by that table alone and is kept by value inside its
descriptor.  Calls of `free` are recorded in a log.  `getticks` and `printf`
have no effect on the state and are left out.  The counter `gced_num` (a C
`int`) is an unbounded integer: the model assumes fewer than `2^31` live
table versions.  Versions (`size_t`) are only copied and compared.

Loops.  The two pointer-chasing loops take a step budget that the calling
function derives from the size of the heap they walk.  The sweep never
exhausts its budget (`sweep_loop_fuel`); the registry scan exhausts it only on
a registry that is cyclic (`min_version_used_fuel`), where the C loop does not
terminate.

The functions are sequential: a call is one atomic step of the thread `tid`
that makes it.  In `ht_gc_thread_init` the answer of `memalign` is an input of
the model, and the compare-and-swap succeeds at the first attempt.
-/

namespace CLHT

/-- A C pointer: `none` is `NULL`, `some a` is the address `a`. -/
abbrev Ptr := Option Nat

/-- Ways in which an execution leaves defined behaviour: a dereference of
`NULL`, a dereference or free of an address that is not allocated, a loop that
does not terminate, an `assert` that fails. -/
inductive Fault where
  | null_deref
  | invalid_ptr
  | out_of_fuel
  | assert_failed
  deriving DecidableEq, Repr

/-- A finite heap of objects of one type, keyed by address. -/
abbrev Heap (α : Type) := List (Nat × α)

/-- Read the object stored at address `a`, if that address is allocated. -/
def Heap.load {α : Type} : Heap α → Nat → Option α
  | [], _ => none
  | (k, v) :: m, a => if k = a then some v else Heap.load m a

/-- Overwrite the object stored at address `a` (no effect if not allocated). -/
def Heap.store {α : Type} : Heap α → Nat → α → Heap α
  | [], _, _ => []
  | (k, v) :: m, a, w =>
    if k = a then (k, w) :: m else (k, v) :: Heap.store m a w

/-- Deallocate address `a`. -/
def Heap.dealloc {α : Type} : Heap α → Nat → Heap α
  | [], _ => []
  | (k, v) :: m, a => if k = a then Heap.dealloc m a else (k, v) :: Heap.dealloc m a

/-- Modelled from the spec: `ht_ts_t` is declared in `clht_lb_res.h`, which is
not part of the source; §3 EpochRecord gives its fields `version`, `id` and
`next`, the ones `clht_gc.c` uses. -/
structure ht_ts_t where
  version : Nat
  id : Int
  next : Ptr
  deriving DecidableEq, Repr

/-- Modelled from the spec: `bucket_t` is declared in `clht_lb_res.h`; the
collector only follows its `next` link.  A bucket pointer is represented by
the null-terminated chain of overflow buckets it leads to, given by their
addresses in chain order (`[]` is `NULL`). -/
structure bucket_t where
  next : List Nat
  deriving DecidableEq, Repr

/-- Modelled from the spec: `clht_hashtable_t` is declared in
`clht_lb_res.h`; §3 VersionedTable gives `version`, the bucket storage
`table` and the links to the newer (`table_new`) and older (`table_prev`)
version.  `table` is the array of in-array buckets, held by value. -/
structure clht_hashtable_t where
  table : List bucket_t
  version : Nat
  table_new : Ptr
  table_prev : Ptr
  deriving DecidableEq, Repr

/-- The field `num_buckets`: the number of in-array buckets of `table`. -/
def clht_hashtable_t.num_buckets (t : clht_hashtable_t) : Nat := t.table.length

/-- Modelled from the spec: `clht_t` is declared in `clht_lb_res.h`; §3
TableContainer gives the current table `ht`, the oldest table not yet
reclaimed `ht_oldest`, the floor `version_min`, the registry head
`version_list` and the gate `gc_lock` (`true` when held). -/
structure clht_t where
  ht : Ptr
  ht_oldest : Ptr
  version_min : Nat
  version_list : Ptr
  gc_lock : Bool
  deriving DecidableEq, Repr

/-- One call of the allocator's `free`. -/
inductive FreeCall where
  | bucket (a : Nat)
  | array (t : Nat)
  | descriptor (t : Nat)
  | container
  deriving DecidableEq, Repr

/-- The program state: the container, the heap of table descriptors, the heap
of thread records, the thread-local variable `clht_ts_thread` of every thread
(a thread absent from the map holds `NULL`), and the log of `free` calls. -/
structure State where
  hashtable : clht_t
  tables : Heap clht_hashtable_t
  records : Heap ht_ts_t
  clht_ts_thread : Heap Nat
  freed : List FreeCall
  deriving DecidableEq, Repr

/-- Dereference a pointer to a table descriptor. -/
def deref_table (s : State) (p : Ptr) : Except Fault clht_hashtable_t :=
  match p with
  | none => .error .null_deref
  | some a =>
    match s.tables.load a with
    | none => .error .invalid_ptr
    | some t => .ok t

/-- Modelled from the spec: `TRYLOCK_ACQ` is a macro of a header that is not
part of the source; §4.3 describes a non-blocking try-lock.  The result is
the new value of the gate and the macro's value: `true` (non-zero) when the
gate was already held, `false` when this call took it. -/
def TRYLOCK_ACQ (lock : Bool) : Bool × Bool := (true, lock)

/-- Modelled from the spec: `TRYLOCK_RLS` is a macro of a header that is not
part of the source; it releases the gate. -/
def TRYLOCK_RLS (_lock : Bool) : Bool := false

/-- The function `ht_gc_thread_version` run by thread `tid`:
`clht_ts_thread->version = h->version`. -/
def ht_gc_thread_version (s : State) (tid : Nat) (h : Ptr) : Except Fault State := do
  let t ← deref_table s h
  match s.clht_ts_thread.load tid with
  | none => .error .null_deref
  | some a =>
    match s.records.load a with
    | none => .error .invalid_ptr
    | some r => .ok { s with records := s.records.store a { r with version := t.version } }

/-- Modelled from the spec: the macro `CLHT_GC_HT_VERSION_USED` is defined in
`clht_lb_res.h`, which is not part of the source; by §4.1 a thread publishes
the version it is about to use before it dereferences the table, which is
what `ht_gc_thread_version` does. -/
def CLHT_GC_HT_VERSION_USED (s : State) (tid : Nat) (ht : Ptr) : Except Fault State :=
  ht_gc_thread_version s tid ht

/-- The loop of `ht_gc_min_version_used`: `cur` walks the registry and `min`
is the running minimum. -/
def min_version_loop (records : Heap ht_ts_t) : Nat → Ptr → Nat → Except Fault Nat
  | _, none, min => .ok min
  | 0, some _, _ => .error .out_of_fuel
  | fuel + 1, some a, min =>
    match records.load a with
    | none => .error .invalid_ptr
    | some r => min_version_loop records fuel r.next (if r.version < min then r.version else min)

/-- The function `ht_gc_min_version_used`.  A walk over distinct records takes
at most as many iterations as there are records. -/
def ht_gc_min_version_used (s : State) : Except Fault Nat := do
  let cur := s.hashtable.version_list
  let t ← deref_table s s.hashtable.ht
  let min := t.version
  min_version_loop s.records s.records.length cur min

/-- The inner `while` loop of `ht_gc_free`: free every bucket of the chain
that `bucket` points to. -/
def free_chain : List Nat → List FreeCall → List FreeCall
  | [], log => log
  | cur :: bucket, log => free_chain bucket (log ++ [.bucket cur])

/-- The `for` loop of `ht_gc_free` over the bins of the bucket array. -/
def free_bins : List bucket_t → List FreeCall → List FreeCall
  | [], log => log
  | b :: rest, log => free_bins rest (free_chain b.next log)

/-- The function `ht_gc_free` in the default build (neither `CLHT_LB_LINKED`
nor `LOCKFREE_RES` defined). -/
def ht_gc_free (s : State) (hashtable : Ptr) : Except Fault (State × Int) :=
  match hashtable with
  | none => .error .null_deref
  | some p =>
    match s.tables.load p with
    | none => .error .invalid_ptr
    | some t =>
      let log := free_bins t.table s.freed
      let log := log ++ [.array p]
      let log := log ++ [.descriptor p]
      .ok ({ s with tables := s.tables.dealloc p, freed := log }, 1)

/-- The `while` loop of `ht_gc_collect_cond`. -/
def sweep_loop (version_min : Nat) :
    Nat → State → Ptr → Int → Except Fault (State × Ptr × Int)
  | 0, _, _, _ => .error .out_of_fuel
  | fuel + 1, s, cur, gced_num =>
    match cur with
    | none => .ok (s, cur, gced_num)
    | some c =>
      match s.tables.load c with
      | none => .error .invalid_ptr
      | some t =>
        if t.version < version_min then
          match t.table_new with
          | none => .error .null_deref
          | some n =>
            match s.tables.load n with
            | none => .error .invalid_ptr
            | some tn =>
              match ht_gc_free
                  { s with tables := s.tables.store n { tn with table_prev := none } } cur with
              | .error e => .error e
              | .ok (s1, _) => sweep_loop version_min fuel s1 t.table_new (gced_num + 1)
        else .ok (s, cur, gced_num)

/-- The function `ht_gc_collect_cond`.  Every iteration of the sweep frees an
allocated descriptor, so one step more than the number of descriptors is
enough for the loop. -/
def ht_gc_collect_cond (s : State) (collect_not_referenced_only : Int) :
    Except Fault (State × Int) := do
  let cur ← deref_table s s.hashtable.ht
  if s.hashtable.version_min ≥ cur.version then
    return (s, 0)
  let (lock, held) := TRYLOCK_ACQ s.hashtable.gc_lock
  let s := { s with hashtable := { s.hashtable with gc_lock := lock } }
  if held then
    return (s, 0)
  let version_min ←
    if collect_not_referenced_only ≠ 0 then ht_gc_min_version_used s
    else pure cur.version
  if s.hashtable.version_min ≥ version_min then
    return ({ s with hashtable :=
      { s.hashtable with gc_lock := TRYLOCK_RLS s.hashtable.gc_lock } }, 0)
  else
    let (s, cur, gced_num) ← sweep_loop version_min (s.tables.length + 1) s s.hashtable.ht_oldest 0
    let t ← deref_table s cur
    let s := { s with hashtable := { s.hashtable with version_min := t.version } }
    let s := { s with hashtable := { s.hashtable with ht_oldest := cur } }
    let s := { s with hashtable :=
      { s.hashtable with gc_lock := TRYLOCK_RLS s.hashtable.gc_lock } }
    return (s, gced_num)

/-- The function `ht_gc_collect` run by thread `tid`; `CLHT_DO_GC` is a
parameter of the build. -/
def ht_gc_collect (CLHT_DO_GC : Nat) (s : State) (tid : Nat) : Except Fault (State × Int) :=
  if CLHT_DO_GC = 1 then do
    let s ← CLHT_GC_HT_VERSION_USED s tid s.hashtable.ht
    ht_gc_collect_cond s 1
  else
    .ok (s, 0)

/-- The function `ht_gc_collect_all`. -/
def ht_gc_collect_all (s : State) : Except Fault (State × Int) :=
  ht_gc_collect_cond s 0

/-- The table whose descriptor a call of `free` released, if it released one:
`ht_gc_free` frees the descriptor of the table it is given as its last act. -/
def FreeCall.table? : FreeCall → Option Nat
  | .descriptor t => some t
  | _ => none

/-- The tables that were handed to `ht_gc_free`, in call order. -/
def handed (log : List FreeCall) : List Nat := log.filterMap FreeCall.table?

/-- `registry records p rs` holds when the registry walked from `p` through
the `next` links is finite and null-terminated and consists of the records at
the addresses `rs`, in order. -/
def registry (records : Heap ht_ts_t) : Ptr → List Nat → Bool
  | none, [] => true
  | some a, b :: rs =>
    a == b && (match records.load a with
      | some r => registry records r.next rs
      | none => false)
  | _, _ => false

/-- The version held by the record at address `a`. -/
def record_version (records : Heap ht_ts_t) (a : Nat) : Nat :=
  match records.load a with
  | some r => r.version
  | none => 0

/-- The safe floor in the words of the specification (§4.2): start from the
current version and take the minimum with the version of each record. -/
def spec_safe_floor (current_version : Nat) (versions : List Nat) : Nat :=
  versions.foldl min current_version

/-- The version of the table at address `a` (0 if `a` is not allocated). -/
def table_version (tables : Heap clht_hashtable_t) (a : Nat) : Nat :=
  match tables.load a with
  | some t => t.version
  | none => 0

/-- The successor link `table_new` of the table at address `a`, if `a` is
allocated. -/
def table_next (tables : Heap clht_hashtable_t) (a : Nat) : Option Ptr :=
  (tables.load a).map (fun t => t.table_new)

/-- `version_chain tables l` holds when every address of `l` is allocated and
the `table_new` link of each table of `l` points to the next address of `l`. -/
def version_chain (tables : Heap clht_hashtable_t) : List Nat → Bool
  | [] => true
  | [a] => (table_next tables a).isSome
  | a :: b :: l => table_next tables a == some (some b) && version_chain tables (b :: l)

/-- The descriptor `t` after `t->table_prev = NULL`. -/
def null_prev (t : clht_hashtable_t) : clht_hashtable_t := { t with table_prev := none }

/-- The target floor of a collect (lines 117 to 121 of the source): the result
of `ht_gc_min_version_used` in conditional mode, the version of the current
table in unconditional mode. -/
def target_floor (s : State) (collect_not_referenced_only : Int) : Except Fault Nat :=
  if collect_not_referenced_only ≠ 0 then ht_gc_min_version_used s
  else (deref_table s s.hashtable.ht).map (fun t => t.version)

/-- `chain_to_current s chain` holds when `chain` is the sequence of tables
walked from `ht_oldest` through the `table_new` links up to the first arrival
at the current table `ht`. -/
def chain_to_current (s : State) (chain : List Nat) : Bool :=
  match chain.getLast? with
  | none => false
  | some c =>
    s.hashtable.ht == some c && s.hashtable.ht_oldest == chain.head? &&
      version_chain s.tables chain && !(chain.dropLast.contains c)

/-- `registered records p a` holds when the record at address `a` is reached
from `p` through `next` links: it is in the registry that starts at `p`. -/
inductive registered (records : Heap ht_ts_t) : Ptr → Nat → Prop where
  | head (a : Nat) : registered records (some a) a
  | tail (b a : Nat) (r : ht_ts_t) :
      records.load b = some r → registered records r.next a → registered records (some b) a

/-- A call made by some thread, taken as one atomic step: a publish by thread
`tid` of the version of table `h`, or a conditional collect. -/
inductive Call where
  | publish (tid : Nat) (h : Ptr)
  | collect
  deriving DecidableEq, Repr

/-- The effect of one call on the state. -/
def Call.exec (s : State) : Call → Except Fault State
  | .publish tid h => ht_gc_thread_version s tid h
  | .collect => (ht_gc_collect_cond s 1).map Prod.fst

/-- The effect of a sequence of calls. -/
def run (s : State) : List Call → Except Fault State
  | [] => .ok s
  | call :: rest =>
    match Call.exec s call with
    | .error e => .error e
    | .ok s1 => run s1 rest

/-- A table of the example states: version `v`, two bins, one overflow bucket
in the first bin. -/
def scenario_table (v : Nat) (table_new table_prev : Ptr) : clht_hashtable_t :=
  { table := [{ next := [1000 + v] }, { next := [] }], version := v,
    table_new := table_new, table_prev := table_prev }

/-- The scenario of the specification (§8): three registered threads whose
records hold versions 5, 7 and 9, current version 10, and a chain with one
table for each version from the floor 3 to 10. -/
def scenario : State :=
  { hashtable :=
      { ht := some 110, ht_oldest := some 103, version_min := 3, version_list := some 1,
        gc_lock := false }
    tables :=
      [(103, scenario_table 3 (some 104) none), (104, scenario_table 4 (some 105) (some 103)),
       (105, scenario_table 5 (some 106) (some 104)), (106, scenario_table 6 (some 107) (some 105)),
       (107, scenario_table 7 (some 108) (some 106)), (108, scenario_table 8 (some 109) (some 107)),
       (109, scenario_table 9 (some 110) (some 108)), (110, scenario_table 10 none (some 109))]
    records :=
      [(1, { version := 5, id := 0, next := some 2 }), (2, { version := 7, id := 1, next := some 3 }),
       (3, { version := 9, id := 2, next := none })]
    clht_ts_thread := [(0, 1), (1, 2), (2, 3)]
    freed := [] }

/-- The scenario after thread 0 has published version 10. -/
def scenario_published : State :=
  { scenario with records :=
      [(1, { version := 10, id := 0, next := some 2 }), (2, { version := 7, id := 1, next := some 3 }),
       (3, { version := 9, id := 2, next := none })] }

/-- The state `scenario_published` after a conditional collect. -/
def scenario_collected : State :=
  { scenario_published with
    hashtable :=
      { ht := some 110, ht_oldest := some 107, version_min := 7, version_list := some 1,
        gc_lock := false }
    tables :=
      [(107, scenario_table 7 (some 108) none), (108, scenario_table 8 (some 109) (some 107)),
       (109, scenario_table 9 (some 110) (some 108)), (110, scenario_table 10 none (some 109))]
    freed :=
      [.bucket 1003, .array 103, .descriptor 103, .bucket 1004, .array 104, .descriptor 104,
       .bucket 1005, .array 105, .descriptor 105, .bucket 1006, .array 106, .descriptor 106] }

/-- The container invariant of the specification (§3): the version of the
oldest table equals `version_min`, and `version_min` is at most the version of
the current table. -/
def container_invariant (s : State) : Bool :=
  match deref_table s s.hashtable.ht_oldest, deref_table s s.hashtable.ht with
  | .ok o, .ok c => o.version == s.hashtable.version_min && decide (s.hashtable.version_min ≤ c.version)
  | _, _ => false

/-- The scenario after an unconditional collect: the floor has reached the
current version 10 while the three records still hold versions 5, 7 and 9. -/
def floor_reached : State :=
  { scenario with
    hashtable :=
      { ht := some 110, ht_oldest := some 110, version_min := 10, version_list := some 1,
        gc_lock := false }
    tables := [(110, scenario_table 10 none none)]
    freed :=
      [.bucket 1003, .array 103, .descriptor 103, .bucket 1004, .array 104, .descriptor 104,
       .bucket 1005, .array 105, .descriptor 105, .bucket 1006, .array 106, .descriptor 106,
       .bucket 1007, .array 107, .descriptor 107, .bucket 1008, .array 108, .descriptor 108,
       .bucket 1009, .array 109, .descriptor 109] }

/-- The state `floor_reached` after thread 0 has published version 10. -/
def floor_reached_published : State :=
  { floor_reached with records :=
      [(1, { version := 10, id := 0, next := some 2 }), (2, { version := 7, id := 1, next := some 3 }),
       (3, { version := 9, id := 2, next := none })] }

/-- The scenario after a collector has taken the gate. -/
def scenario_gate_held : State :=
  { scenario with hashtable := { scenario.hashtable with gc_lock := true } }

/-- Modelled from the spec: `CAS_U64` is a macro of a header that is not part
of the source; §4.1 describes an atomic compare-and-swap of the registry head.
The result is the new content of the location and the value of the macro, the
content it found there. -/
def CAS_U64 (location old new : Ptr) : Ptr × Ptr :=
  if location = old then (new, location) else (location, location)

/-- The `do ... while` loop of `ht_gc_thread_init` for the record at `ts`. -/
def thread_init_loop : Nat → State → Nat → Except Fault State
  | 0, _, _ => .error .out_of_fuel
  | fuel + 1, s, ts =>
    match s.records.load ts with
    | none => .error .invalid_ptr
    | some r =>
      let next := s.hashtable.version_list
      let s := { s with records := s.records.store ts { r with next := next } }
      let (head, found) := CAS_U64 s.hashtable.version_list next (some ts)
      let s := { s with hashtable := { s.hashtable with version_list := head } }
      if found ≠ next then thread_init_loop fuel s ts else .ok s

/-- The function `ht_gc_thread_init` run by thread `tid`.  The answer of
`memalign` is an input: `NULL`, or the address of a block that is not in use.
No other thread runs during the call, so one attempt of the compare-and-swap
is enough. -/
def ht_gc_thread_init (s : State) (tid : Nat) (id : Int) (memalign : Ptr) :
    Except Fault State :=
  match memalign with
  | none => .error .assert_failed
  | some ts => do
    let t ← deref_table s s.hashtable.ht
    let s := { s with
      records := (ts, { version := t.version, id := id, next := none }) :: s.records }
    let s ← thread_init_loop 1 s ts
    .ok { s with clht_ts_thread := (tid, ts) :: s.clht_ts_thread }

/-- The function `clht_gc_get_id` run by thread `tid`. -/
def clht_gc_get_id (s : State) (tid : Nat) : Except Fault Int :=
  match s.clht_ts_thread.load tid with
  | none => .error .null_deref
  | some a =>
    match s.records.load a with
    | none => .error .invalid_ptr
    | some r => .ok r.id

/-- The function `ht_gc_destroy` in the default build (`CLHT_LINKED` not
defined). -/
def ht_gc_destroy (s : State) : Except Fault State := do
  let (s, _) ← ht_gc_collect_all s
  let (s, _) ← ht_gc_free s s.hashtable.ht
  .ok { s with freed := s.freed ++ [.container] }

/-- A call of the collector's interface by some thread, taken as one atomic
step. -/
inductive Op where
  | register (tid : Nat) (id : Int) (memalign : Ptr)
  | publish (tid : Nat) (h : Ptr)
  | collect (tid : Nat)
  | collect_all
  deriving DecidableEq, Repr

/-- The effect of one call of the interface on the state (in a build with
`CLHT_DO_GC` equal to 1). -/
def Op.exec (s : State) : Op → Except Fault State
  | .register tid id memalign => ht_gc_thread_init s tid id memalign
  | .publish tid h => ht_gc_thread_version s tid h
  | .collect tid => (ht_gc_collect 1 s tid).map Prod.fst
  | .collect_all => (ht_gc_collect_all s).map Prod.fst

/-- The effect of a sequence of calls of the interface. -/
def run_ops (s : State) : List Op → Except Fault State
  | [] => .ok s
  | op :: rest =>
    match Op.exec s op with
    | .error e => .error e
    | .ok s1 => run_ops s1 rest

/-- The effect of a sequence of calls of `ht_gc_collect_cond`, one for each
flag of the list. -/
def run_collects (s : State) : List Int → Except Fault State
  | [] => .ok s
  | flag :: rest =>
    match ht_gc_collect_cond s flag with
    | .error e => .error e
    | .ok (s1, _) => run_collects s1 rest

/-- The stores that `ht_gc_collect_cond` makes to the fields of the container,
in program order: each entry is the container right after one store (the
`TRYLOCK_ACQ`, the assignment of `version_min`, the assignment of `ht_oldest`,
the `TRYLOCK_RLS`).  The list is empty when the call returns before the
try-lock. -/
def collect_cond_stores (s : State) (collect_not_referenced_only : Int) :
    Except Fault (List clht_t) := do
  let cur ← deref_table s s.hashtable.ht
  if s.hashtable.version_min ≥ cur.version then
    return []
  let (lock, held) := TRYLOCK_ACQ s.hashtable.gc_lock
  let h1 := { s.hashtable with gc_lock := lock }
  let s := { s with hashtable := h1 }
  if held then
    return [h1]
  let version_min ←
    if collect_not_referenced_only ≠ 0 then ht_gc_min_version_used s
    else pure cur.version
  if s.hashtable.version_min ≥ version_min then
    return [h1, { h1 with gc_lock := TRYLOCK_RLS h1.gc_lock }]
  else
    let (s, cur, _) ← sweep_loop version_min (s.tables.length + 1) s s.hashtable.ht_oldest 0
    let t ← deref_table s cur
    let h2 := { s.hashtable with version_min := t.version }
    let h3 := { h2 with ht_oldest := cur }
    let h4 := { h3 with gc_lock := TRYLOCK_RLS h3.gc_lock }
    return [h1, h2, h3, h4]

/-- `null_terminated tables p l` holds when the walk from `p` through the
`table_new` links visits exactly the tables at the addresses `l`, in order, all
allocated, and ends at `NULL`: the chain is finite and without cycle. -/
def null_terminated (tables : Heap clht_hashtable_t) : Ptr → List Nat → Bool
  | none, [] => true
  | some a, b :: l =>
    a == b && (match tables.load a with
      | some t => null_terminated tables t.table_new l
      | none => false)
  | _, _ => false

/-- `reachable tables p a` holds when the address `a` is reached from `p`
through `table_new` links of allocated tables. -/
inductive reachable (tables : Heap clht_hashtable_t) : Ptr → Nat → Prop where
  | head (a : Nat) : reachable tables (some a) a
  | tail (b a : Nat) (t : clht_hashtable_t) :
      tables.load b = some t → reachable tables t.table_new a → reachable tables (some b) a

/-- `prev_links tables p l` holds when the `table_prev` link of the first table
of `l` is `p` and the `table_prev` link of every other table of `l` points to
the table before it. -/
def prev_links (tables : Heap clht_hashtable_t) : Ptr → List Nat → Bool
  | _, [] => true
  | p, a :: l =>
    (match tables.load a with
      | some t => t.table_prev == p
      | none => false) && prev_links tables (some a) l

/-- The version chain of the specification (§2, §3): the tables from
`ht_oldest` on, each pointing to its immediate successor and predecessor, form
a null-terminated chain `full` whose first table has no predecessor, and the
current table is one of them. -/
def version_chain_wf (s : State) (full : List Nat) : Bool :=
  null_terminated s.tables s.hashtable.ht_oldest full && prev_links s.tables none full &&
    (match s.hashtable.ht with
      | some c => full.contains c
      | none => false)

/-- `freed_once s` holds when no table was handed to `ht_gc_free` twice and the
tables handed to it are not allocated. -/
def freed_once (s : State) : Prop :=
  (handed s.freed).Nodup ∧ ∀ p ∈ handed s.freed, s.tables.load p = none

/-- The scenario after thread 3 has registered with id 42 in the block at
address 4, thread 0 has published the current table, and thread 1 has called
`ht_gc_collect`: the records hold versions 10, 10, 10 and 9, and the tables of
versions 3 to 8 are freed. -/
def scenario_registered_collected : State :=
  { hashtable :=
      { ht := some 110, ht_oldest := some 109, version_min := 9, version_list := some 4,
        gc_lock := false }
    tables := [(109, scenario_table 9 (some 110) none), (110, scenario_table 10 none (some 109))]
    records :=
      [(4, { version := 10, id := 42, next := some 1 }),
       (1, { version := 10, id := 0, next := some 2 }), (2, { version := 10, id := 1, next := some 3 }),
       (3, { version := 9, id := 2, next := none })]
    clht_ts_thread := [(3, 4), (0, 1), (1, 2), (2, 3)]
    freed :=
      [.bucket 1003, .array 103, .descriptor 103, .bucket 1004, .array 104, .descriptor 104,
       .bucket 1005, .array 105, .descriptor 105, .bucket 1006, .array 106, .descriptor 106,
       .bucket 1007, .array 107, .descriptor 107, .bucket 1008, .array 108, .descriptor 108] }

/-! ## Heaps -/

theorem Heap.load_store {α : Type} (m : Heap α) (a b : Nat) (w : α) :
    (Heap.store m a w).load b = if a = b then (m.load b).map (fun _ => w) else m.load b := by
  induction m with
  | nil => simp [Heap.store, Heap.load]
  | cons e m ih =>
    obtain ⟨k, v⟩ := e
    by_cases hk : k = a
    · by_cases hab : a = b
      · subst hk; subst hab; simp [Heap.store, Heap.load]
      · subst hk; simp [Heap.store, Heap.load, hab]
    · by_cases hab : a = b
      · subst hab; simp [Heap.store, Heap.load, hk, ih]
      · by_cases hkb : k = b
        · subst hkb; simp [Heap.store, Heap.load, hk, hab]
        · simp [Heap.store, Heap.load, hk, hkb, ih, hab]

theorem Heap.store_same {α : Type} (m : Heap α) (a : Nat) (w : α) (h : m.load a = some w) :
    Heap.store m a w = m := by
  induction m with
  | nil => rfl
  | cons e m ih =>
    obtain ⟨k, v⟩ := e
    by_cases hk : k = a
    · simp [Heap.load, hk] at h
      simp [Heap.store, hk, h]
    · simp [Heap.load, hk] at h
      simp [Heap.store, hk, ih h]

theorem Heap.load_dealloc {α : Type} (m : Heap α) (a b : Nat) :
    (Heap.dealloc m a).load b = if a = b then none else m.load b := by
  induction m with
  | nil => simp [Heap.dealloc, Heap.load]
  | cons e m ih =>
    obtain ⟨k, v⟩ := e
    by_cases hk : k = a
    · by_cases hab : a = b
      · subst hk; subst hab; simpa [Heap.dealloc, Heap.load] using ih
      · subst hk; simpa [Heap.dealloc, Heap.load, hab] using ih
    · by_cases hab : a = b
      · subst hab; simpa [Heap.dealloc, Heap.load, hk] using ih
      · by_cases hkb : k = b
        · subst hkb; simp [Heap.dealloc, Heap.load, hk, hab]
        · simp [Heap.dealloc, Heap.load, hk, hkb, ih, hab]

theorem Heap.length_store {α : Type} (m : Heap α) (a : Nat) (w : α) :
    (Heap.store m a w).length = m.length := by
  induction m with
  | nil => simp [Heap.store]
  | cons e m ih =>
    obtain ⟨k, v⟩ := e
    by_cases hk : k = a <;> simp [Heap.store, hk, ih]

theorem Heap.length_dealloc_le {α : Type} (m : Heap α) (a : Nat) :
    (Heap.dealloc m a).length ≤ m.length := by
  induction m with
  | nil => simp [Heap.dealloc]
  | cons e m ih =>
    obtain ⟨k, v⟩ := e
    by_cases hk : k = a <;> simp [Heap.dealloc, hk] <;> omega

theorem Heap.length_dealloc_lt {α : Type} (m : Heap α) (a : Nat) (v : α)
    (h : m.load a = some v) : (Heap.dealloc m a).length < m.length := by
  induction m with
  | nil => simp [Heap.load] at h
  | cons e m ih =>
    obtain ⟨k, w⟩ := e
    by_cases hk : k = a
    · have := Heap.length_dealloc_le m a
      simp [Heap.dealloc, hk]; omega
    · simp [Heap.load, hk] at h
      have := ih h
      simp [Heap.dealloc, hk]; omega

theorem Heap.mem_keys_of_load {α : Type} (m : Heap α) (a : Nat) (v : α)
    (h : m.load a = some v) : a ∈ m.map Prod.fst := by
  induction m with
  | nil => simp [Heap.load] at h
  | cons e m ih =>
    obtain ⟨k, w⟩ := e
    by_cases hk : k = a
    · simp [hk]
    · simp [Heap.load, hk] at h
      simp; right; simpa using ih h

theorem Heap.length_le_of_nodup {α : Type} (m : Heap α) (l : List Nat) (hl : l.Nodup)
    (h : ∀ a ∈ l, ∃ v, m.load a = some v) : l.length ≤ m.length := by
  have hsub : l ⊆ m.map Prod.fst := by
    intro a ha
    obtain ⟨v, hv⟩ := h a ha
    exact Heap.mem_keys_of_load m a v hv
  have := (List.subperm_of_subset hl hsub).length_le
  simpa using this

/-! ## The registry scan -/

theorem registry_cons (records : Heap ht_ts_t) (p : Ptr) (b : Nat) (rs : List Nat) :
    registry records p (b :: rs) = true ↔
      p = some b ∧ ∃ r, records.load b = some r ∧ registry records r.next rs = true := by
  cases p with
  | none => simp [registry]
  | some a =>
    by_cases hab : a = b
    · subst hab
      cases h : records.load a <;> simp [registry, h]
    · simp [registry, hab]

theorem registry_nil (records : Heap ht_ts_t) (p : Ptr) :
    registry records p [] = true ↔ p = none := by
  cases p <;> simp [registry]

theorem registry_det (records : Heap ht_ts_t) :
    ∀ (rs rs' : List Nat) (p : Ptr), registry records p rs = true →
      registry records p rs' = true → rs = rs' := by
  intro rs
  induction rs with
  | nil =>
    intro rs' p h h'
    rw [registry_nil] at h
    subst h
    cases rs' with
    | nil => rfl
    | cons b rs' => simp [registry] at h'
  | cons a rs ih =>
    intro rs' p h h'
    rw [registry_cons] at h
    obtain ⟨hp, r, hr, hrest⟩ := h
    subst hp
    cases rs' with
    | nil => simp [registry] at h'
    | cons b rs' =>
      rw [registry_cons] at h'
      obtain ⟨hp', r', hr', hrest'⟩ := h'
      simp at hp'
      subst hp'
      rw [hr] at hr'
      simp at hr'
      subst hr'
      rw [ih rs' _ hrest hrest']

theorem registry_suffix (records : Heap ht_ts_t) :
    ∀ (l1 : List Nat) (a : Nat) (l2 : List Nat) (p : Ptr),
      registry records p (l1 ++ a :: l2) = true → registry records (some a) (a :: l2) = true := by
  intro l1
  induction l1 with
  | nil =>
    intro a l2 p h
    have h' := h
    simp only [List.nil_append] at h'
    rw [registry_cons] at h'
    rw [← h'.1]; exact h
  | cons b l1 ih =>
    intro a l2 p h
    simp only [List.cons_append] at h
    rw [registry_cons] at h
    obtain ⟨_, r, _, hrest⟩ := h
    exact ih a l2 _ hrest

theorem registry_nodup (records : Heap ht_ts_t) :
    ∀ (rs : List Nat) (p : Ptr), registry records p rs = true → rs.Nodup := by
  intro rs
  induction rs with
  | nil => intro _ _; exact List.nodup_nil
  | cons a rs ih =>
    intro p h
    have h0 := h
    rw [registry_cons] at h
    obtain ⟨hp, r, hr, hrest⟩ := h
    subst hp
    refine List.nodup_cons.mpr ⟨?_, ih _ hrest⟩
    intro hmem
    obtain ⟨l1, l2, hsplit⟩ := List.append_of_mem hmem
    rw [hsplit] at hrest
    have hsuf := registry_suffix records l1 a l2 _ hrest
    have heq := registry_det records _ _ _ h0 hsuf
    have hlen := congrArg List.length heq
    rw [hsplit] at hlen
    simp at hlen
    omega

theorem registry_allocated (records : Heap ht_ts_t) :
    ∀ (rs : List Nat) (p : Ptr), registry records p rs = true →
      ∀ a ∈ rs, ∃ r, records.load a = some r := by
  intro rs
  induction rs with
  | nil => intro _ _ a ha; simp at ha
  | cons b rs ih =>
    intro p h a ha
    rw [registry_cons] at h
    obtain ⟨_, r, hr, hrest⟩ := h
    rcases List.mem_cons.mp ha with rfl | ha
    · exact ⟨r, hr⟩
    · exact ih _ hrest a ha

theorem registry_length_le (records : Heap ht_ts_t) (rs : List Nat) (p : Ptr)
    (h : registry records p rs = true) : rs.length ≤ records.length :=
  Heap.length_le_of_nodup records rs (registry_nodup records rs p h)
    (registry_allocated records rs p h)

theorem min_version_loop_eq (records : Heap ht_ts_t) :
    ∀ (rs : List Nat) (p : Ptr) (fuel min : Nat), registry records p rs = true →
      rs.length ≤ fuel →
      min_version_loop records fuel p min
        = .ok (spec_safe_floor min (rs.map (record_version records))) := by
  intro rs
  induction rs with
  | nil =>
    intro p fuel min h _
    rw [registry_nil] at h
    subst h
    cases fuel <;> simp [min_version_loop, spec_safe_floor]
  | cons a rs ih =>
    intro p fuel min h hf
    rw [registry_cons] at h
    obtain ⟨hp, r, hr, hrest⟩ := h
    subst hp
    cases fuel with
    | zero => simp at hf
    | succ fuel =>
      simp only [List.length_cons, Nat.add_le_add_iff_right] at hf
      simp only [min_version_loop, hr]
      rw [ih _ fuel _ hrest hf]
      have hv : record_version records a = r.version := by simp [record_version, hr]
      simp only [spec_safe_floor, List.map_cons, List.foldl_cons, hv]
      congr 2
      by_cases hlt : r.version < min
      · simp [hlt, Nat.min_eq_right (Nat.le_of_lt hlt)]
      · simp [hlt, Nat.min_eq_left (Nat.le_of_not_lt hlt)]

theorem spec_safe_floor_le (vs : List Nat) : ∀ (m : Nat), spec_safe_floor m vs ≤ m := by
  induction vs with
  | nil => intro m; simp [spec_safe_floor]
  | cons v vs ih =>
    intro m
    simp only [spec_safe_floor, List.foldl_cons]
    exact le_trans (ih (min m v)) (Nat.min_le_left m v)

theorem spec_safe_floor_le_mem (vs : List Nat) :
    ∀ (m : Nat), ∀ v ∈ vs, spec_safe_floor m vs ≤ v := by
  induction vs with
  | nil => intro m v hv; simp at hv
  | cons w vs ih =>
    intro m v hv
    simp only [spec_safe_floor, List.foldl_cons]
    rcases List.mem_cons.mp hv with rfl | hv
    · exact le_trans (spec_safe_floor_le vs (min m v)) (Nat.min_le_right m v)
    · exact ih (min m w) v hv

theorem spec_safe_floor_attained (vs : List Nat) :
    ∀ (m : Nat), spec_safe_floor m vs = m ∨ spec_safe_floor m vs ∈ vs := by
  induction vs with
  | nil => intro m; left; simp [spec_safe_floor]
  | cons w vs ih =>
    intro m
    simp only [spec_safe_floor, List.foldl_cons]
    rcases ih (min m w) with h | h
    · rw [show List.foldl min (min m w) vs = spec_safe_floor (min m w) vs from rfl, h]
      rcases Nat.le_total m w with hle | hle
      · left; exact Nat.min_eq_left hle
      · right; rw [Nat.min_eq_right hle]; exact List.mem_cons_self _ _
    · right; exact List.mem_cons_of_mem _ h

/-! ## ht_gc_free -/

theorem handed_append (l1 l2 : List FreeCall) : handed (l1 ++ l2) = handed l1 ++ handed l2 := by
  simp [handed, List.filterMap_append]

theorem handed_free_chain (c : List Nat) : ∀ log, handed (free_chain c log) = handed log := by
  induction c with
  | nil => intro log; rfl
  | cons a c ih =>
    intro log
    simp only [free_chain]
    rw [ih, handed_append]
    simp [handed, FreeCall.table?]

theorem handed_free_bins (t : List bucket_t) : ∀ log, handed (free_bins t log) = handed log := by
  induction t with
  | nil => intro log; rfl
  | cons b t ih =>
    intro log
    simp only [free_bins]
    rw [ih, handed_free_chain]

theorem ht_gc_free_ok (s : State) (p : Nat) (t : clht_hashtable_t)
    (h : s.tables.load p = some t) :
    ht_gc_free s (some p) = .ok ({ s with
      tables := s.tables.dealloc p,
      freed := free_bins t.table s.freed ++ [.array p] ++ [.descriptor p] }, 1) := by
  simp [ht_gc_free, h]

theorem ht_gc_free_inv (s s1 : State) (p : Ptr) (r : Int) (h : ht_gc_free s p = .ok (s1, r)) :
    ∃ a t, p = some a ∧ s.tables.load a = some t ∧ r = 1 ∧
      s1.tables = s.tables.dealloc a ∧ handed s1.freed = handed s.freed ++ [a] ∧
      s1.hashtable = s.hashtable ∧ s1.records = s.records ∧
      s1.clht_ts_thread = s.clht_ts_thread := by
  cases p with
  | none => simp [ht_gc_free] at h
  | some a =>
    cases ht : s.tables.load a with
    | none => simp [ht_gc_free, ht] at h
    | some t =>
      rw [ht_gc_free_ok s a t ht] at h
      simp only [Except.ok.injEq, Prod.mk.injEq] at h
      obtain ⟨hs, hr⟩ := h
      subst hs
      refine ⟨a, t, rfl, ht, hr.symm, rfl, ?_, rfl, rfl, rfl⟩
      show handed (free_bins t.table s.freed ++ [.array a] ++ [.descriptor a]) = _
      rw [handed_append, handed_append, handed_free_bins]
      simp [handed, FreeCall.table?]

/-! ## The sweep -/

theorem sweep_loop_sound (v : Nat) :
    ∀ (fuel : Nat) (s : State) (cur : Ptr) (g : Int) (s' : State) (cur' : Ptr) (g' : Int),
      sweep_loop v fuel s cur g = .ok (s', cur', g') →
      s'.hashtable = s.hashtable ∧ s'.records = s.records ∧
      s'.clht_ts_thread = s.clht_ts_thread ∧
      (∃ L : List Nat, handed s'.freed = handed s.freed ++ L ∧ g' = g + L.length ∧
        ∀ p ∈ L, ∃ t, s.tables.load p = some t ∧ t.version < v) ∧
      (∀ a t', s'.tables.load a = some t' →
        ∃ t, s.tables.load a = some t ∧ t.version = t'.version ∧ t.table_new = t'.table_new) := by
  intro fuel
  induction fuel with
  | zero => intro s cur g s' cur' g' h; simp [sweep_loop] at h
  | succ fuel ih =>
    intro s cur g s' cur' g' h
    cases cur with
    | none =>
      simp only [sweep_loop, Except.ok.injEq, Prod.mk.injEq] at h
      obtain ⟨rfl, rfl, rfl⟩ := h
      exact ⟨rfl, rfl, rfl, ⟨[], by simp, by simp, by simp⟩, fun a t' h => ⟨t', h, rfl, rfl⟩⟩
    | some c =>
      cases hc : s.tables.load c with
      | none => simp [sweep_loop, hc] at h
      | some t =>
        by_cases hlt : t.version < v
        · cases hn : t.table_new with
          | none => simp [sweep_loop, hc, hlt, hn] at h
          | some n =>
            cases hln : s.tables.load n with
            | none => simp [sweep_loop, hc, hlt, hn, hln] at h
            | some tn =>
              simp only [sweep_loop, hc, hlt, hn, hln, if_true] at h
              split at h
              · simp at h
              · rename_i s1 r hfree
                obtain ⟨a, ta, ha, hta, _, htab, hfreed, hht, hrec, hts⟩ :=
                  ht_gc_free_inv _ _ _ _ hfree
                simp only [Option.some.injEq] at ha
                subst ha
                obtain ⟨h1, h2, h3, ⟨L, hL1, hL2, hL3⟩, h5⟩ := ih s1 _ _ s' cur' g' h
                have hs1 : ∀ a t', s1.tables.load a = some t' →
                    ∃ t, s.tables.load a = some t ∧ t.version = t'.version ∧
                      t.table_new = t'.table_new := by
                  intro a t' hl
                  rw [htab, Heap.load_dealloc] at hl
                  by_cases hca : c = a
                  · simp [hca] at hl
                  · simp only [hca, if_false] at hl
                    rw [Heap.load_store] at hl
                    by_cases hna : n = a
                    · subst hna
                      simp only [if_true, hln, Option.map_some'] at hl
                      simp only [Option.some.injEq] at hl
                      subst hl
                      exact ⟨tn, hln, rfl, rfl⟩
                    · simp only [hna, if_false] at hl
                      exact ⟨t', hl, rfl, rfl⟩
                refine ⟨by rw [h1, hht], by rw [h2, hrec], by rw [h3, hts], ⟨c :: L, ?_, ?_, ?_⟩, ?_⟩
                · rw [hL1, hfreed]; simp
                · rw [hL2]; simp; ring
                · intro p hp
                  rcases List.mem_cons.mp hp with rfl | hp
                  · exact ⟨t, hc, hlt⟩
                  · obtain ⟨t1, ht1, hv1⟩ := hL3 p hp
                    obtain ⟨t0, ht0, hv0, _⟩ := hs1 p t1 ht1
                    exact ⟨t0, ht0, by omega⟩
                · intro a t' hl
                  obtain ⟨t1, ht1, hv1, hn1⟩ := h5 a t' hl
                  obtain ⟨t0, ht0, hv0, hn0⟩ := hs1 a t1 ht1
                  exact ⟨t0, ht0, by rw [hv0, hv1], by rw [hn0, hn1]⟩
        · simp only [sweep_loop, hc, hlt, if_false, Except.ok.injEq, Prod.mk.injEq] at h
          obtain ⟨rfl, rfl, rfl⟩ := h
          exact ⟨rfl, rfl, rfl, ⟨[], by simp, by simp, by simp⟩, fun a t' h => ⟨t', h, rfl, rfl⟩⟩

theorem version_chain_cons_cons (m : Heap clht_hashtable_t) (a b : Nat) (l : List Nat) :
    version_chain m (a :: b :: l) = true ↔
      (∃ t, m.load a = some t ∧ t.table_new = some b) ∧ version_chain m (b :: l) = true := by
  cases h : m.load a <;> simp [version_chain, table_next, h]

theorem version_chain_head (m : Heap clht_hashtable_t) (a : Nat) (l : List Nat)
    (h : version_chain m (a :: l) = true) : ∃ t, m.load a = some t := by
  cases l with
  | nil =>
    cases hl : m.load a with
    | none => simp [version_chain, table_next, hl] at h
    | some t => exact ⟨t, rfl⟩
  | cons b l =>
    rw [version_chain_cons_cons] at h
    obtain ⟨⟨t, ht, _⟩, _⟩ := h
    exact ⟨t, ht⟩

theorem version_chain_tail (m : Heap clht_hashtable_t) (a : Nat) (l : List Nat)
    (h : version_chain m (a :: l) = true) : version_chain m l = true := by
  cases l with
  | nil => rfl
  | cons b l =>
    rw [version_chain_cons_cons] at h
    exact h.2

theorem version_chain_congr (m' m : Heap clht_hashtable_t) :
    ∀ (l : List Nat), (∀ a ∈ l, table_next m' a = table_next m a) →
      version_chain m' l = version_chain m l := by
  intro l
  induction l with
  | nil => intro _; rfl
  | cons a l ih =>
    intro h
    have ha := h a (List.mem_cons_self _ _)
    have hl := ih (fun x hx => h x (List.mem_cons_of_mem _ hx))
    cases l with
    | nil => simp [version_chain, ha]
    | cons b l => simp only [version_chain, ha, hl]

theorem version_chain_allocated (m : Heap clht_hashtable_t) :
    ∀ (l : List Nat), version_chain m l = true → ∀ a ∈ l, ∃ t, m.load a = some t := by
  intro l
  induction l with
  | nil => intro _ a ha; simp at ha
  | cons b l ih =>
    intro h a ha
    rcases List.mem_cons.mp ha with rfl | ha
    · exact version_chain_head m _ l h
    · exact ih (version_chain_tail m b l h) a ha

theorem table_version_of_load (m : Heap clht_hashtable_t) (a : Nat) (t : clht_hashtable_t)
    (h : m.load a = some t) : table_version m a = t.version := by
  simp [table_version, h]

/-- The heap after one iteration of the sweep that frees `q` and clears the
predecessor link of `n`. -/
theorem load_after_iteration (m : Heap clht_hashtable_t) (q n : Nat) (tn : clht_hashtable_t)
    (a : Nat) :
    ((m.store n (null_prev tn)).dealloc q).load a =
      if q = a then none else if n = a then (m.load a).map (fun _ => null_prev tn)
      else m.load a := by
  rw [Heap.load_dealloc, Heap.load_store]

theorem sweep_loop_chain (v : Nat) (ver : Nat → Nat) :
    ∀ (l : List Nat) (s : State) (fuel : Nat) (g : Int),
      version_chain s.tables l = true → l.Nodup →
      (∀ a ∈ l, table_version s.tables a = ver a) →
      (∃ a ∈ l, ¬ ver a < v) → l.length ≤ fuel →
      ∃ s', sweep_loop v fuel s l.head? g
          = .ok (s', (l.dropWhile (fun a => decide (ver a < v))).head?,
              g + ((l.takeWhile (fun a => decide (ver a < v))).length : Int)) ∧
        handed s'.freed = handed s.freed ++ l.takeWhile (fun a => decide (ver a < v)) ∧
        s'.hashtable = s.hashtable ∧ s'.records = s.records ∧
        s'.clht_ts_thread = s.clht_ts_thread ∧
        ∀ a, s'.tables.load a =
          if a ∈ l.takeWhile (fun a => decide (ver a < v)) then none
          else if l.takeWhile (fun a => decide (ver a < v)) ≠ [] ∧
              (l.dropWhile (fun a => decide (ver a < v))).head? = some a
            then (s.tables.load a).map null_prev
          else s.tables.load a := by
  intro l
  induction l with
  | nil => intro s fuel g _ _ _ hstop _; simp at hstop
  | cons q rest ih =>
    intro s fuel g hchain hnd hver hstop hfuel
    cases fuel with
    | zero => simp at hfuel
    | succ fuel =>
      simp only [List.length_cons, Nat.add_le_add_iff_right] at hfuel
      obtain ⟨t, ht⟩ := version_chain_head _ _ _ hchain
      have hvq : t.version = ver q := by
        rw [← hver q (List.mem_cons_self _ _), table_version_of_load _ _ _ ht]
      by_cases hlt : ver q < v
      · -- the node is below the target: it is freed and the walk goes on
        have hstop' : ∃ a ∈ rest, ¬ ver a < v := by
          obtain ⟨a, ha, hav⟩ := hstop
          rcases List.mem_cons.mp ha with rfl | ha
          · exact absurd hlt hav
          · exact ⟨a, ha, hav⟩
        cases rest with
        | nil => simp at hstop'
        | cons n rest' =>
          rw [version_chain_cons_cons] at hchain
          obtain ⟨⟨t0, ht0, hnew⟩, hchain'⟩ := hchain
          rw [ht] at ht0
          simp only [Option.some.injEq] at ht0
          subst ht0
          obtain ⟨tn, htn⟩ := version_chain_head _ _ _ hchain'
          have hqn : q ≠ n := by
            intro h
            rw [List.nodup_cons] at hnd
            exact hnd.1 (h ▸ List.mem_cons_self _ _)
          have hnd' : (n :: rest').Nodup := (List.nodup_cons.mp hnd).2
          have hq_notin : q ∉ n :: rest' := (List.nodup_cons.mp hnd).1
          -- the state after the iteration
          let smid : State := { s with tables := s.tables.store n (null_prev tn) }
          have hmid : smid.tables.load q = some t := by
            show (s.tables.store n (null_prev tn)).load q = some t
            rw [Heap.load_store]; simp [Ne.symm hqn, ht]
          let s1 : State := { smid with
            tables := smid.tables.dealloc q,
            freed := free_bins t.table smid.freed ++ [.array q] ++ [.descriptor q] }
          have hfree : ht_gc_free smid (some q) = .ok (s1, 1) := ht_gc_free_ok smid q t hmid
          have hload1 : ∀ a, s1.tables.load a =
              if q = a then none else if n = a then (s.tables.load a).map (fun _ => null_prev tn)
              else s.tables.load a := fun a => load_after_iteration s.tables q n tn a
          have hnext1 : ∀ a ∈ n :: rest', table_next s1.tables a = table_next s.tables a := by
            intro a ha
            have hqa : q ≠ a := fun h => hq_notin (h ▸ ha)
            simp only [table_next, hload1 a, hqa, if_false]
            by_cases hna : n = a
            · subst hna; simp [htn, null_prev]
            · simp [hna]
          have hver1 : ∀ a ∈ n :: rest', table_version s1.tables a = ver a := by
            intro a ha
            have hqa : q ≠ a := fun h => hq_notin (h ▸ ha)
            rw [← hver a (List.mem_cons_of_mem _ ha)]
            simp only [table_version, hload1 a, hqa, if_false]
            by_cases hna : n = a
            · subst hna; simp [htn, null_prev]
            · simp [hna]
          have hchain1 : version_chain s1.tables (n :: rest') = true := by
            rw [version_chain_congr _ _ _ hnext1]; exact hchain'
          obtain ⟨s', hrun, hfreed, hht, hrec, hts, htab⟩ :=
            ih s1 fuel (g + 1) hchain1 hnd' hver1 hstop' hfuel
          have hfreed1 : handed s1.freed = handed s.freed ++ [q] := by
            show handed (free_bins t.table s.freed ++ [.array q] ++ [.descriptor q]) = _
            rw [handed_append, handed_append, handed_free_bins]
            simp [handed, FreeCall.table?]
          refine ⟨s', ?_, ?_, hht, hrec, hts, ?_⟩
          · have hstep : sweep_loop v (fuel + 1) s (some q) g
                = sweep_loop v fuel s1 (some n) (g + 1) := by
              have hlt' : t.version < v := by rw [hvq]; exact hlt
              simp only [sweep_loop, ht, hlt', hnew, htn, if_true]
              have : ht_gc_free { s with tables := s.tables.store n { tn with table_prev := none } }
                  (some q) = .ok (s1, 1) := hfree
              rw [this]
            simp only [List.head?_cons] at hrun ⊢
            rw [hstep, hrun]
            simp [List.takeWhile_cons, List.dropWhile_cons, hlt]
            ring
          · rw [hfreed, hfreed1]
            simp [List.takeWhile_cons, hlt]
          · intro a
            rw [htab a, hload1 a]
            have hT : (q :: n :: rest').takeWhile (fun a => decide (ver a < v))
                = q :: (n :: rest').takeWhile (fun a => decide (ver a < v)) := by
              simp [List.takeWhile_cons, hlt]
            have hD : (q :: n :: rest').dropWhile (fun a => decide (ver a < v))
                = (n :: rest').dropWhile (fun a => decide (ver a < v)) := by
              simp [List.dropWhile_cons, hlt]
            rw [hT, hD]
            have hqT : q ∉ (n :: rest').takeWhile (fun a => decide (ver a < v)) :=
              fun h => hq_notin ((List.takeWhile_sublist _).subset h)
            have hqD : ((n :: rest').dropWhile (fun a => decide (ver a < v))).head? ≠ some q := by
              intro h
              exact hq_notin ((List.dropWhile_sublist _).subset (List.mem_of_mem_head? h))
            by_cases haq : q = a
            · subst haq
              simp [hqT, hqD]
            · have haq' : a ≠ q := fun h => haq h.symm
              by_cases hbn : ver n < v
              · by_cases han : n = a
                · subst han
                  simp [List.takeWhile_cons, hbn]
                · have han' : a ≠ n := fun h => han h.symm
                  simp [List.takeWhile_cons, List.dropWhile_cons, hbn, haq, han, haq', han']
              · by_cases han : n = a
                · subst han
                  simp [List.takeWhile_cons, List.dropWhile_cons, hbn, haq, haq', htn]
                · have han' : a ≠ n := fun h => han h.symm
                  simp [List.takeWhile_cons, List.dropWhile_cons, hbn, haq, han, haq', han']
      · -- the walk stops here
        refine ⟨s, ?_, ?_, rfl, rfl, rfl, ?_⟩
        · have hlt' : ¬ t.version < v := by rw [hvq]; exact hlt
          simp [sweep_loop, ht, hlt', List.takeWhile_cons, List.dropWhile_cons, hlt]
        · simp [List.takeWhile_cons, hlt]
        · intro a
          simp [List.takeWhile_cons, hlt]

/-! ## Version chains -/

theorem chain_to_current_iff (s : State) (chain : List Nat) :
    chain_to_current s chain = true ↔
      ∃ pre c, chain = pre ++ [c] ∧ s.hashtable.ht = some c ∧
        s.hashtable.ht_oldest = chain.head? ∧ version_chain s.tables chain = true ∧ c ∉ pre := by
  constructor
  · intro h
    unfold chain_to_current at h
    cases hl : chain.getLast? with
    | none => simp [hl] at h
    | some c =>
      simp only [hl, Bool.and_eq_true, beq_iff_eq, Bool.not_eq_true'] at h
      obtain ⟨⟨⟨h1, h2⟩, h3⟩, h4⟩ := h
      have hne : chain ≠ [] := by intro h0; simp [h0] at hl
      have hlast : chain.getLast hne = c := by
        rw [List.getLast?_eq_getLast _ hne] at hl
        exact Option.some.inj hl
      refine ⟨chain.dropLast, c, ?_, h1, h2, h3, by simpa using h4⟩
      rw [← hlast]
      exact (List.dropLast_append_getLast hne).symm
  · rintro ⟨pre, c, rfl, h1, h2, h3, h4⟩
    unfold chain_to_current
    simp [h1, h2, h3, h4]

theorem version_chain_suffix (m : Heap clht_hashtable_t) :
    ∀ (l1 l2 : List Nat), version_chain m (l1 ++ l2) = true → version_chain m l2 = true := by
  intro l1
  induction l1 with
  | nil => intro l2 h; exact h
  | cons a l1 ih =>
    intro l2 h
    exact ih l2 (version_chain_tail m a _ h)

/-- Two walks from the same table agree as far as the shorter one goes. -/
theorem version_chain_det (m : Heap clht_hashtable_t) :
    ∀ (x y : List Nat) (a : Nat), version_chain m (a :: x) = true →
      version_chain m (a :: y) = true → x.length ≤ y.length → ∃ z, y = x ++ z := by
  intro x
  induction x with
  | nil => intro y a _ _ _; exact ⟨y, rfl⟩
  | cons b x ih =>
    intro y a hx hy hlen
    cases y with
    | nil => simp at hlen
    | cons b' y =>
      rw [version_chain_cons_cons] at hx hy
      obtain ⟨⟨t, ht, hb⟩, hx'⟩ := hx
      obtain ⟨⟨t', ht', hb'⟩, hy'⟩ := hy
      rw [ht] at ht'
      simp only [Option.some.injEq] at ht'
      subst ht'
      rw [hb] at hb'
      simp only [Option.some.injEq] at hb'
      subst hb'
      simp only [List.length_cons, Nat.add_le_add_iff_right] at hlen
      obtain ⟨z, hz⟩ := ih y b hx' hy' hlen
      exact ⟨z, by rw [hz]; rfl⟩

theorem version_chain_nodup (m : Heap clht_hashtable_t) (c : Nat) :
    ∀ (pre : List Nat), version_chain m (pre ++ [c]) = true → c ∉ pre →
      (pre ++ [c]).Nodup := by
  intro pre
  induction pre with
  | nil => intro _ _; simp
  | cons a pre ih =>
    intro h hc
    have hca : c ≠ a := fun e => hc (e ▸ List.mem_cons_self _ _)
    have hcp : c ∉ pre := fun e => hc (List.mem_cons_of_mem _ e)
    have hnd := ih (version_chain_tail m a _ h) hcp
    simp only [List.cons_append]
    refine List.nodup_cons.mpr ⟨?_, hnd⟩
    intro hmem
    rcases List.mem_append.mp hmem with hmem | hmem
    · obtain ⟨l1, l2, hsplit⟩ := List.append_of_mem hmem
      subst hsplit
      -- the walk from the second occurrence of `a` is a shorter walk from `a`
      have hshort : version_chain m (a :: (l2 ++ [c])) = true := by
        have := version_chain_suffix m (a :: l1) (a :: l2 ++ [c])
          (by simpa using h)
        simpa using this
      have hlong : version_chain m (a :: ((l1 ++ a :: l2) ++ [c])) = true := by simpa using h
      obtain ⟨z, hz⟩ := version_chain_det m (l2 ++ [c]) ((l1 ++ a :: l2) ++ [c]) a hshort hlong
        (by simp; omega)
      have hzne : z ≠ [] := by
        intro hz0
        rw [hz0] at hz
        have := congrArg List.length hz
        simp at this
        omega
      obtain ⟨z', e, rfl⟩ : ∃ z' e, z = z' ++ [e] :=
        ⟨z.dropLast, z.getLast hzne, (List.dropLast_append_getLast hzne).symm⟩
      have hz2 : (l1 ++ a :: l2) ++ [c] = (l2 ++ c :: z') ++ [e] := by
        rw [hz]; simp
      have := List.append_inj_left' hz2 rfl
      apply hc
      rw [this]
      simp
    · simp at hmem
      exact hca hmem.symm

/-! ## The collector -/

theorem deref_table_ok (s : State) (a : Nat) (t : clht_hashtable_t)
    (h : s.tables.load a = some t) : deref_table s (some a) = .ok t := by
  simp [deref_table, h]

theorem deref_table_inv (s : State) (p : Ptr) (t : clht_hashtable_t)
    (h : deref_table s p = .ok t) : ∃ a, p = some a ∧ s.tables.load a = some t := by
  cases p with
  | none => simp [deref_table] at h
  | some a =>
    cases hl : s.tables.load a with
    | none => simp [deref_table, hl] at h
    | some t' =>
      simp [deref_table, hl] at h
      exact ⟨a, rfl, h ▸ hl⟩

theorem min_version_loop_registry (records : Heap ht_ts_t) :
    ∀ (fuel : Nat) (p : Ptr) (m r : Nat), min_version_loop records fuel p m = .ok r →
      ∃ rs, registry records p rs = true ∧ rs.length ≤ fuel := by
  intro fuel
  induction fuel with
  | zero =>
    intro p m r h
    cases p with
    | none => exact ⟨[], by simp [registry], by simp⟩
    | some a => simp [min_version_loop] at h
  | succ fuel ih =>
    intro p m r h
    cases p with
    | none => exact ⟨[], by simp [registry], by simp⟩
    | some a =>
      cases hl : records.load a with
      | none => simp [min_version_loop, hl] at h
      | some rec =>
        simp only [min_version_loop, hl] at h
        obtain ⟨rs, hrs, hlen⟩ := ih _ _ _ h
        refine ⟨a :: rs, ?_, by simp; omega⟩
        rw [registry_cons]
        exact ⟨rfl, rec, hl, hrs⟩

theorem min_version_used_of_registry (s : State) (c : Nat) (t : clht_hashtable_t)
    (rs : List Nat) (hht : s.hashtable.ht = some c) (ht : s.tables.load c = some t)
    (hreg : registry s.records s.hashtable.version_list rs = true) :
    ht_gc_min_version_used s
      = .ok (spec_safe_floor t.version (rs.map (record_version s.records))) := by
  have hd : deref_table s s.hashtable.ht = .ok t := by rw [hht]; exact deref_table_ok s c t ht
  simp only [ht_gc_min_version_used, hd, bind, Except.bind]
  exact min_version_loop_eq s.records rs _ _ _ hreg (registry_length_le _ _ _ hreg)

theorem min_version_used_inv (s : State) (m : Nat) (h : ht_gc_min_version_used s = .ok m) :
    ∃ c t rs, s.hashtable.ht = some c ∧ s.tables.load c = some t ∧
      registry s.records s.hashtable.version_list rs = true ∧
      m = spec_safe_floor t.version (rs.map (record_version s.records)) := by
  cases hd : deref_table s s.hashtable.ht with
  | error e => simp [ht_gc_min_version_used, hd, bind, Except.bind] at h
  | ok t =>
    obtain ⟨c, hc, hl⟩ := deref_table_inv _ _ _ hd
    simp only [ht_gc_min_version_used, hd, bind, Except.bind] at h
    obtain ⟨rs, hrs, _⟩ := min_version_loop_registry _ _ _ _ _ h
    refine ⟨c, t, rs, hc, hl, hrs, ?_⟩
    have := min_version_used_of_registry s c t rs hc hl hrs
    simp only [ht_gc_min_version_used, hd, bind, Except.bind] at this
    rw [this] at h
    exact (Except.ok.inj h).symm

theorem target_floor_le_current (s : State) (c : Int) (target : Nat) (cur : clht_hashtable_t)
    (hd : deref_table s s.hashtable.ht = .ok cur) (h : target_floor s c = .ok target) :
    target ≤ cur.version := by
  unfold target_floor at h
  by_cases hc : c ≠ 0
  · rw [if_pos hc] at h
    obtain ⟨a, t, rs, ha, ht, _, hm⟩ := min_version_used_inv s target h
    obtain ⟨a', ha', ht'⟩ := deref_table_inv _ _ _ hd
    rw [ha] at ha'
    simp only [Option.some.injEq] at ha'
    subst ha'
    rw [ht] at ht'
    simp only [Option.some.injEq] at ht'
    subst ht'
    rw [hm]
    exact spec_safe_floor_le _ _
  · have hc0 : c = 0 := by simpa using hc
    subst hc0
    simp [hd, Except.map] at h
    omega

theorem collect_cond_floor_reached (s : State) (c : Int) (cur : clht_hashtable_t)
    (hd : deref_table s s.hashtable.ht = .ok cur)
    (h : cur.version ≤ s.hashtable.version_min) : ht_gc_collect_cond s c = .ok (s, 0) := by
  simp [ht_gc_collect_cond, hd, bind, Except.bind, h, pure, Except.pure]

theorem collect_cond_gate_held (s : State) (c : Int) (cur : clht_hashtable_t)
    (hd : deref_table s s.hashtable.ht = .ok cur)
    (h : s.hashtable.gc_lock = true) : ht_gc_collect_cond s c = .ok (s, 0) := by
  have hs : ({ s with hashtable := { s.hashtable with gc_lock := true } } : State) = s := by
    cases s with
    | mk hashtable tables records tls freed =>
      cases hashtable
      simp at h
      simp [h]
  by_cases hv : cur.version ≤ s.hashtable.version_min
  · exact collect_cond_floor_reached s c cur hd hv
  · simp [ht_gc_collect_cond, hd, bind, Except.bind, hv, pure, Except.pure, TRYLOCK_ACQ, h, hs]

theorem min_version_used_lock (s : State) (b : Bool) :
    ht_gc_min_version_used { s with hashtable := { s.hashtable with gc_lock := b } }
      = ht_gc_min_version_used s := rfl

theorem state_lock_eq (s : State) (h : s.hashtable.gc_lock = false) :
    ({ s with hashtable := { s.hashtable with gc_lock := false } } : State) = s := by
  cases s with
  | mk hashtable tables records tls freed =>
    cases hashtable
    simp at h
    simp [h]

/-- The call with the gate free and the floor below the current version: the
scan, then either nothing to do or the sweep. -/
theorem collect_cond_open (s : State) (c : Int) (cur : clht_hashtable_t)
    (hd : deref_table s s.hashtable.ht = .ok cur)
    (hlt : s.hashtable.version_min < cur.version) (hg : s.hashtable.gc_lock = false) :
    ht_gc_collect_cond s c =
      match target_floor s c with
      | .error e => .error e
      | .ok target =>
        if target ≤ s.hashtable.version_min then .ok (s, 0)
        else
          match sweep_loop target (s.tables.length + 1)
              { s with hashtable := { s.hashtable with gc_lock := true } }
              s.hashtable.ht_oldest 0 with
          | .error e => .error e
          | .ok (s1, p, g) =>
            match deref_table s1 p with
            | .error e => .error e
            | .ok t => .ok ({ s1 with hashtable :=
                { s1.hashtable with version_min := t.version, ht_oldest := p,
                                    gc_lock := false } }, g) := by
  have hv : ¬ cur.version ≤ s.hashtable.version_min := by omega
  have htf : target_floor s c =
      if c ≠ 0 then ht_gc_min_version_used s else .ok cur.version := by
    simp [target_floor, hd, Except.map]
  rw [htf]
  simp only [ht_gc_collect_cond, hd, bind, Except.bind, hv, pure, Except.pure, TRYLOCK_ACQ, hg,
    TRYLOCK_RLS, ge_iff_le, if_false, Bool.false_eq_true]
  by_cases hc : c ≠ 0
  · simp only [if_pos hc, min_version_used_lock]
    cases hm : ht_gc_min_version_used s with
    | error e => rfl
    | ok target =>
      simp only []
      by_cases ht : target ≤ s.hashtable.version_min
      · simp only [if_pos ht, state_lock_eq s hg]
      · simp only [if_neg ht]
        cases hsw : sweep_loop target (s.tables.length + 1)
            { s with hashtable := { s.hashtable with gc_lock := true } }
            s.hashtable.ht_oldest 0 with
        | error e => rfl
        | ok r =>
          obtain ⟨s1, p, g⟩ := r
          simp only []
          cases deref_table s1 p <;> rfl
  · simp only [if_neg hc]
    by_cases ht : cur.version ≤ s.hashtable.version_min
    · exact absurd ht hv
    · simp only [if_neg ht]
      cases hsw : sweep_loop cur.version (s.tables.length + 1)
          { s with hashtable := { s.hashtable with gc_lock := true } }
          s.hashtable.ht_oldest 0 with
      | error e => rfl
      | ok r =>
        obtain ⟨s1, p, g⟩ := r
        simp only []
        cases deref_table s1 p <;> rfl

theorem chain_to_current_facts (s : State) (chain : List Nat)
    (h : chain_to_current s chain = true) :
    ∃ c cur, c ∈ chain ∧ chain.getLast? = some c ∧ s.hashtable.ht = some c ∧
      s.tables.load c = some cur ∧ deref_table s s.hashtable.ht = .ok cur ∧
      s.hashtable.ht_oldest = chain.head? ∧ version_chain s.tables chain = true ∧
      chain.Nodup ∧ chain.length ≤ s.tables.length := by
  obtain ⟨pre, c, rfl, h1, h2, h3, h4⟩ := (chain_to_current_iff s chain).mp h
  have hmem : c ∈ pre ++ [c] := by simp
  obtain ⟨cur, hcur⟩ := version_chain_allocated _ _ h3 c hmem
  have hnd := version_chain_nodup s.tables c pre h3 h4
  refine ⟨c, cur, hmem, by simp, h1, hcur, ?_, h2, h3, hnd, ?_⟩
  · rw [h1]; exact deref_table_ok s c cur hcur
  · exact Heap.length_le_of_nodup _ _ hnd (version_chain_allocated _ _ h3)

theorem collect_cond_sweep (s : State) (c : Int) (chain : List Nat) (target : Nat)
    (hg : s.hashtable.gc_lock = false) (hchain : chain_to_current s chain = true)
    (htarget : target_floor s c = .ok target) (hfloor : s.hashtable.version_min < target) :
    ∃ s' d, ht_gc_collect_cond s c = .ok (s',
          ((chain.takeWhile (fun a => decide (table_version s.tables a < target))).length : Int)) ∧
      (chain.dropWhile (fun a => decide (table_version s.tables a < target))).head? = some d ∧
      target ≤ table_version s.tables d ∧
      s'.hashtable = { s.hashtable with
        version_min := table_version s.tables d, ht_oldest := some d } ∧
      s'.records = s.records ∧ s'.clht_ts_thread = s.clht_ts_thread ∧
      handed s'.freed = handed s.freed ++
        chain.takeWhile (fun a => decide (table_version s.tables a < target)) ∧
      ∀ a, s'.tables.load a =
        if a ∈ chain.takeWhile (fun a => decide (table_version s.tables a < target)) then none
        else if chain.takeWhile (fun a => decide (table_version s.tables a < target)) ≠ [] ∧
            (chain.dropWhile (fun a => decide (table_version s.tables a < target))).head? = some a
          then (s.tables.load a).map null_prev
        else s.tables.load a := by
  obtain ⟨cc, cur, hmem, _, hht, hcur, hd, hold, hvc, hnd, hlen⟩ :=
    chain_to_current_facts s chain hchain
  have htc : target ≤ cur.version := target_floor_le_current s c target cur hd htarget
  have hstop : ∃ a ∈ chain, ¬ table_version s.tables a < target :=
    ⟨cc, hmem, by rw [table_version_of_load _ _ _ hcur]; omega⟩
  obtain ⟨s1, hrun, hfreed, hhash, hrec, hts, htab⟩ :=
    sweep_loop_chain target (table_version s.tables) chain
      { s with hashtable := { s.hashtable with gc_lock := true } } (s.tables.length + 1) 0
      hvc hnd (fun _ _ => rfl) hstop (by omega)
  -- the node at which the walk stops
  have hDne : chain.dropWhile (fun a => decide (table_version s.tables a < target)) ≠ [] := by
    intro h0
    rw [List.dropWhile_eq_nil_iff] at h0
    obtain ⟨a, ha, hna⟩ := hstop
    exact hna (by simpa using h0 a ha)
  obtain ⟨d, hdhead⟩ : ∃ d,
      (chain.dropWhile (fun a => decide (table_version s.tables a < target))).head? = some d := by
    cases hD : chain.dropWhile (fun a => decide (table_version s.tables a < target)) with
    | nil => exact absurd hD hDne
    | cons d _ => exact ⟨d, rfl⟩
  have hdnot : ¬ table_version s.tables d < target := by
    have := List.head?_dropWhile_not (fun a => decide (table_version s.tables a < target)) chain
    rw [hdhead] at this
    simpa using this
  have hdchain : d ∈ chain :=
    (List.dropWhile_sublist _).subset (List.mem_of_mem_head? hdhead)
  obtain ⟨td, htd⟩ := version_chain_allocated _ _ hvc d hdchain
  have hdT : d ∉ chain.takeWhile (fun a => decide (table_version s.tables a < target)) := by
    intro h
    have := List.mem_takeWhile_imp h
    exact hdnot (by simpa using this)
  have hderef : ∃ t1, deref_table s1 (some d) = .ok t1 ∧ t1.version = table_version s.tables d := by
    have h1 := htab d
    simp only [hdT, if_false] at h1
    change s1.tables.load d = _ at h1
    rw [table_version_of_load _ _ _ htd]
    by_cases hT : chain.takeWhile (fun a => decide (table_version s.tables a < target)) ≠ []
        ∧ (chain.dropWhile (fun a => decide (table_version s.tables a < target))).head? = some d
    · rw [if_pos hT] at h1
      have h1' : s1.tables.load d = some (null_prev td) := by
        rw [h1]; show Option.map null_prev (s.tables.load d) = _; rw [htd]; rfl
      exact ⟨null_prev td, deref_table_ok s1 d _ h1', rfl⟩
    · rw [if_neg hT] at h1
      have h1' : s1.tables.load d = some td := by rw [h1]; exact htd
      exact ⟨td, deref_table_ok s1 d _ h1', rfl⟩
  obtain ⟨t1, ht1, hv1⟩ := hderef
  have hlt : s.hashtable.version_min < cur.version := by omega
  refine ⟨{ s1 with hashtable := { s1.hashtable with
      version_min := t1.version, ht_oldest := some d, gc_lock := false } }, d, ?_, hdhead,
      by omega, ?_, hrec, hts, hfreed, htab⟩
  · rw [collect_cond_open s c cur hd hlt hg, htarget]
    have hnt : ¬ target ≤ s.hashtable.version_min := by omega
    simp only [if_neg hnt]
    rw [← hold] at hrun
    rw [hrun, hdhead]
    simp only [ht1, zero_add]
  · have e1 : s1.hashtable = { s.hashtable with gc_lock := true } := hhash
    simp only [e1, hv1]
    cases hs : s.hashtable
    rw [hs] at hg
    simp at hg
    simp [hg]

theorem registered_mem_registry (records : Heap ht_ts_t) (p : Ptr) (a : Nat)
    (h : registered records p a) :
    ∀ rs, registry records p rs = true → a ∈ rs := by
  induction h with
  | head a =>
    intro rs hrs
    cases rs with
    | nil => simp [registry] at hrs
    | cons b rs =>
      rw [registry_cons] at hrs
      simp only [Option.some.injEq] at hrs
      rw [hrs.1]; exact List.mem_cons_self _ _
  | tail b a r hr _ ih =>
    intro rs hrs
    cases rs with
    | nil => simp [registry] at hrs
    | cons b' rs =>
      rw [registry_cons] at hrs
      obtain ⟨hb, r', hr', hrest⟩ := hrs
      simp only [Option.some.injEq] at hb
      subst hb
      rw [hr] at hr'
      simp only [Option.some.injEq] at hr'
      subst hr'
      exact List.mem_cons_of_mem _ (ih rs hrest)

/-- Every way in which a call of `ht_gc_collect_cond` returns. -/
theorem collect_cond_inv (s : State) (c : Int) (s' : State) (n : Int)
    (h : ht_gc_collect_cond s c = .ok (s', n)) :
    ∃ cur, deref_table s s.hashtable.ht = .ok cur ∧
      ((s' = s ∧ n = 0) ∨
        (s.hashtable.version_min < cur.version ∧ s.hashtable.gc_lock = false ∧
          ∃ target s1 p t, target_floor s c = .ok target ∧
            s.hashtable.version_min < target ∧
            sweep_loop target (s.tables.length + 1)
              { s with hashtable := { s.hashtable with gc_lock := true } }
              s.hashtable.ht_oldest 0 = .ok (s1, p, n) ∧
            deref_table s1 p = .ok t ∧
            s' = { s1 with hashtable := { s1.hashtable with
              version_min := t.version, ht_oldest := p, gc_lock := false } })) := by
  cases hd : deref_table s s.hashtable.ht with
  | error e => simp [ht_gc_collect_cond, hd, bind, Except.bind] at h
  | ok cur =>
    refine ⟨cur, rfl, ?_⟩
    by_cases hv : cur.version ≤ s.hashtable.version_min
    · rw [collect_cond_floor_reached s c cur hd hv] at h
      simp only [Except.ok.injEq, Prod.mk.injEq] at h
      exact Or.inl ⟨h.1.symm, h.2.symm⟩
    · by_cases hg : s.hashtable.gc_lock = true
      · rw [collect_cond_gate_held s c cur hd hg] at h
        simp only [Except.ok.injEq, Prod.mk.injEq] at h
        exact Or.inl ⟨h.1.symm, h.2.symm⟩
      · have hg' : s.hashtable.gc_lock = false := by simpa using hg
        rw [collect_cond_open s c cur hd (by omega) hg'] at h
        cases htf : target_floor s c with
        | error e => simp [htf] at h
        | ok target =>
          simp only [htf] at h
          by_cases ht : target ≤ s.hashtable.version_min
          · simp only [if_pos ht, Except.ok.injEq, Prod.mk.injEq] at h
            exact Or.inl ⟨h.1.symm, h.2.symm⟩
          · simp only [if_neg ht] at h
            cases hsw : sweep_loop target (s.tables.length + 1)
                { s with hashtable := { s.hashtable with gc_lock := true } }
                s.hashtable.ht_oldest 0 with
            | error e => simp [hsw] at h
            | ok r =>
              obtain ⟨s1, p, g⟩ := r
              simp only [hsw] at h
              cases hdp : deref_table s1 p with
              | error e => simp [hdp] at h
              | ok t =>
                simp only [hdp, Except.ok.injEq, Prod.mk.injEq] at h
                obtain ⟨h1, h2⟩ := h
                subst h2
                exact Or.inr ⟨by omega, hg', target, s1, p, t, rfl, by omega, hsw, hdp,
                  h1.symm⟩

/-! ## Lists of increasing versions -/

theorem takeWhile_eq_filter_of_sorted (ver : Nat → Nat) (x : Nat) :
    ∀ (l : List Nat), (l.map ver).Pairwise (· < ·) →
      l.takeWhile (fun a => decide (ver a < x)) = l.filter (fun a => decide (ver a < x)) := by
  intro l
  induction l with
  | nil => intro _; rfl
  | cons a l ih =>
    intro h
    simp only [List.map_cons, List.pairwise_cons] at h
    obtain ⟨ha, hl⟩ := h
    by_cases hp : ver a < x
    · simp [List.takeWhile_cons, List.filter_cons, hp, ih hl]
    · have hnil : l.filter (fun a => decide (ver a < x)) = [] := by
        rw [List.filter_eq_nil_iff]
        intro b hb
        have := ha (ver b) (List.mem_map_of_mem _ hb)
        simp; omega
      simp [List.takeWhile_cons, List.filter_cons, hp, hnil]

theorem dropWhile_eq_filter_of_sorted (ver : Nat → Nat) (x : Nat) :
    ∀ (l : List Nat), (l.map ver).Pairwise (· < ·) →
      l.dropWhile (fun a => decide (ver a < x)) = l.filter (fun a => decide (x ≤ ver a)) := by
  intro l
  induction l with
  | nil => intro _; rfl
  | cons a l ih =>
    intro h
    simp only [List.map_cons, List.pairwise_cons] at h
    obtain ⟨ha, hl⟩ := h
    by_cases hp : ver a < x
    · have hp' : ¬ x ≤ ver a := by omega
      simp [List.dropWhile_cons, List.filter_cons, hp, hp', ih hl]
    · have hp' : x ≤ ver a := by omega
      have hself : l.filter (fun a => decide (x ≤ ver a)) = l := by
        rw [List.filter_eq_self]
        intro b hb
        have := ha (ver b) (List.mem_map_of_mem _ hb)
        simp; omega
      simp [List.dropWhile_cons, List.filter_cons, hp, hp', hself]

/-- In a chain with one table for each version from `v0` on, the first table
that is not below `x` has version `x`. -/
theorem head_dropWhile_of_contiguous (ver : Nat → Nat) (x : Nat) :
    ∀ (l : List Nat) (v0 : Nat), l.map ver = List.range' v0 l.length → v0 ≤ x →
      (∃ a ∈ l, x ≤ ver a) →
      ∃ d, (l.dropWhile (fun a => decide (ver a < x))).head? = some d ∧ ver d = x := by
  intro l
  induction l with
  | nil => intro v0 _ _ h; simp at h
  | cons a l ih =>
    intro v0 hmap hv0 hex
    simp only [List.map_cons, List.length_cons, List.range'_succ, List.cons.injEq] at hmap
    obtain ⟨ha, hl⟩ := hmap
    by_cases hp : ver a < x
    · have hex' : ∃ b ∈ l, x ≤ ver b := by
        obtain ⟨b, hb, hxb⟩ := hex
        rcases List.mem_cons.mp hb with rfl | hb
        · omega
        · exact ⟨b, hb, hxb⟩
      obtain ⟨d, hd, hvd⟩ := ih (v0 + 1) hl (by omega) hex'
      exact ⟨d, by simpa [List.dropWhile_cons, hp] using hd, hvd⟩
    · exact ⟨a, by simp [List.dropWhile_cons, hp], by omega⟩

theorem sorted_of_contiguous (ver : Nat → Nat) (l : List Nat) (v0 : Nat)
    (h : l.map ver = List.range' v0 l.length) : (l.map ver).Pairwise (· < ·) := by
  rw [h]
  exact List.pairwise_lt_range' v0 l.length

/-! ## The chain after a sweep -/

theorem chain_to_current_intro (s : State) (chain : List Nat) (c : Nat)
    (hlast : chain.getLast? = some c) (hnd : chain.Nodup) (hht : s.hashtable.ht = some c)
    (hold : s.hashtable.ht_oldest = chain.head?) (hvc : version_chain s.tables chain = true) :
    chain_to_current s chain = true := by
  rw [chain_to_current_iff]
  obtain ⟨pre, rfl⟩ := List.getLast?_eq_some_iff.mp hlast
  refine ⟨pre, c, rfl, hht, hold, hvc, ?_⟩
  intro hmem
  have := List.nodup_append.mp hnd
  exact this.2.2 hmem (List.mem_singleton_self c)

theorem chain_after_sweep (s s' : State) (chain : List Nat) (p : Nat → Bool) (d : Nat)
    (hchain : chain_to_current s chain = true)
    (hht : s'.hashtable.ht = s.hashtable.ht) (hold : s'.hashtable.ht_oldest = some d)
    (hd : (chain.dropWhile p).head? = some d)
    (htab : ∀ a, s'.tables.load a =
        if a ∈ chain.takeWhile p then none
        else if chain.takeWhile p ≠ [] ∧ (chain.dropWhile p).head? = some a
          then (s.tables.load a).map null_prev
        else s.tables.load a) :
    chain_to_current s' (chain.dropWhile p) = true ∧
      (∀ a ∈ chain.dropWhile p, table_version s'.tables a = table_version s.tables a) ∧
      (∀ a ∈ chain.takeWhile p, s'.tables.load a = none) := by
  obtain ⟨c, cur, _, hlast, hhtc, _, _, _, hvc, hnd, _⟩ := chain_to_current_facts s chain hchain
  have hsplit : chain.takeWhile p ++ chain.dropWhile p = chain := List.takeWhile_append_dropWhile p chain
  have hnd' : (chain.takeWhile p ++ chain.dropWhile p).Nodup := by rw [hsplit]; exact hnd
  have hdisj := (List.nodup_append.mp hnd').2.2
  have hDne : chain.dropWhile p ≠ [] := by
    intro h0; rw [h0] at hd; simp at hd
  have hload : ∀ a ∈ chain.dropWhile p,
      s'.tables.load a = (s.tables.load a).map null_prev ∨ s'.tables.load a = s.tables.load a := by
    intro a ha
    have hnotT : a ∉ chain.takeWhile p := fun h => hdisj h ha
    have := htab a
    simp only [hnotT, if_false] at this
    by_cases hc : chain.takeWhile p ≠ [] ∧ (chain.dropWhile p).head? = some a
    · rw [if_pos hc] at this; exact Or.inl this
    · rw [if_neg hc] at this; exact Or.inr this
  have hver : ∀ a ∈ chain.dropWhile p, table_version s'.tables a = table_version s.tables a := by
    intro a ha
    rcases hload a ha with h | h
    · simp only [table_version, h]
      cases s.tables.load a <;> simp [null_prev]
    · simp only [table_version, h]
  have hnext : ∀ a ∈ chain.dropWhile p, table_next s'.tables a = table_next s.tables a := by
    intro a ha
    rcases hload a ha with h | h
    · simp only [table_next, h]
      cases s.tables.load a <;> simp [null_prev]
    · simp only [table_next, h]
  refine ⟨?_, hver, ?_⟩
  · apply chain_to_current_intro s' _ c
    · rw [← hsplit, List.getLast?_append_of_ne_nil _ hDne] at hlast
      exact hlast
    · exact (List.nodup_append.mp hnd').2.1
    · rw [hht, hhtc]
    · rw [hold, hd]
    · rw [version_chain_congr _ _ _ hnext]
      apply version_chain_suffix s.tables (chain.takeWhile p)
      rw [hsplit]; exact hvc
  · intro a ha
    have := htab a
    simpa [ha] using this

theorem sorted_chain_split (ver : Nat → Nat) (pre : List Nat) (c : Nat)
    (h : ((pre ++ [c]).map ver).Pairwise (· < ·)) :
    (pre ++ [c]).takeWhile (fun a => decide (ver a < ver c)) = pre ∧
      (pre ++ [c]).dropWhile (fun a => decide (ver a < ver c)) = [c] := by
  have hlt : ∀ a ∈ pre, ver a < ver c := by
    intro a ha
    rw [List.map_append, List.pairwise_append] at h
    exact h.2.2 (ver a) (List.mem_map_of_mem _ ha) (ver c) (by simp)
  have h1 : pre.filter (fun a => decide (ver a < ver c)) = pre := by
    rw [List.filter_eq_self]; intro a ha; simpa using hlt a ha
  have h2 : pre.filter (fun a => decide (ver c ≤ ver a)) = [] := by
    rw [List.filter_eq_nil_iff]; intro a ha; have := hlt a ha; simp; omega
  rw [takeWhile_eq_filter_of_sorted _ _ _ h, dropWhile_eq_filter_of_sorted _ _ _ h]
  simp [List.filter_append, h1, h2, List.filter_cons]

theorem collect_cond_returns (s : State) (c : Int) (chain : List Nat) (target : Nat)
    (hchain : chain_to_current s chain = true) (htarget : target_floor s c = .ok target) :
    ∃ s' n, ht_gc_collect_cond s c = .ok (s', n) := by
  obtain ⟨_, cur, _, _, _, _, hd, _⟩ := chain_to_current_facts s chain hchain
  by_cases hv : cur.version ≤ s.hashtable.version_min
  · exact ⟨s, 0, collect_cond_floor_reached s c cur hd hv⟩
  · by_cases hg : s.hashtable.gc_lock = true
    · exact ⟨s, 0, collect_cond_gate_held s c cur hd hg⟩
    · have hg' : s.hashtable.gc_lock = false := by simpa using hg
      by_cases ht : target ≤ s.hashtable.version_min
      · refine ⟨s, 0, ?_⟩
        rw [collect_cond_open s c cur hd (by omega) hg', htarget]
        simp only [if_pos ht]
      · obtain ⟨s', _, hcall, _⟩ :=
          collect_cond_sweep s c chain target hg' hchain htarget (by omega)
        exact ⟨s', _, hcall⟩

/-- What a call of `ht_gc_collect_cond` that returns has done to a container
with a chain from `ht_oldest` to the current table: nothing, or a sweep of the
chain up to a target floor above `version_min`. -/
theorem collect_cond_chain_inv (s : State) (c : Int) (chain : List Nat) (s' : State) (n : Int)
    (hchain : chain_to_current s chain = true)
    (hcall : ht_gc_collect_cond s c = .ok (s', n)) :
    (s' = s ∧ n = 0) ∨
      ∃ target d, s.hashtable.version_min < target ∧
        n = ((chain.takeWhile (fun a => decide (table_version s.tables a < target))).length : Int) ∧
        (chain.dropWhile (fun a => decide (table_version s.tables a < target))).head? = some d ∧
        target ≤ table_version s.tables d ∧
        s'.hashtable = { s.hashtable with
          version_min := table_version s.tables d, ht_oldest := some d } ∧
        s'.records = s.records ∧ s'.clht_ts_thread = s.clht_ts_thread ∧
        handed s'.freed = handed s.freed ++
          chain.takeWhile (fun a => decide (table_version s.tables a < target)) ∧
        chain_to_current s'
          (chain.dropWhile (fun a => decide (table_version s.tables a < target))) = true ∧
        (∀ a ∈ chain.dropWhile (fun a => decide (table_version s.tables a < target)),
          table_version s'.tables a = table_version s.tables a) ∧
        (∀ a ∈ chain.takeWhile (fun a => decide (table_version s.tables a < target)),
          s'.tables.load a = none) := by
  obtain ⟨cur, hd, hcases⟩ := collect_cond_inv s c s' n hcall
  rcases hcases with h | ⟨_, hg, target, _, _, _, htf, hlt, _, _, _⟩
  · exact Or.inl h
  · right
    obtain ⟨s'', d, hcall', hdh, hge, hhash, hrec, hts, hfreed, htab⟩ :=
      collect_cond_sweep s c chain target hg hchain htf hlt
    rw [hcall] at hcall'
    simp only [Except.ok.injEq, Prod.mk.injEq] at hcall'
    obtain ⟨hs, hn⟩ := hcall'
    subst hs
    obtain ⟨hchain', hver, hnone⟩ := chain_after_sweep s s' chain _ d hchain
      (by rw [hhash]) (by rw [hhash]) hdh htab
    exact ⟨target, d, hlt, hn, hdh, hge, hhash, hrec, hts, hfreed, hchain', hver, hnone⟩

theorem thread_version_ok (s : State) (tid : Nat) (h : Ptr) (t : clht_hashtable_t) (a : Nat)
    (r : ht_ts_t) (hd : deref_table s h = .ok t) (htid : s.clht_ts_thread.load tid = some a)
    (hrec : s.records.load a = some r) :
    ht_gc_thread_version s tid h
      = .ok { s with records := s.records.store a { r with version := t.version } } := by
  simp [ht_gc_thread_version, hd, htid, hrec, bind, Except.bind]

theorem container_invariant_iff (s : State) :
    container_invariant s = true ↔
      ∃ o c, deref_table s s.hashtable.ht_oldest = .ok o ∧ deref_table s s.hashtable.ht = .ok c ∧
        o.version = s.hashtable.version_min ∧ s.hashtable.version_min ≤ c.version := by
  unfold container_invariant
  cases ho : deref_table s s.hashtable.ht_oldest with
  | error e => simp
  | ok o =>
    cases hc : deref_table s s.hashtable.ht with
    | error e => simp
    | ok c => simp

theorem sorted_le_last (ver : Nat → Nat) (chain : List Nat) (c : Nat)
    (hlast : chain.getLast? = some c) (hsorted : (chain.map ver).Pairwise (· < ·)) :
    ∀ a ∈ chain, ver a ≤ ver c := by
  obtain ⟨pre, rfl⟩ := List.getLast?_eq_some_iff.mp hlast
  intro a ha
  rw [List.map_append, List.pairwise_append] at hsorted
  rcases List.mem_append.mp ha with ha | ha
  · exact Nat.le_of_lt (hsorted.2.2 (ver a) (List.mem_map_of_mem _ ha) (ver c) (by simp))
  · simp at ha; rw [ha]

theorem chain_head_deref (s : State) (chain : List Nat) (d : Nat)
    (hchain : chain_to_current s chain = true) (hd : chain.head? = some d) :
    ∃ t, deref_table s s.hashtable.ht_oldest = .ok t ∧ t.version = table_version s.tables d := by
  obtain ⟨_, _, _, _, _, _, _, hold, hvc, _⟩ := chain_to_current_facts s chain hchain
  obtain ⟨t, ht⟩ := version_chain_allocated _ _ hvc d (List.mem_of_mem_head? hd)
  refine ⟨t, ?_, (table_version_of_load _ _ _ ht).symm⟩
  rw [hold, hd]
  exact deref_table_ok s d t ht

theorem sorted_of_chain_succ (l : List Nat) (h : l.Chain' (fun v w => w = v + 1)) :
    l.Pairwise (· < ·) := by
  have h' : l.Chain' (· < ·) := h.imp (fun v w hw => by omega)
  exact List.chain'_iff_pairwise.mp h'

/-! ## Step budgets -/

/-- The step budget of the sweep is never exhausted: every iteration frees an
allocated descriptor, so the loop stops within one step more than the number
of descriptors. -/
theorem sweep_loop_fuel (v : Nat) :
    ∀ (fuel : Nat) (s : State) (cur : Ptr) (g : Int), s.tables.length < fuel →
      sweep_loop v fuel s cur g ≠ .error .out_of_fuel := by
  intro fuel
  induction fuel with
  | zero => intro s cur g h; simp at h
  | succ fuel ih =>
    intro s cur g hlen
    cases cur with
    | none => simp [sweep_loop]
    | some c =>
      cases hc : s.tables.load c with
      | none => simp [sweep_loop, hc]
      | some t =>
        by_cases hlt : t.version < v
        · cases hn : t.table_new with
          | none => simp [sweep_loop, hc, hlt, hn]
          | some n =>
            cases hln : s.tables.load n with
            | none => simp [sweep_loop, hc, hlt, hn, hln]
            | some tn =>
              simp only [sweep_loop, hc, hlt, hn, hln, if_true]
              split
              · rename_i e hfree
                intro he
                simp only [Except.error.injEq] at he
                subst he
                cases hmid : (s.tables.store n { tn with table_prev := none }).load c with
                | none => simp [ht_gc_free, hmid] at hfree
                | some tc => simp [ht_gc_free, hmid] at hfree
              · rename_i s1 r hfree
                obtain ⟨a, ta, ha, hta, _, htab, _⟩ := ht_gc_free_inv _ _ _ _ hfree
                simp only [Option.some.injEq] at ha
                subst ha
                apply ih
                rw [htab]
                have hta' : (s.tables.store n (null_prev tn)).load c = some ta := hta
                show ((s.tables.store n (null_prev tn)).dealloc c).length < fuel
                have h1 := Heap.length_dealloc_lt _ _ _ hta'
                have h2 := Heap.length_store s.tables n (null_prev tn)
                omega
        · simp [sweep_loop, hc, hlt]

/-- The scan exhausts its step budget only on a registry that is not finite
and null-terminated. -/
theorem min_version_used_fuel (s : State) (rs : List Nat)
    (hreg : registry s.records s.hashtable.version_list rs = true) :
    ht_gc_min_version_used s ≠ .error .out_of_fuel := by
  cases hd : deref_table s s.hashtable.ht with
  | error e =>
    cases hp : s.hashtable.ht with
    | none => simp [ht_gc_min_version_used, deref_table, hp, bind, Except.bind]
    | some a =>
      cases hl : s.tables.load a with
      | none => simp [ht_gc_min_version_used, deref_table, hp, hl, bind, Except.bind]
      | some t => simp [deref_table, hp, hl] at hd
  | ok t =>
    obtain ⟨a, ha, hl⟩ := deref_table_inv _ _ _ hd
    rw [min_version_used_of_registry s a t rs ha hl hreg]
    simp

/-! ## Registration and publication -/

theorem thread_init_ok (s : State) (tid : Nat) (id : Int) (ts : Nat) (t : clht_hashtable_t)
    (hd : deref_table s s.hashtable.ht = .ok t) :
    ht_gc_thread_init s tid id (some ts) = .ok { s with
      hashtable := { s.hashtable with version_list := some ts },
      records := (ts, { version := t.version, id := id, next := s.hashtable.version_list })
        :: s.records,
      clht_ts_thread := (tid, ts) :: s.clht_ts_thread } := by
  simp [ht_gc_thread_init, hd, bind, Except.bind, thread_init_loop, Heap.load, Heap.store,
    CAS_U64]

theorem thread_init_inv (s s' : State) (tid : Nat) (id : Int) (memalign : Ptr)
    (h : ht_gc_thread_init s tid id memalign = .ok s') :
    ∃ ts t, memalign = some ts ∧ deref_table s s.hashtable.ht = .ok t ∧
      s' = { s with
        hashtable := { s.hashtable with version_list := some ts },
        records := (ts, { version := t.version, id := id, next := s.hashtable.version_list })
          :: s.records,
        clht_ts_thread := (tid, ts) :: s.clht_ts_thread } := by
  cases memalign with
  | none => simp [ht_gc_thread_init] at h
  | some ts =>
    cases hd : deref_table s s.hashtable.ht with
    | error e => simp [ht_gc_thread_init, hd, bind, Except.bind] at h
    | ok t =>
      rw [thread_init_ok s tid id ts t hd] at h
      exact ⟨ts, t, rfl, rfl, (Except.ok.inj h).symm⟩

theorem thread_version_inv (s s' : State) (tid : Nat) (h : Ptr)
    (hcall : ht_gc_thread_version s tid h = .ok s') :
    ∃ t a r, deref_table s h = .ok t ∧ s.clht_ts_thread.load tid = some a ∧
      s.records.load a = some r ∧
      s' = { s with records := s.records.store a { r with version := t.version } } := by
  cases hd : deref_table s h with
  | error e => simp [ht_gc_thread_version, hd, bind, Except.bind] at hcall
  | ok t =>
    cases htid : s.clht_ts_thread.load tid with
    | none => simp [ht_gc_thread_version, hd, htid, bind, Except.bind] at hcall
    | some a =>
      cases hrec : s.records.load a with
      | none => simp [ht_gc_thread_version, hd, htid, hrec, bind, Except.bind] at hcall
      | some r =>
        rw [thread_version_ok s tid h t a r hd htid hrec] at hcall
        exact ⟨t, a, r, rfl, rfl, hrec, (Except.ok.inj hcall).symm⟩

theorem collect_cond_records (s : State) (c : Int) (s' : State) (n : Int)
    (h : ht_gc_collect_cond s c = .ok (s', n)) :
    s'.records = s.records ∧ s'.clht_ts_thread = s.clht_ts_thread := by
  obtain ⟨cur, _, hcases⟩ := collect_cond_inv s c s' n h
  rcases hcases with ⟨rfl, _⟩ | ⟨_, _, target, s1, p, t, _, _, hsw, _, hs'⟩
  · exact ⟨rfl, rfl⟩
  · obtain ⟨_, h2, h3, _, _⟩ := sweep_loop_sound _ _ _ _ _ _ _ _ hsw
    subst hs'
    exact ⟨h2, h3⟩

theorem collect_inv (s : State) (tid : Nat) (s' : State) (n : Int)
    (h : ht_gc_collect 1 s tid = .ok (s', n)) :
    ∃ s1, ht_gc_thread_version s tid s.hashtable.ht = .ok s1 ∧
      ht_gc_collect_cond s1 1 = .ok (s', n) := by
  simp only [ht_gc_collect, if_true, CLHT_GC_HT_VERSION_USED, bind, Except.bind] at h
  cases hp : ht_gc_thread_version s tid s.hashtable.ht with
  | error e => simp [hp] at h
  | ok s1 =>
    simp only [hp] at h
    exact ⟨s1, rfl, h⟩

theorem collect_cond_nothing_below (s : State) (c : Int) (cur : clht_hashtable_t) (target : Nat)
    (hd : deref_table s s.hashtable.ht = .ok cur) (hg : s.hashtable.gc_lock = false)
    (htarget : target_floor s c = .ok target) (ht : target ≤ s.hashtable.version_min) :
    ht_gc_collect_cond s c = .ok (s, 0) := by
  by_cases hv : cur.version ≤ s.hashtable.version_min
  · exact collect_cond_floor_reached s c cur hd hv
  · rw [collect_cond_open s c cur hd (by omega) hg, htarget]
    simp only [if_pos ht]

theorem collect_cond_stores_floor_reached (s : State) (c : Int) (cur : clht_hashtable_t)
    (hd : deref_table s s.hashtable.ht = .ok cur)
    (h : cur.version ≤ s.hashtable.version_min) : collect_cond_stores s c = .ok [] := by
  simp [collect_cond_stores, hd, bind, Except.bind, h, pure, Except.pure]

theorem collect_cond_stores_open (s : State) (c : Int) (cur : clht_hashtable_t)
    (hd : deref_table s s.hashtable.ht = .ok cur)
    (hlt : s.hashtable.version_min < cur.version) (hg : s.hashtable.gc_lock = false) :
    collect_cond_stores s c =
      match target_floor s c with
      | .error e => .error e
      | .ok target =>
        if target ≤ s.hashtable.version_min then
          .ok [{ s.hashtable with gc_lock := true }, { s.hashtable with gc_lock := false }]
        else
          match sweep_loop target (s.tables.length + 1)
              { s with hashtable := { s.hashtable with gc_lock := true } }
              s.hashtable.ht_oldest 0 with
          | .error e => .error e
          | .ok (s1, p, _) =>
            match deref_table s1 p with
            | .error e => .error e
            | .ok t => .ok [{ s.hashtable with gc_lock := true },
                { s1.hashtable with version_min := t.version },
                { s1.hashtable with version_min := t.version, ht_oldest := p },
                { s1.hashtable with version_min := t.version, ht_oldest := p,
                                    gc_lock := false }] := by
  have hv : ¬ cur.version ≤ s.hashtable.version_min := by omega
  have htf : target_floor s c =
      if c ≠ 0 then ht_gc_min_version_used s else .ok cur.version := by
    simp [target_floor, hd, Except.map]
  rw [htf]
  simp only [collect_cond_stores, hd, bind, Except.bind, hv, pure, Except.pure, TRYLOCK_ACQ, hg,
    TRYLOCK_RLS, ge_iff_le, if_false, Bool.false_eq_true]
  by_cases hc : c ≠ 0
  · simp only [if_pos hc, min_version_used_lock]
    cases hm : ht_gc_min_version_used s with
    | error e => rfl
    | ok target =>
      simp only []
      by_cases ht : target ≤ s.hashtable.version_min
      · simp only [if_pos ht]
      · simp only [if_neg ht]
        cases hsw : sweep_loop target (s.tables.length + 1)
            { s with hashtable := { s.hashtable with gc_lock := true } }
            s.hashtable.ht_oldest 0 with
        | error e => rfl
        | ok r =>
          obtain ⟨s1, p, g⟩ := r
          simp only []
          cases deref_table s1 p <;> rfl
  · simp only [if_neg hc]
    by_cases ht : cur.version ≤ s.hashtable.version_min
    · exact absurd ht hv
    · simp only [if_neg ht]
      cases hsw : sweep_loop cur.version (s.tables.length + 1)
          { s with hashtable := { s.hashtable with gc_lock := true } }
          s.hashtable.ht_oldest 0 with
      | error e => rfl
      | ok r =>
        obtain ⟨s1, p, g⟩ := r
        simp only []
        cases deref_table s1 p <;> rfl

theorem min_version_loop_no_null (records : Heap ht_ts_t) :
    ∀ (fuel : Nat) (p : Ptr) (m : Nat),
      min_version_loop records fuel p m ≠ .error .null_deref := by
  intro fuel
  induction fuel with
  | zero =>
    intro p m
    cases p <;> simp [min_version_loop]
  | succ fuel ih =>
    intro p m
    cases p with
    | none => simp [min_version_loop]
    | some a =>
      cases hl : records.load a with
      | none => simp [min_version_loop, hl]
      | some r =>
        simp only [min_version_loop, hl]
        exact ih _ _

theorem target_floor_no_null (s : State) (c : Int) (cur : clht_hashtable_t)
    (hd : deref_table s s.hashtable.ht = .ok cur) :
    target_floor s c ≠ .error .null_deref := by
  unfold target_floor
  by_cases hc : c ≠ 0
  · rw [if_pos hc]
    simp only [ht_gc_min_version_used, hd, bind, Except.bind]
    exact min_version_loop_no_null _ _ _ _
  · rw [if_neg hc]
    simp [hd, Except.map]

/-- The registry predicate reads only the `next` links of the records it
lists. -/
theorem registry_congr (m' m : Heap ht_ts_t) :
    ∀ (rs : List Nat) (p : Ptr),
      (∀ a ∈ rs, (m'.load a).map (fun r => r.next) = (m.load a).map (fun r => r.next)) →
      registry m' p rs = registry m p rs := by
  intro rs
  induction rs with
  | nil => intro p _; cases p <;> rfl
  | cons b rs ih =>
    intro p h
    cases p with
    | none => rfl
    | some a =>
      by_cases hab : a = b
      · subst hab
        have ha := h a (List.mem_cons_self _ _)
        have hrest := fun q => ih q (fun x hx => h x (List.mem_cons_of_mem _ hx))
        cases h1 : m'.load a with
        | none =>
          cases h2 : m.load a with
          | none => simp [registry, h1, h2]
          | some r2 => rw [h1, h2] at ha; simp at ha
        | some r1 =>
          cases h2 : m.load a with
          | none => rw [h1, h2] at ha; simp at ha
          | some r2 =>
            rw [h1, h2] at ha
            simp only [Option.map_some', Option.some.injEq] at ha
            simp [registry, h1, h2, ha, hrest]
      · have hbeq : (a == b) = false := by simpa using hab
        simp only [registry, hbeq, Bool.false_and]

theorem spec_safe_floor_cons_self (v : Nat) (vs : List Nat) :
    spec_safe_floor v (v :: vs) = spec_safe_floor v vs := by
  simp [spec_safe_floor]

theorem scan_after_registration (s : State) (ts : Nat) (r0 : ht_ts_t) (tls : Heap Nat)
    (c : Nat) (cur : clht_hashtable_t) (rs : List Nat)
    (hc : s.hashtable.ht = some c) (hl : s.tables.load c = some cur)
    (hrs : registry s.records s.hashtable.version_list rs = true)
    (hfresh : s.records.load ts = none) (hv : r0.version = cur.version)
    (hn : r0.next = s.hashtable.version_list) :
    ht_gc_min_version_used { s with
        hashtable := { s.hashtable with version_list := some ts },
        records := (ts, r0) :: s.records, clht_ts_thread := tls }
      = .ok (spec_safe_floor cur.version (rs.map (record_version s.records))) := by
  have hload : ∀ a ∈ rs, Heap.load ((ts, r0) :: s.records) a = s.records.load a := by
    intro a ha
    obtain ⟨r, hr⟩ := registry_allocated _ _ _ hrs a ha
    have hne : ts ≠ a := by
      intro e; subst e; rw [hfresh] at hr; simp at hr
    simp [Heap.load, hne]
  have hreg : registry ((ts, r0) :: s.records) (some ts) (ts :: rs) = true := by
    rw [registry_cons]
    refine ⟨rfl, r0, by simp [Heap.load], ?_⟩
    rw [hn, registry_congr _ s.records rs _ (fun a ha => by rw [hload a ha])]
    exact hrs
  have hscan := min_version_used_of_registry
    { s with hashtable := { s.hashtable with version_list := some ts },
             records := (ts, r0) :: s.records, clht_ts_thread := tls }
    c cur (ts :: rs) hc hl hreg
  rw [hscan]
  congr 1
  have hv' : record_version ((ts, r0) :: s.records) ts = cur.version := by
    simp [record_version, Heap.load, hv]
  have hmap : rs.map (record_version ((ts, r0) :: s.records))
      = rs.map (record_version s.records) := by
    apply List.map_congr_left
    intro a ha
    simp only [record_version, hload a ha]
  show spec_safe_floor cur.version (List.map _ (ts :: rs)) = _
  rw [List.map_cons, hv', hmap, spec_safe_floor_cons_self]

/-! ## The hard free -/

theorem free_chain_eq (c : List Nat) :
    ∀ log, free_chain c log = log ++ c.map FreeCall.bucket := by
  induction c with
  | nil => intro log; simp [free_chain]
  | cons a c ih => intro log; simp [free_chain, ih]

theorem free_bins_eq (t : List bucket_t) :
    ∀ log, free_bins t log = log ++ t.flatMap (fun b => b.next.map FreeCall.bucket) := by
  induction t with
  | nil => intro log; simp [free_bins]
  | cons b t ih => intro log; simp [free_bins, ih, free_chain_eq]

/-- The buckets of a table taken bin by bin, for the bins `0` to
`num_buckets - 1`, are the buckets of its bucket array in order. -/
theorem flatMap_bins {β : Type} (f : bucket_t → List β) :
    ∀ (l : List bucket_t), (List.range l.length).flatMap
        (fun bin => match l.get? bin with
          | some b => f b
          | none => []) = l.flatMap f := by
  intro l
  induction l with
  | nil => rfl
  | cons b l ih =>
    rw [List.length_cons, List.range_succ_eq_map, List.flatMap_cons, List.flatMap_cons,
      List.flatMap_map, ← ih]
    rfl

/-! ## Teardown -/

/-- The unconditional collect on a chain of strictly increasing versions whose
floor is below the current version. -/
theorem collect_all_outcome (s : State) (pre : List Nat) (c : Nat) (cur : clht_hashtable_t)
    (hgate : s.hashtable.gc_lock = false) (hchain : chain_to_current s (pre ++ [c]) = true)
    (hsorted : ((pre ++ [c]).map (table_version s.tables)).Pairwise (· < ·))
    (hcur : deref_table s s.hashtable.ht = .ok cur)
    (hfloor : s.hashtable.version_min < cur.version) :
    ∃ s' n t, ht_gc_collect_all s = .ok (s', n) ∧ s'.hashtable.ht = some c ∧
      handed s'.freed = handed s.freed ++ pre ∧
      (∀ a ∈ pre, s'.tables.load a = none) ∧ s'.tables.load c = some t := by
  obtain ⟨pre', c', hsplit, hht, _, _, _⟩ := (chain_to_current_iff s _).mp hchain
  have hcc : c' = c := by
    have h1 := congrArg List.getLast? hsplit
    simp at h1
    exact h1.symm
  subst hcc
  obtain ⟨c2, hc2, hlc⟩ := deref_table_inv _ _ _ hcur
  rw [hht] at hc2
  simp only [Option.some.injEq] at hc2
  subst hc2
  have hvc : table_version s.tables c' = cur.version := table_version_of_load _ _ _ hlc
  have htf : target_floor s 0 = .ok cur.version := by
    simp [target_floor, hcur, Except.map]
  obtain ⟨hT, hD⟩ := sorted_chain_split (table_version s.tables) pre c' hsorted
  rw [hvc] at hT hD
  obtain ⟨s', d, hcall, hd, _, hhash, _, _, hfreed, htab⟩ :=
    collect_cond_sweep s 0 (pre ++ [c']) cur.version hgate hchain htf hfloor
  obtain ⟨hchain', _, hnone⟩ := chain_after_sweep s s' (pre ++ [c']) _ d hchain
    (by rw [hhash]) (by rw [hhash]) hd htab
  rw [hD] at hchain'
  rw [hT] at hfreed hnone
  obtain ⟨c3, cur3, _, _, hht3, hcur3, _⟩ := chain_to_current_facts s' [c'] hchain'
  have hs'ht : s'.hashtable.ht = some c' := by rw [hhash]; exact hht
  have hc3 : c3 = c' := by
    rw [hs'ht] at hht3
    exact (Option.some.inj hht3).symm
  subst hc3
  exact ⟨s', _, cur3, hcall, hs'ht, hfreed, hnone, hcur3⟩

/-! ## Null-terminated version chains -/

theorem null_terminated_cons (m : Heap clht_hashtable_t) (p : Ptr) (b : Nat) (l : List Nat) :
    null_terminated m p (b :: l) = true ↔
      p = some b ∧ ∃ t, m.load b = some t ∧ null_terminated m t.table_new l = true := by
  cases p with
  | none => simp [null_terminated]
  | some a =>
    by_cases hab : a = b
    · subst hab
      cases h : m.load a <;> simp [null_terminated, h]
    · simp [null_terminated, hab]

theorem null_terminated_nil (m : Heap clht_hashtable_t) (p : Ptr) :
    null_terminated m p [] = true ↔ p = none := by
  cases p <;> simp [null_terminated]

theorem null_terminated_det (m : Heap clht_hashtable_t) :
    ∀ (l l' : List Nat) (p : Ptr), null_terminated m p l = true →
      null_terminated m p l' = true → l = l' := by
  intro l
  induction l with
  | nil =>
    intro l' p h h'
    rw [null_terminated_nil] at h
    subst h
    cases l' with
    | nil => rfl
    | cons b l' => simp [null_terminated] at h'
  | cons a l ih =>
    intro l' p h h'
    rw [null_terminated_cons] at h
    obtain ⟨hp, t, ht, hrest⟩ := h
    subst hp
    cases l' with
    | nil => simp [null_terminated] at h'
    | cons b l' =>
      rw [null_terminated_cons] at h'
      obtain ⟨hp', t', ht', hrest'⟩ := h'
      simp at hp'
      subst hp'
      rw [ht] at ht'
      simp at ht'
      subst ht'
      rw [ih l' _ hrest hrest']

theorem null_terminated_suffix (m : Heap clht_hashtable_t) :
    ∀ (l1 : List Nat) (a : Nat) (l2 : List Nat) (p : Ptr),
      null_terminated m p (l1 ++ a :: l2) = true →
      null_terminated m (some a) (a :: l2) = true := by
  intro l1
  induction l1 with
  | nil =>
    intro a l2 p h
    have h' := h
    simp only [List.nil_append] at h'
    rw [null_terminated_cons] at h'
    rw [← h'.1]; exact h
  | cons b l1 ih =>
    intro a l2 p h
    simp only [List.cons_append] at h
    rw [null_terminated_cons] at h
    obtain ⟨_, t, _, hrest⟩ := h
    exact ih a l2 _ hrest

theorem null_terminated_nodup (m : Heap clht_hashtable_t) :
    ∀ (l : List Nat) (p : Ptr), null_terminated m p l = true → l.Nodup := by
  intro l
  induction l with
  | nil => intro _ _; exact List.nodup_nil
  | cons a l ih =>
    intro p h
    have h0 := h
    rw [null_terminated_cons] at h
    obtain ⟨hp, t, ht, hrest⟩ := h
    subst hp
    refine List.nodup_cons.mpr ⟨?_, ih _ hrest⟩
    intro hmem
    obtain ⟨l1, l2, hsplit⟩ := List.append_of_mem hmem
    rw [hsplit] at hrest
    have hsuf := null_terminated_suffix m l1 a l2 _ hrest
    have heq := null_terminated_det m _ _ _ h0 hsuf
    have hlen := congrArg List.length heq
    rw [hsplit] at hlen
    simp at hlen
    omega

theorem null_terminated_allocated (m : Heap clht_hashtable_t) :
    ∀ (l : List Nat) (p : Ptr), null_terminated m p l = true →
      ∀ a ∈ l, ∃ t, m.load a = some t := by
  intro l
  induction l with
  | nil => intro _ _ a ha; simp at ha
  | cons b l ih =>
    intro p h a ha
    rw [null_terminated_cons] at h
    obtain ⟨_, t, ht, hrest⟩ := h
    rcases List.mem_cons.mp ha with rfl | ha
    · exact ⟨t, ht⟩
    · exact ih _ hrest a ha

theorem null_terminated_head (m : Heap clht_hashtable_t) (p : Ptr) (l : List Nat)
    (h : null_terminated m p l = true) : p = l.head? := by
  cases l with
  | nil => rw [null_terminated_nil] at h; simp [h]
  | cons b l => rw [null_terminated_cons] at h; simp [h.1]

theorem null_terminated_congr (m' m : Heap clht_hashtable_t) :
    ∀ (l : List Nat) (p : Ptr), (∀ a ∈ l, table_next m' a = table_next m a) →
      null_terminated m' p l = null_terminated m p l := by
  intro l
  induction l with
  | nil => intro p _; cases p <;> rfl
  | cons b l ih =>
    intro p h
    cases p with
    | none => rfl
    | some a =>
      by_cases hab : a = b
      · subst hab
        have ha := h a (List.mem_cons_self _ _)
        have hrest := fun q => ih q (fun x hx => h x (List.mem_cons_of_mem _ hx))
        simp only [table_next] at ha
        cases h1 : m'.load a with
        | none =>
          cases h2 : m.load a with
          | none => simp [null_terminated, h1, h2]
          | some r2 => rw [h1, h2] at ha; simp at ha
        | some r1 =>
          cases h2 : m.load a with
          | none => rw [h1, h2] at ha; simp at ha
          | some r2 =>
            rw [h1, h2] at ha
            simp only [Option.map_some', Option.some.injEq] at ha
            simp [null_terminated, h1, h2, ha, hrest]
      · have hbeq : (a == b) = false := by simpa using hab
        simp only [null_terminated, hbeq, Bool.false_and]

/-- The part of a null-terminated chain up to one of its tables is a version
chain. -/
theorem version_chain_of_null_terminated (m : Heap clht_hashtable_t) :
    ∀ (pre : List Nat) (c : Nat) (post : List Nat) (p : Ptr),
      null_terminated m p (pre ++ c :: post) = true → version_chain m (pre ++ [c]) = true := by
  intro pre
  induction pre with
  | nil =>
    intro c post p h
    rw [List.nil_append, null_terminated_cons] at h
    obtain ⟨_, t, ht, _⟩ := h
    simp [version_chain, table_next, ht]
  | cons a pre ih =>
    intro c post p h
    rw [List.cons_append, null_terminated_cons] at h
    obtain ⟨_, t, ht, hrest⟩ := h
    have hnext : t.table_new = (pre ++ c :: post).head? := null_terminated_head m _ _ hrest
    have hih := ih c post _ hrest
    cases pre with
    | nil =>
      simp only [List.nil_append, List.head?_cons] at hnext
      simp only [List.cons_append, List.nil_append]
      rw [version_chain_cons_cons]
      exact ⟨⟨t, ht, hnext⟩, hih⟩
    | cons b pre =>
      simp only [List.cons_append, List.head?_cons] at hnext
      simp only [List.cons_append]
      rw [version_chain_cons_cons]
      exact ⟨⟨t, ht, hnext⟩, hih⟩

theorem reachable_mem (m : Heap clht_hashtable_t) (p : Ptr) (a : Nat)
    (h : reachable m p a) : ∀ l, null_terminated m p l = true → a ∈ l := by
  induction h with
  | head a =>
    intro l hl
    cases l with
    | nil => simp [null_terminated] at hl
    | cons b l =>
      rw [null_terminated_cons] at hl
      simp only [Option.some.injEq] at hl
      rw [hl.1]; exact List.mem_cons_self _ _
  | tail b a t ht _ ih =>
    intro l hl
    cases l with
    | nil => simp [null_terminated] at hl
    | cons b' l =>
      rw [null_terminated_cons] at hl
      obtain ⟨hb, t', ht', hrest⟩ := hl
      simp only [Option.some.injEq] at hb
      subst hb
      rw [ht] at ht'
      simp only [Option.some.injEq] at ht'
      subst ht'
      exact List.mem_cons_of_mem _ (ih l hrest)

/-! ## Predecessor links -/

theorem prev_links_cons (m : Heap clht_hashtable_t) (p : Ptr) (a : Nat) (l : List Nat) :
    prev_links m p (a :: l) = true ↔
      (∃ t, m.load a = some t ∧ t.table_prev = p) ∧ prev_links m (some a) l = true := by
  cases h : m.load a <;> simp [prev_links, h]

theorem prev_links_congr (m' m : Heap clht_hashtable_t) :
    ∀ (l : List Nat) (p : Ptr),
      (∀ a ∈ l, (m'.load a).map (fun t => t.table_prev) = (m.load a).map (fun t => t.table_prev)) →
      prev_links m' p l = prev_links m p l := by
  intro l
  induction l with
  | nil => intro _ _; rfl
  | cons a l ih =>
    intro p h
    have ha := h a (List.mem_cons_self _ _)
    have hrest := ih (some a) (fun x hx => h x (List.mem_cons_of_mem _ hx))
    cases h1 : m'.load a with
    | none =>
      cases h2 : m.load a with
      | none => simp [prev_links, h1, h2]
      | some r2 => rw [h1, h2] at ha; simp at ha
    | some r1 =>
      cases h2 : m.load a with
      | none => rw [h1, h2] at ha; simp at ha
      | some r2 =>
        rw [h1, h2] at ha
        simp only [Option.map_some', Option.some.injEq] at ha
        simp [prev_links, h1, h2, ha, hrest]

theorem prev_links_suffix (m : Heap clht_hashtable_t) :
    ∀ (l1 : List Nat) (a : Nat) (l2 : List Nat) (p : Ptr),
      prev_links m p (l1 ++ a :: l2) = true → prev_links m (some a) l2 = true := by
  intro l1
  induction l1 with
  | nil =>
    intro a l2 p h
    rw [List.nil_append, prev_links_cons] at h
    exact h.2
  | cons b l1 ih =>
    intro a l2 p h
    rw [List.cons_append, prev_links_cons] at h
    exact ih a l2 _ h.2

/-- A predecessor link of a chain table points into the chain. -/
theorem prev_links_mem (m : Heap clht_hashtable_t) :
    ∀ (l : List Nat) (p : Ptr), prev_links m p l = true →
      ∀ a ∈ l, ∀ t q, m.load a = some t → t.table_prev = some q → some q = p ∨ q ∈ l := by
  intro l
  induction l with
  | nil => intro _ _ a ha; simp at ha
  | cons b l ih =>
    intro p h a ha t q hl hq
    rw [prev_links_cons] at h
    obtain ⟨⟨tb, htb, hpb⟩, hrest⟩ := h
    rcases List.mem_cons.mp ha with rfl | ha
    · rw [htb] at hl
      simp only [Option.some.injEq] at hl
      subst hl
      left; rw [← hq, hpb]
    · rcases ih _ hrest a ha t q hl hq with h1 | h1
      · simp only [Option.some.injEq] at h1
        right; rw [h1]; exact List.mem_cons_self _ _
      · right; exact List.mem_cons_of_mem _ h1

/-- What a call of `ht_gc_collect_cond` that returns has done to the heap of a
container with a chain from `ht_oldest` to the current table. -/
theorem collect_cond_chain_heap (s : State) (c : Int) (chain : List Nat) (s' : State) (n : Int)
    (hchain : chain_to_current s chain = true)
    (hcall : ht_gc_collect_cond s c = .ok (s', n)) :
    (s' = s ∧ n = 0) ∨
      ∃ (p : Nat → Bool) (d : Nat),
        (chain.dropWhile p).head? = some d ∧
        s'.hashtable.ht = s.hashtable.ht ∧ s'.hashtable.ht_oldest = some d ∧
        handed s'.freed = handed s.freed ++ chain.takeWhile p ∧
        chain_to_current s' (chain.dropWhile p) = true ∧
        ∀ a, s'.tables.load a =
          if a ∈ chain.takeWhile p then none
          else if chain.takeWhile p ≠ [] ∧ (chain.dropWhile p).head? = some a
            then (s.tables.load a).map null_prev
          else s.tables.load a := by
  obtain ⟨cur, hd, hcases⟩ := collect_cond_inv s c s' n hcall
  rcases hcases with h | ⟨_, hg, target, _, _, _, htf, hlt, _, _, _⟩
  · exact Or.inl h
  · right
    obtain ⟨s'', d, hcall', hdh, _, hhash, _, _, hfreed, htab⟩ :=
      collect_cond_sweep s c chain target hg hchain htf hlt
    rw [hcall] at hcall'
    simp only [Except.ok.injEq, Prod.mk.injEq] at hcall'
    obtain ⟨hs, _⟩ := hcall'
    subst hs
    obtain ⟨hchain', _, _⟩ := chain_after_sweep s s' chain _ d hchain
      (by rw [hhash]) (by rw [hhash]) hdh htab
    exact ⟨_, d, hdh, by rw [hhash], by rw [hhash], hfreed, hchain', htab⟩

theorem version_chain_wf_iff (s : State) (full : List Nat) :
    version_chain_wf s full = true ↔
      null_terminated s.tables s.hashtable.ht_oldest full = true ∧
      prev_links s.tables none full = true ∧ ∃ c, s.hashtable.ht = some c ∧ c ∈ full := by
  unfold version_chain_wf
  cases h : s.hashtable.ht with
  | none => simp
  | some c => simp [and_assoc]

/-- A call of `ht_gc_collect_cond` that returns leaves a well-formed version
chain well formed, and the log of frees without repetition. -/
theorem collect_cond_keeps_wf (s : State) (c : Int) (s' : State) (n : Int) (full : List Nat)
    (hwf : version_chain_wf s full = true) (hfo : freed_once s)
    (hcall : ht_gc_collect_cond s c = .ok (s', n)) :
    ∃ full', full' <:+ full ∧ version_chain_wf s' full' = true ∧ freed_once s' := by
  obtain ⟨hnt, hpl, cc, hht, hmem⟩ := (version_chain_wf_iff s full).mp hwf
  have hnd := null_terminated_nodup _ _ _ hnt
  obtain ⟨pre, post, hsplit⟩ := List.append_of_mem hmem
  subst hsplit
  have hcpre : cc ∉ pre := by
    intro h
    have := (List.nodup_append.mp hnd).2.2 h (List.mem_cons_self _ _)
    exact this
  have hchain : chain_to_current s (pre ++ [cc]) = true := by
    rw [chain_to_current_iff]
    refine ⟨pre, cc, rfl, hht, ?_, version_chain_of_null_terminated _ pre cc post _ hnt, hcpre⟩
    rw [null_terminated_head _ _ _ hnt]
    cases pre <;> rfl
  rcases collect_cond_chain_heap s c (pre ++ [cc]) s' n hchain hcall with ⟨rfl, _⟩ |
    ⟨p, d, hdh, hht', hold', hfreed, hchain', htab⟩
  · exact ⟨_, List.suffix_refl _, hwf, hfo⟩
  · -- the chain splits into the freed part, the surviving part and the rest
    have hTD : (pre ++ [cc]).takeWhile p ++ (pre ++ [cc]).dropWhile p = pre ++ [cc] :=
      List.takeWhile_append_dropWhile p _
    generalize hT : (pre ++ [cc]).takeWhile p = T at hTD hfreed htab
    generalize hD : (pre ++ [cc]).dropWhile p = D at hTD hdh hchain' htab
    have hfull : pre ++ cc :: post = T ++ (D ++ post) := by
      rw [← List.append_assoc, hTD]; simp
    rw [hfull] at hnt hpl hnd
    obtain ⟨Dt, rfl⟩ : ∃ Dt, D = d :: Dt := by
      cases D with
      | nil => simp at hdh
      | cons x Dt => simp at hdh; exact ⟨Dt, by rw [hdh]⟩
    have hdisj : ∀ a ∈ d :: Dt ++ post, a ∉ T :=
      fun a ha hT' => (List.nodup_append.mp hnd).2.2 hT' ha
    have hnd' : (d :: Dt ++ post).Nodup := (List.nodup_append.mp hnd).2.1
    have hdrest : d ∉ Dt ++ post := (List.nodup_cons.mp hnd').1
    have hload : ∀ a ∈ d :: Dt ++ post, s'.tables.load a =
        if T ≠ [] ∧ d = a then (s.tables.load a).map null_prev else s.tables.load a := by
      intro a ha
      have := htab a
      simp only [hdisj a ha, if_false, List.head?_cons, Option.some.injEq] at this
      exact this
    have hnext : ∀ a ∈ d :: Dt ++ post, table_next s'.tables a = table_next s.tables a := by
      intro a ha
      simp only [table_next, hload a ha]
      by_cases hc : T ≠ [] ∧ d = a
      · rw [if_pos hc]; cases s.tables.load a <;> simp [null_prev]
      · rw [if_neg hc]
    have hnt' : null_terminated s'.tables (some d) (d :: Dt ++ post) = true := by
      rw [null_terminated_congr _ _ _ _ hnext]
      exact null_terminated_suffix s.tables T d (Dt ++ post) _ hnt
    have hpl' : prev_links s'.tables none (d :: Dt ++ post) = true := by
      by_cases hTe : T = []
      · subst hTe
        rw [prev_links_congr _ s.tables _ _ (fun a ha => by rw [hload a ha]; simp)]
        simpa using hpl
      · obtain ⟨td, htd⟩ := null_terminated_allocated _ _ _ hnt d (by simp)
        have hprest : prev_links s'.tables (some d) (Dt ++ post) = true := by
          rw [prev_links_congr _ s.tables _ _ (fun a ha => by
            have hne : d ≠ a := fun e => hdrest (e ▸ ha)
            rw [hload a (List.mem_cons_of_mem _ ha)]
            simp [hne])]
          exact prev_links_suffix s.tables T d (Dt ++ post) none hpl
        show prev_links s'.tables none (d :: (Dt ++ post)) = true
        rw [prev_links_cons]
        refine ⟨⟨null_prev td, ?_, rfl⟩, hprest⟩
        rw [hload d (by simp), if_pos ⟨hTe, rfl⟩, htd]
        rfl
    obtain ⟨c2, _, hc2mem, _, hht2, _⟩ := chain_to_current_facts s' _ hchain'
    refine ⟨d :: Dt ++ post, ⟨T, hfull.symm⟩, ?_, ?_⟩
    · rw [version_chain_wf_iff]
      refine ⟨by rw [hold']; exact hnt', hpl', c2, hht2, ?_⟩
      exact List.mem_append_left _ hc2mem
    · obtain ⟨hfn, hfd⟩ := hfo
      have hTalloc : ∀ a ∈ T, ∃ t, s.tables.load a = some t :=
        fun a ha => null_terminated_allocated _ _ _ hnt a (List.mem_append_left _ ha)
      constructor
      · rw [hfreed, List.nodup_append]
        refine ⟨hfn, (List.nodup_append.mp hnd).1, ?_⟩
        intro a ha haT
        obtain ⟨t, ht⟩ := hTalloc a haT
        rw [hfd a ha] at ht
        simp at ht
      · intro a ha
        rw [hfreed] at ha
        have := htab a
        rcases List.mem_append.mp ha with h | h
        · by_cases haT : a ∈ T
          · simpa [haT] using this
          · simp only [haT, if_false, hfd a h, Option.map_none', ite_self] at this
            exact this
        · simpa [h] using this

theorem run_collects_keeps_wf (flags : List Int) :
    ∀ (s0 s : State) (full0 : List Nat), version_chain_wf s0 full0 = true → freed_once s0 →
      run_collects s0 flags = .ok s →
      ∃ full, full <:+ full0 ∧ version_chain_wf s full = true ∧ freed_once s := by
  induction flags with
  | nil =>
    intro s0 s full0 hwf hfo hrun
    simp only [run_collects, Except.ok.injEq] at hrun
    subst hrun
    exact ⟨full0, List.suffix_refl _, hwf, hfo⟩
  | cons flag rest ih =>
    intro s0 s full0 hwf hfo hrun
    cases hcall : ht_gc_collect_cond s0 flag with
    | error e => simp [run_collects, hcall] at hrun
    | ok res =>
      obtain ⟨s1, n⟩ := res
      simp only [run_collects, hcall] at hrun
      obtain ⟨full1, hsuf1, hwf1, hfo1⟩ := collect_cond_keeps_wf s0 flag s1 n full0 hwf hfo hcall
      obtain ⟨full, hsuf, hwf', hfo'⟩ := ih s1 s full1 hwf1 hfo1 hrun
      exact ⟨full, hsuf.trans hsuf1, hwf', hfo'⟩

/-! ## Monotonicity of the floor and of the records -/

/-- The container invariant gives the version of the table at `ht_oldest`. -/
theorem container_invariant_oldest (s : State) (hinv : container_invariant s = true) :
    ∃ o, s.hashtable.ht_oldest = some o ∧
      table_version s.tables o = s.hashtable.version_min := by
  obtain ⟨tbl, _, hdo, _, hov, _⟩ := (container_invariant_iff s).mp hinv
  obtain ⟨o, ho, hlo⟩ := deref_table_inv _ _ _ hdo
  exact ⟨o, ho, by simp [table_version, hlo, hov]⟩

/-- On a chain whose oldest table has a version at most `version_min`, a call
of `ht_gc_collect_cond` that returns does not lower `version_min`, and raises
it exactly when the returned count is not zero. -/
theorem collect_cond_floor_of_oldest_le (s : State) (c : Int) (chain : List Nat) (o : Nat)
    (hchain : chain_to_current s chain = true)
    (ho : s.hashtable.ht_oldest = some o)
    (hov : table_version s.tables o ≤ s.hashtable.version_min)
    (s' : State) (n : Int) (hcall : ht_gc_collect_cond s c = .ok (s', n)) :
    s.hashtable.version_min ≤ s'.hashtable.version_min ∧
      (s.hashtable.version_min < s'.hashtable.version_min ↔ n ≠ 0) := by
  rcases collect_cond_chain_inv s c chain s' n hchain hcall with ⟨rfl, rfl⟩ |
    ⟨target, d, hlt, hn, _, hge, hhash, _, _, _, _, _, _⟩
  · simp
  · obtain ⟨_, _, _, _, _, _, _, hold, _⟩ := chain_to_current_facts s chain hchain
    have hvm : s'.hashtable.version_min = table_version s.tables d := by rw [hhash]
    -- the oldest table is below the target, so the sweep frees at least one table
    have hT : chain.takeWhile (fun a => decide (table_version s.tables a < target)) ≠ [] := by
      rw [ho] at hold
      cases chain with
      | nil => simp at hold
      | cons a rest =>
        simp only [List.head?_cons, Option.some.injEq] at hold
        subst hold
        have : table_version s.tables o < target := by omega
        simp [List.takeWhile_cons, this]
    have hpos : n ≠ 0 := by
      rw [hn]
      intro h0
      have := List.length_eq_zero.mp (by exact_mod_cast h0)
      exact hT this
    refine ⟨by omega, ?_⟩
    constructor
    · intro _; exact hpos
    · intro _; omega

/-- The sweep leaves every table whose version is at least the target floor
allocated, with its version. -/
theorem sweep_loop_keeps_newer (v : Nat) :
    ∀ (fuel : Nat) (s : State) (cur : Ptr) (g : Int) (s' : State) (cur' : Ptr) (g' : Int),
      sweep_loop v fuel s cur g = .ok (s', cur', g') →
      ∀ p t, s.tables.load p = some t → v ≤ t.version →
        ∃ t', s'.tables.load p = some t' ∧ t'.version = t.version := by
  intro fuel
  induction fuel with
  | zero => intro s cur g s' cur' g' h; simp [sweep_loop] at h
  | succ fuel ih =>
    intro s cur g s' cur' g' h p tp hp hv
    cases cur with
    | none =>
      simp only [sweep_loop, Except.ok.injEq, Prod.mk.injEq] at h
      obtain ⟨rfl, rfl, rfl⟩ := h
      exact ⟨tp, hp, rfl⟩
    | some c =>
      cases hc : s.tables.load c with
      | none => simp [sweep_loop, hc] at h
      | some t =>
        by_cases hlt : t.version < v
        · cases hn : t.table_new with
          | none => simp [sweep_loop, hc, hlt, hn] at h
          | some n =>
            cases hln : s.tables.load n with
            | none => simp [sweep_loop, hc, hlt, hn, hln] at h
            | some tn =>
              simp only [sweep_loop, hc, hlt, hn, hln, if_true] at h
              split at h
              · simp at h
              · rename_i s1 r hfree
                obtain ⟨a, ta, ha, hta, _, htab, _, _, _, _⟩ := ht_gc_free_inv _ _ _ _ hfree
                simp only [Option.some.injEq] at ha
                subst ha
                have hcp : c ≠ p := by
                  intro e
                  subst e
                  rw [hc] at hp
                  simp only [Option.some.injEq] at hp
                  subst hp
                  omega
                have hp1 : ∃ t1, s1.tables.load p = some t1 ∧ t1.version = tp.version := by
                  rw [htab, Heap.load_dealloc]
                  simp only [hcp, if_false]
                  rw [Heap.load_store]
                  by_cases hnp : n = p
                  · subst hnp
                    rw [hln] at hp
                    simp only [Option.some.injEq] at hp
                    subst hp
                    exact ⟨{ tn with table_prev := none }, by simp [hln], rfl⟩
                  · exact ⟨tp, by simp [hnp, hp], rfl⟩
                obtain ⟨t1, ht1, hv1⟩ := hp1
                obtain ⟨t', ht', hv'⟩ := ih s1 _ _ s' cur' g' h p t1 ht1 (by omega)
                exact ⟨t', ht', by omega⟩
        · simp only [sweep_loop, hc, hlt, if_false, Except.ok.injEq, Prod.mk.injEq] at h
          obtain ⟨rfl, rfl, rfl⟩ := h
          exact ⟨tp, hp, rfl⟩

/-- A call of `ht_gc_collect_cond` that returns leaves the registry and the
pointer to the current table as they are, and the current table allocated with
its version. -/
theorem collect_cond_keeps_current (s : State) (c : Int) (s' : State) (n : Int)
    (cur : clht_hashtable_t) (hd : deref_table s s.hashtable.ht = .ok cur)
    (h : ht_gc_collect_cond s c = .ok (s', n)) :
    s'.hashtable.ht = s.hashtable.ht ∧ s'.hashtable.version_list = s.hashtable.version_list ∧
      s'.records = s.records ∧
      ∃ cur', deref_table s' s'.hashtable.ht = .ok cur' ∧ cur'.version = cur.version := by
  obtain ⟨cur0, hd0, hcases⟩ := collect_cond_inv s c s' n h
  rw [hd] at hd0
  simp only [Except.ok.injEq] at hd0
  subst hd0
  rcases hcases with ⟨rfl, _⟩ | ⟨_, _, target, s1, p, t, htf, _, hsw, _, hs'⟩
  · exact ⟨rfl, rfl, rfl, cur, hd, rfl⟩
  · obtain ⟨hh, hr, _, _, _⟩ := sweep_loop_sound _ _ _ _ _ _ _ _ hsw
    obtain ⟨a, ha, hla⟩ := deref_table_inv _ _ _ hd
    have hle := target_floor_le_current s c target cur hd htf
    obtain ⟨t', ht', hv'⟩ := sweep_loop_keeps_newer _ _ _ _ _ _ _ _ hsw a cur hla hle
    subst hs'
    refine ⟨by simp [hh], by simp [hh], hr, t', ?_, hv'⟩
    show deref_table _ s1.hashtable.ht = .ok t'
    rw [hh]
    show deref_table _ s.hashtable.ht = .ok t'
    rw [ha]
    simp [deref_table, ht']

/-- One call of the interface, a publish being of the current table, made in a
state whose records hold versions at most the current version: the current
table keeps its version, every record stays in place with a version at least
as large as before, and the records still hold versions at most the current
version. -/
theorem exec_records_mono (s : State) (op : Op) (s1 : State) (cur : clht_hashtable_t)
    (hcur : deref_table s s.hashtable.ht = .ok cur)
    (hbelow : ∀ a r, s.records.load a = some r → r.version ≤ cur.version)
    (hpub : ∀ tid h, op = Op.publish tid h → h = s.hashtable.ht)
    (h : Op.exec s op = .ok s1) :
    s1.hashtable.ht = s.hashtable.ht ∧
      (∃ cur1, deref_table s1 s1.hashtable.ht = .ok cur1 ∧ cur1.version = cur.version) ∧
      (∀ a r, s.records.load a = some r →
        ∃ r', s1.records.load a = some r' ∧ r.version ≤ r'.version) ∧
      (∀ a r, s1.records.load a = some r → r.version ≤ cur.version) := by
  -- a publish of the current table
  have hpublish : ∀ (tid : Nat) (s2 : State),
      ht_gc_thread_version s tid s.hashtable.ht = .ok s2 →
      s2.hashtable = s.hashtable ∧ s2.tables = s.tables ∧
      (∀ a r, s.records.load a = some r →
        ∃ r', s2.records.load a = some r' ∧ r.version ≤ r'.version) ∧
      (∀ a r, s2.records.load a = some r → r.version ≤ cur.version) := by
    intro tid s2 hcall
    obtain ⟨t, a0, r0, hd, htid, hrec, hs2⟩ := thread_version_inv s s2 tid _ hcall
    rw [hcur] at hd
    simp only [Except.ok.injEq] at hd
    subst hd
    subst hs2
    refine ⟨rfl, rfl, ?_, ?_⟩
    · intro a r hr
      show ∃ r', (s.records.store a0 { r0 with version := cur.version }).load a = some r' ∧ _
      rw [Heap.load_store]
      by_cases ha : a0 = a
      · subst ha
        rw [hrec] at hr
        simp only [Option.some.injEq] at hr
        subst hr
        exact ⟨{ r0 with version := cur.version }, by simp [hrec], hbelow a0 r0 hrec⟩
      · exact ⟨r, by simp [ha, hr], Nat.le_refl _⟩
    · intro a r hr
      have hr' : (s.records.store a0 { r0 with version := cur.version }).load a = some r := hr
      rw [Heap.load_store] at hr'
      by_cases ha : a0 = a
      · subst ha
        simp only [if_true, hrec, Option.map_some', Option.some.injEq] at hr'
        subst hr'
        exact Nat.le_refl _
      · simp only [ha, if_false] at hr'
        exact hbelow a r hr'
  cases op with
  | register tid id memalign =>
    obtain ⟨ts, t, hm, hd, hs1⟩ := thread_init_inv s s1 tid id memalign h
    rw [hcur] at hd
    simp only [Except.ok.injEq] at hd
    subst hd
    subst hs1
    refine ⟨rfl, ⟨cur, hcur, rfl⟩, ?_, ?_⟩
    · intro a r hr
      by_cases hne : ts = a
      · subst hne
        exact ⟨{ version := cur.version, id := id, next := s.hashtable.version_list },
          by simp [Heap.load], hbelow ts r hr⟩
      · exact ⟨r, by simp [Heap.load, hne, hr], Nat.le_refl _⟩
    · intro a r hr
      by_cases hne : ts = a
      · subst hne
        simp only [Heap.load, if_true, Option.some.injEq] at hr
        subst hr
        exact Nat.le_refl _
      · simp only [Heap.load, hne, if_false] at hr
        exact hbelow a r hr
  | publish tid p =>
    have hp := hpub tid p rfl
    subst hp
    obtain ⟨hh, ht, hmono, hb⟩ := hpublish tid s1 h
    refine ⟨by rw [hh], ⟨cur, ?_, rfl⟩, hmono, hb⟩
    rw [hh]
    simpa [deref_table, ht] using hcur
  | collect tid =>
    simp only [Op.exec] at h
    cases hc : ht_gc_collect 1 s tid with
    | error e => simp [hc, Except.map] at h
    | ok res =>
      obtain ⟨s', n⟩ := res
      simp only [hc, Except.map, Except.ok.injEq] at h
      subst h
      obtain ⟨s2, hp, hcc⟩ := collect_inv s tid s' n hc
      obtain ⟨hh, ht, hmono, hb⟩ := hpublish tid s2 hp
      have hcur2 : deref_table s2 s2.hashtable.ht = .ok cur := by
        rw [hh]
        simpa [deref_table, ht] using hcur
      obtain ⟨hht, _, hrec, cur', hd', hv'⟩ := collect_cond_keeps_current s2 1 s' n cur hcur2 hcc
      refine ⟨by rw [hht, hh], ⟨cur', hd', hv'⟩, ?_, ?_⟩
      · intro a r hr
        rw [hrec]
        exact hmono a r hr
      · intro a r hr
        rw [hrec] at hr
        exact hb a r hr
  | collect_all =>
    simp only [Op.exec] at h
    cases hc : ht_gc_collect_all s with
    | error e => simp [hc, Except.map] at h
    | ok res =>
      obtain ⟨s', n⟩ := res
      simp only [hc, Except.map, Except.ok.injEq] at h
      subst h
      obtain ⟨hht, _, hrec, cur', hd', hv'⟩ := collect_cond_keeps_current s 0 s' n cur hcur hc
      refine ⟨hht, ⟨cur', hd', hv'⟩, ?_, ?_⟩
      · intro a r hr
        exact ⟨r, by rw [hrec]; exact hr, Nat.le_refl _⟩
      · intro a r hr
        rw [hrec] at hr
        exact hbelow a r hr

/-- A sequence of calls of the interface, every publish being of the current
table, run from a state whose records hold versions at most the current
version. -/
theorem run_ops_records_mono (ops : List Op) :
    ∀ (s0 s : State) (cur : clht_hashtable_t),
      deref_table s0 s0.hashtable.ht = .ok cur →
      (∀ a r, s0.records.load a = some r → r.version ≤ cur.version) →
      (∀ tid h, Op.publish tid h ∈ ops → h = s0.hashtable.ht) →
      run_ops s0 ops = .ok s →
      s.hashtable.ht = s0.hashtable.ht ∧
        (∃ cur', deref_table s s.hashtable.ht = .ok cur' ∧ cur'.version = cur.version) ∧
        (∀ a r, s0.records.load a = some r →
          ∃ r', s.records.load a = some r' ∧ r.version ≤ r'.version) ∧
        (∀ a r, s.records.load a = some r → r.version ≤ cur.version) := by
  induction ops with
  | nil =>
    intro s0 s cur hcur hbelow _ hrun
    simp only [run_ops, Except.ok.injEq] at hrun
    subst hrun
    exact ⟨rfl, ⟨cur, hcur, rfl⟩, fun a r hr => ⟨r, hr, Nat.le_refl _⟩, hbelow⟩
  | cons op rest ih =>
    intro s0 s cur hcur hbelow hpub hrun
    cases hop : Op.exec s0 op with
    | error e => simp [run_ops, hop] at hrun
    | ok s1 =>
      simp only [run_ops, hop] at hrun
      obtain ⟨hht1, ⟨cur1, hcur1, hv1⟩, hmono1, hb1⟩ :=
        exec_records_mono s0 op s1 cur hcur hbelow
          (fun tid h e => hpub tid h (e ▸ List.mem_cons_self _ _)) hop
      obtain ⟨hht, ⟨cur', hcur', hv'⟩, hmono, hb⟩ :=
        ih s1 s cur1 hcur1 (fun a r hr => by rw [hv1]; exact hb1 a r hr)
          (fun tid h hm => by rw [hht1]; exact hpub tid h (List.mem_cons_of_mem _ hm)) hrun
      refine ⟨by rw [hht, hht1], ⟨cur', hcur', by rw [hv', hv1]⟩, ?_, ?_⟩
      · intro a r hr
        obtain ⟨r1, hr1, hle1⟩ := hmono1 a r hr
        obtain ⟨r', hr', hle'⟩ := hmono a r1 hr1
        exact ⟨r', hr', Nat.le_trans hle1 hle'⟩
      · intro a r hr
        rw [← hv1]
        exact hb a r hr

/-- Every record of a heap whose entries all hold versions at most `v` holds a
version at most `v`. -/
theorem records_below_of_all (m : Heap ht_ts_t) (v : Nat)
    (h : m.all (fun e => decide (e.2.version ≤ v)) = true) :
    ∀ a r, m.load a = some r → r.version ≤ v := by
  induction m with
  | nil => intro a r hr; simp [Heap.load] at hr
  | cons e m ih =>
    obtain ⟨k, w⟩ := e
    simp only [List.all_cons, Bool.and_eq_true, decide_eq_true_eq] at h
    intro a r hr
    by_cases hk : k = a
    · simp only [Heap.load, hk, if_true, Option.some.injEq] at hr
      subst hr
      exact h.1
    · simp only [Heap.load, hk, if_false] at hr
      exact ih h.2 a r hr

/-! ## Sequences of collects -/

/-- In a well-formed version chain the tables from `ht_oldest` up to the
current table form a chain to the current table. -/
theorem chain_to_current_of_wf (s : State) (full : List Nat)
    (hwf : version_chain_wf s full = true) :
    ∃ pre cc post, full = pre ++ cc :: post ∧ chain_to_current s (pre ++ [cc]) = true := by
  obtain ⟨hnt, _, cc, hht, hmem⟩ := (version_chain_wf_iff s full).mp hwf
  have hnd := null_terminated_nodup _ _ _ hnt
  obtain ⟨pre, post, hsplit⟩ := List.append_of_mem hmem
  subst hsplit
  have hcpre : cc ∉ pre := by
    intro h
    have := (List.nodup_append.mp hnd).2.2 h (List.mem_cons_self _ _)
    exact this
  refine ⟨pre, cc, post, rfl, ?_⟩
  rw [chain_to_current_iff]
  refine ⟨pre, cc, rfl, hht, ?_, version_chain_of_null_terminated _ pre cc post _ hnt, hcpre⟩
  rw [null_terminated_head _ _ _ hnt]
  cases pre <;> rfl

/-- A call of `ht_gc_collect_cond` that returns leaves the target floor of
either mode as it is. -/
theorem collect_cond_keeps_target (s : State) (c : Int) (s' : State) (n : Int)
    (h : ht_gc_collect_cond s c = .ok (s', n)) (f : Int) :
    target_floor s' f = target_floor s f := by
  obtain ⟨cur, hd, _⟩ := collect_cond_inv s c s' n h
  obtain ⟨hht, hvl, hrec, cur', hd', hv'⟩ := collect_cond_keeps_current s c s' n cur hd h
  have hd2 : deref_table s' s.hashtable.ht = .ok cur' := by rw [← hht]; exact hd'
  by_cases hf : f ≠ 0
  · simp only [target_floor, hf, if_true, ht_gc_min_version_used, hht, hd2, hd, hvl, hrec, hv',
      bind, Except.bind, ne_eq, not_false_eq_true]
  · simp only [target_floor, hf, if_false, hht, hd2, hd, hv', Except.map]

/-- A sequence of calls of `ht_gc_collect_cond` on a well-formed version chain
returns when the target floor of each call is defined in the start state. -/
theorem run_collects_returns (flags : List Int) :
    ∀ (s0 : State) (full0 : List Nat), version_chain_wf s0 full0 = true → freed_once s0 →
      (∀ f ∈ flags, ∃ target, target_floor s0 f = .ok target) →
      ∃ s, run_collects s0 flags = .ok s := by
  induction flags with
  | nil => intro s0 _ _ _ _; exact ⟨s0, rfl⟩
  | cons flag rest ih =>
    intro s0 full0 hwf hfo htf
    obtain ⟨pre, cc, post, _, hchain⟩ := chain_to_current_of_wf s0 full0 hwf
    obtain ⟨target, ht⟩ := htf flag (List.mem_cons_self _ _)
    obtain ⟨s1, n, hcall⟩ := collect_cond_returns s0 flag (pre ++ [cc]) target hchain ht
    obtain ⟨full1, _, hwf1, hfo1⟩ := collect_cond_keeps_wf s0 flag s1 n full0 hwf hfo hcall
    obtain ⟨s, hs⟩ := ih s1 full1 hwf1 hfo1 (fun f hf => by
      rw [collect_cond_keeps_target s0 flag s1 n hcall f]
      exact htf f (List.mem_cons_of_mem _ hf))
    exact ⟨s, by simp only [run_collects, hcall]; exact hs⟩

/-! ## The outcome of the teardown -/

/-- On a chain of strictly increasing versions, the container invariant puts
`version_min` below the current version unless `ht_oldest` is the current
table. -/
theorem invariant_floor_below_current (s : State) (pre : List Nat) (c : Nat)
    (cur : clht_hashtable_t)
    (hchain : chain_to_current s (pre ++ [c]) = true)
    (hsorted : ((pre ++ [c]).map (table_version s.tables)).Pairwise (· < ·))
    (hinv : container_invariant s = true)
    (hcur : deref_table s s.hashtable.ht = .ok cur) :
    s.hashtable.version_min < cur.version ∨ s.hashtable.ht_oldest = s.hashtable.ht := by
  obtain ⟨o, ho, hov⟩ := container_invariant_oldest s hinv
  obtain ⟨pre', c', hsplit, hht, hold, _, _⟩ := (chain_to_current_iff s (pre ++ [c])).mp hchain
  obtain ⟨rfl, rfl⟩ : pre = pre' ∧ c = c' := by
    have := List.append_inj' hsplit rfl
    exact ⟨this.1, by simpa using this.2⟩
  obtain ⟨c2, hc2, hlc⟩ := deref_table_inv _ _ _ hcur
  rw [hht] at hc2
  simp only [Option.some.injEq] at hc2
  subst hc2
  have hcv : table_version s.tables c = cur.version := by simp [table_version, hlc]
  cases pre with
  | nil =>
    right
    rw [hold, hht]
    rfl
  | cons a rest =>
    left
    rw [ho] at hold
    simp only [List.cons_append, List.head?_cons, Option.some.injEq] at hold
    subst hold
    simp only [List.cons_append, List.map_cons, List.pairwise_cons] at hsorted
    have := hsorted.1 (table_version s.tables c) (by simp)
    omega

/-- The teardown of a container with the gate free and a chain of strictly
increasing versions whose `version_min` is below the current version unless
`ht_oldest` is the current table. -/
theorem destroy_outcome (s : State) (pre : List Nat) (c : Nat) (cur : clht_hashtable_t)
    (hgate : s.hashtable.gc_lock = false) (hchain : chain_to_current s (pre ++ [c]) = true)
    (hsorted : ((pre ++ [c]).map (table_version s.tables)).Pairwise (· < ·))
    (hcur : deref_table s s.hashtable.ht = .ok cur)
    (hfloor : s.hashtable.version_min < cur.version ∨
      s.hashtable.ht_oldest = s.hashtable.ht) :
    ∃ s1 n s' log, ht_gc_collect_all s = .ok (s1, n) ∧
      handed s1.freed = handed s.freed ++ pre ∧
      ht_gc_destroy s = .ok s' ∧ s.hashtable.ht = some c ∧
      handed s'.freed = handed s.freed ++ (pre ++ [c]) ∧
      s'.freed = log ++ [FreeCall.descriptor c, FreeCall.container] ∧
      (∀ a ∈ pre ++ [c], s'.tables.load a = none) := by
  obtain ⟨pre', c', hsplit, hht, hold, _, hnotin⟩ :=
    (chain_to_current_iff s (pre ++ [c])).mp hchain
  obtain ⟨rfl, rfl⟩ : pre = pre' ∧ c = c' := by
    have := List.append_inj' hsplit rfl
    exact ⟨this.1, by simpa using this.2⟩
  -- the state after the unconditional collect
  have hcollect : ∃ s1 n t, ht_gc_collect_all s = .ok (s1, n) ∧ s1.hashtable.ht = some c ∧
      handed s1.freed = handed s.freed ++ pre ∧
      (∀ a ∈ pre, s1.tables.load a = none) ∧ s1.tables.load c = some t := by
    by_cases hlt : s.hashtable.version_min < cur.version
    · exact collect_all_outcome s pre c cur hgate hchain hsorted hcur hlt
    · have hoh : s.hashtable.ht_oldest = s.hashtable.ht := by
        rcases hfloor with h | h
        · exact absurd h hlt
        · exact h
      have hpre : pre = [] := by
        cases pre with
        | nil => rfl
        | cons a rest =>
          rw [hoh, hht] at hold
          simp only [List.cons_append, List.head?_cons, Option.some.injEq] at hold
          exact absurd (hold ▸ List.mem_cons_self _ _) hnotin
      subst hpre
      obtain ⟨c2, hc2, hlc⟩ := deref_table_inv _ _ _ hcur
      rw [hht] at hc2
      simp only [Option.some.injEq] at hc2
      subst hc2
      exact ⟨s, 0, cur, collect_cond_floor_reached s 0 cur hcur (by omega), hht, by simp,
        by simp, hlc⟩
  obtain ⟨s1, n, t, hcall, hht1, hfreed1, hnone1, hlc1⟩ := hcollect
  have hfree := ht_gc_free_ok s1 c t hlc1
  refine ⟨s1, n, { s1 with
      tables := s1.tables.dealloc c,
      freed := free_bins t.table s1.freed ++ [FreeCall.array c] ++ [FreeCall.descriptor c]
        ++ [FreeCall.container] },
    free_bins t.table s1.freed ++ [FreeCall.array c], hcall, hfreed1, ?_, hht, ?_, ?_, ?_⟩
  · simp only [ht_gc_destroy, hcall, bind, Except.bind, hht1, hfree]
  · show handed ((free_bins t.table s1.freed ++ [FreeCall.array c] ++ [FreeCall.descriptor c])
      ++ [FreeCall.container]) = _
    rw [handed_append, handed_append, handed_append, handed_free_bins, hfreed1]
    simp [handed, FreeCall.table?]
  · show (free_bins t.table s1.freed ++ [FreeCall.array c] ++ [FreeCall.descriptor c])
      ++ [FreeCall.container] = _
    simp
  · intro a ha
    show (s1.tables.dealloc c).load a = none
    rw [Heap.load_dealloc]
    by_cases hca : c = a
    · simp [hca]
    · simp only [hca, if_false]
      rcases List.mem_append.mp ha with h | h
      · exact hnone1 a h
      · simp at h; exact absurd h.symm hca

/-! ## The claims -/

/-- C1: in every state `s` reached by a sequence of publish and conditional
collect calls (the empty sequence included, so in every state), every table
that a call of the conditional sweep (`collect_not_referenced_only != 0`)
hands to `ht_gc_free` has a version strictly smaller than the version of the
current table and strictly smaller than the version held by every record of
the registry when the call ran. -/
theorem conditional_collect_frees_only_unreferenced (s0 : State) (calls : List Call) (s : State)
    (c : Int) (s' : State) (n : Int) (hrun : run s0 calls = .ok s) (hc : c ≠ 0)
    (hcall : ht_gc_collect_cond s c = .ok (s', n)) :
    ∃ freed_now cur, handed s'.freed = handed s.freed ++ freed_now ∧
      deref_table s s.hashtable.ht = .ok cur ∧
      ∀ p ∈ freed_now, ∃ t, s.tables.load p = some t ∧ t.version < cur.version ∧
        ∀ a r, registered s.records s.hashtable.version_list a → s.records.load a = some r →
          t.version < r.version := by
  obtain ⟨cur, hd, hcases⟩ := collect_cond_inv s c s' n hcall
  rcases hcases with ⟨rfl, _⟩ | ⟨_, _, target, s1, p, t, htf, _, hsw, _, hs'⟩
  · exact ⟨[], cur, by simp, hd, by simp⟩
  · obtain ⟨_, _, _, ⟨L, hL1, _, hL3⟩, _⟩ := sweep_loop_sound _ _ _ _ _ _ _ _ hsw
    have htf' : ht_gc_min_version_used s = .ok target := by
      unfold target_floor at htf
      rw [if_pos hc] at htf
      exact htf
    obtain ⟨a0, t0, rs, ha0, ht0, hrs, hm⟩ := min_version_used_inv s target htf'
    obtain ⟨a1, ha1, ht1⟩ := deref_table_inv _ _ _ hd
    rw [ha0] at ha1
    simp only [Option.some.injEq] at ha1
    subst ha1
    rw [ht0] at ht1
    simp only [Option.some.injEq] at ht1
    subst ht1
    refine ⟨L, t0, ?_, hd, ?_⟩
    · rw [hs']; exact hL1
    · intro q hq
      obtain ⟨tq, htq, hvq⟩ := hL3 q hq
      refine ⟨tq, htq, ?_, ?_⟩
      · have := spec_safe_floor_le (rs.map (record_version s.records)) t0.version
        omega
      · intro a r hreg hr
        have hmem := registered_mem_registry _ _ _ hreg rs hrs
        have hle := spec_safe_floor_le_mem (rs.map (record_version s.records)) t0.version
          (record_version s.records a) (List.mem_map_of_mem _ hmem)
        have : record_version s.records a = r.version := by simp [record_version, hr]
        omega

/-- The scenario after thread 0 has published version 10: the conditional collect
frees the tables of versions 3 to 6, all below the smallest record version 7. -/
theorem conditional_collect_frees_only_unreferenced_witness :
    run scenario [Call.publish 0 (some 110)] = .ok scenario_published ∧ (1 : Int) ≠ 0 ∧
      ht_gc_collect_cond scenario_published 1 = .ok (scenario_collected, 4) ∧
      ∃ freed_now cur, handed scenario_collected.freed
          = handed scenario_published.freed ++ freed_now ∧
        deref_table scenario_published scenario_published.hashtable.ht = .ok cur ∧
        ∀ p ∈ freed_now, ∃ t, scenario_published.tables.load p = some t ∧
          t.version < cur.version ∧
          ∀ a r, registered scenario_published.records
              scenario_published.hashtable.version_list a →
            scenario_published.records.load a = some r → t.version < r.version :=
  ⟨rfl, by decide, rfl,
    conditional_collect_frees_only_unreferenced scenario [Call.publish 0 (some 110)]
      scenario_published 1 scenario_collected 4 rfl (by decide) rfl⟩

/-- C2: for a container whose registry is finite and null-terminated (the
records at `rs`), `ht_gc_min_version_used` returns the minimum of the current
table's version and the versions of all records: the result is at most the
current version, at most every record's version, and equal to the current
version or to some record's version; for an empty registry it is the current
version. -/
theorem min_version_used_is_minimum (s : State) (c : Nat) (t : clht_hashtable_t)
    (rs : List Nat) (hht : s.hashtable.ht = some c) (ht : s.tables.load c = some t)
    (hreg : registry s.records s.hashtable.version_list rs = true) :
    ∃ m, ht_gc_min_version_used s = .ok m ∧
      m = spec_safe_floor t.version (rs.map (record_version s.records)) ∧
      m ≤ t.version ∧
      (∀ a ∈ rs, ∀ r, s.records.load a = some r → m ≤ r.version) ∧
      (m = t.version ∨ ∃ a ∈ rs, ∃ r, s.records.load a = some r ∧ r.version = m) ∧
      (rs = [] → m = t.version) := by
  refine ⟨_, min_version_used_of_registry s c t rs hht ht hreg, rfl,
    spec_safe_floor_le _ _, ?_, ?_, ?_⟩
  · intro a ha r hr
    have hle := spec_safe_floor_le_mem (rs.map (record_version s.records)) t.version
      (record_version s.records a) (List.mem_map_of_mem _ ha)
    have : record_version s.records a = r.version := by simp [record_version, hr]
    omega
  · rcases spec_safe_floor_attained (rs.map (record_version s.records)) t.version with h | h
    · exact Or.inl h
    · right
      obtain ⟨a, ha, hav⟩ := List.mem_map.mp h
      obtain ⟨r, hr⟩ := registry_allocated _ _ _ hreg a ha
      refine ⟨a, ha, r, hr, ?_⟩
      rw [← hav]; simp [record_version, hr]
  · intro h; subst h; rfl

/-- In the scenario the scan over the records holding 5, 7 and 9 with current
version 10 returns 5. -/
theorem min_version_used_is_minimum_witness :
    scenario.hashtable.ht = some 110 ∧
      scenario.tables.load 110 = some (scenario_table 10 none (some 109)) ∧
      registry scenario.records scenario.hashtable.version_list [1, 2, 3] = true ∧
      ∃ m, ht_gc_min_version_used scenario = .ok m ∧
        m = spec_safe_floor (scenario_table 10 none (some 109)).version
          ([1, 2, 3].map (record_version scenario.records)) ∧
        m ≤ (scenario_table 10 none (some 109)).version ∧
        (∀ a ∈ [1, 2, 3], ∀ r, scenario.records.load a = some r → m ≤ r.version) ∧
        (m = (scenario_table 10 none (some 109)).version ∨
          ∃ a ∈ [1, 2, 3], ∃ r, scenario.records.load a = some r ∧ r.version = m) ∧
        (([1, 2, 3] : List Nat) = [] → m = (scenario_table 10 none (some 109)).version) :=
  ⟨rfl, rfl, by decide,
    min_version_used_is_minimum scenario 110 (scenario_table 10 none (some 109)) [1, 2, 3]
      rfl rfl (by decide)⟩

/-- C3: with the gate free, a chain from `ht_oldest` that reaches the current
table and `version_min` below the target floor, `ht_gc_collect_cond` hands to
`ht_gc_free` exactly the maximal prefix of the chain whose tables have a
version below the target floor, in chain order, then sets `ht_oldest` to the
first table `d` of the chain with a version at or above the target floor and
`version_min` to the version of `d`. -/
theorem collect_cond_frees_chain_below_target (s : State) (c : Int) (chain : List Nat)
    (target : Nat) (hgate : s.hashtable.gc_lock = false)
    (hchain : chain_to_current s chain = true) (htarget : target_floor s c = .ok target)
    (hfloor : s.hashtable.version_min < target) :
    ∃ s' n d, ht_gc_collect_cond s c = .ok (s', n) ∧
      handed s'.freed = handed s.freed ++
        chain.takeWhile (fun a => decide (table_version s.tables a < target)) ∧
      (chain.dropWhile (fun a => decide (table_version s.tables a < target))).head? = some d ∧
      target ≤ table_version s.tables d ∧
      s'.hashtable.ht_oldest = some d ∧
      s'.hashtable.version_min = table_version s.tables d := by
  obtain ⟨s', d, hcall, hd, hge, hhash, _, _, hfreed, _⟩ :=
    collect_cond_sweep s c chain target hgate hchain htarget hfloor
  exact ⟨s', _, d, hcall, hfreed, hd, hge, by rw [hhash], by rw [hhash]⟩

/-- In the scenario the conditional collect with target floor 5 frees the prefix
of the chain below version 5. -/
theorem collect_cond_frees_chain_below_target_witness :
    scenario.hashtable.gc_lock = false ∧
      chain_to_current scenario [103, 104, 105, 106, 107, 108, 109, 110] = true ∧
      target_floor scenario 1 = .ok 5 ∧ scenario.hashtable.version_min < 5 ∧
      ∃ s' n d, ht_gc_collect_cond scenario 1 = .ok (s', n) ∧
        handed s'.freed = handed scenario.freed ++
          [103, 104, 105, 106, 107, 108, 109, 110].takeWhile
            (fun a => decide (table_version scenario.tables a < 5)) ∧
        ([103, 104, 105, 106, 107, 108, 109, 110].dropWhile
            (fun a => decide (table_version scenario.tables a < 5))).head? = some d ∧
        5 ≤ table_version scenario.tables d ∧
        s'.hashtable.ht_oldest = some d ∧
        s'.hashtable.version_min = table_version scenario.tables d :=
  ⟨rfl, by decide, rfl, by decide,
    collect_cond_frees_chain_below_target scenario 1 [103, 104, 105, 106, 107, 108, 109, 110] 5
      rfl (by decide) rfl (by decide)⟩

/-- C4: with the gate free and a contiguous chain (one table for each version
from `version_min` up to the current version), a conditional collect
`ht_gc_collect_cond(h, 1)` makes `version_min` equal to the maximum of the old
`version_min` and the safe floor (the minimum of the current version and the
versions of the registered records), hands to `ht_gc_free` exactly the chain
tables whose version is below that floor, and leaves the tables with a version
at or above it as the chain from `ht_oldest` to the current table, their
versions unchanged. -/
theorem collect_conditional_floor (s : State) (chain rs : List Nat) (cur : clht_hashtable_t)
    (hgate : s.hashtable.gc_lock = false) (hchain : chain_to_current s chain = true)
    (hcontig : chain.map (table_version s.tables)
      = List.range' s.hashtable.version_min chain.length)
    (hcur : deref_table s s.hashtable.ht = .ok cur)
    (hreg : registry s.records s.hashtable.version_list rs = true) :
    ∃ s' n, ht_gc_collect_cond s 1 = .ok (s', n) ∧
      s'.hashtable.version_min = max s.hashtable.version_min
        (spec_safe_floor cur.version (rs.map (record_version s.records))) ∧
      handed s'.freed = handed s.freed ++ chain.filter (fun a =>
        decide (table_version s.tables a < max s.hashtable.version_min
          (spec_safe_floor cur.version (rs.map (record_version s.records))))) ∧
      chain_to_current s' (chain.filter (fun a =>
        decide (max s.hashtable.version_min
          (spec_safe_floor cur.version (rs.map (record_version s.records)))
            ≤ table_version s.tables a))) = true ∧
      ∀ a ∈ chain, max s.hashtable.version_min
          (spec_safe_floor cur.version (rs.map (record_version s.records)))
            ≤ table_version s.tables a →
        table_version s'.tables a = table_version s.tables a := by
  obtain ⟨c, hc, hlc⟩ := deref_table_inv _ _ _ hcur
  have hscan := min_version_used_of_registry s c cur rs hc hlc hreg
  have htf : target_floor s 1
      = .ok (spec_safe_floor cur.version (rs.map (record_version s.records))) := by
    unfold target_floor
    rw [if_pos (by decide)]
    exact hscan
  have hsorted := sorted_of_contiguous (table_version s.tables) chain _ hcontig
  have hge : ∀ a ∈ chain, s.hashtable.version_min ≤ table_version s.tables a := by
    intro a ha
    have hm : table_version s.tables a ∈ chain.map (table_version s.tables) :=
      List.mem_map_of_mem _ ha
    rw [hcontig] at hm
    exact (List.mem_range'_1.mp hm).1
  obtain ⟨cc, cur', hmem, _, hht, hcur', _, _, _, _, _⟩ := chain_to_current_facts s chain hchain
  have hcc : cur' = cur := by
    rw [hht] at hc
    simp only [Option.some.injEq] at hc
    subst hc
    rw [hcur'] at hlc
    exact Option.some.inj hlc
  subst hcc
  generalize spec_safe_floor cur'.version (rs.map (record_version s.records)) = target at *
  have htc : target ≤ cur'.version := target_floor_le_current s 1 target cur' hcur htf
  by_cases hlt : s.hashtable.version_min < target
  · have hmax : max s.hashtable.version_min target = target := by omega
    rw [hmax]
    obtain ⟨s', d, hcall, hd, hdge, hhash, _, _, hfreed, htab⟩ :=
      collect_cond_sweep s 1 chain target hgate hchain htf hlt
    obtain ⟨d', hd', hvd'⟩ := head_dropWhile_of_contiguous (table_version s.tables) target chain
      s.hashtable.version_min hcontig (by omega)
      ⟨cc, hmem, by rw [table_version_of_load _ _ _ hcur']; exact htc⟩
    rw [hd] at hd'
    simp only [Option.some.injEq] at hd'
    subst hd'
    obtain ⟨hchain', hver, _⟩ := chain_after_sweep s s' chain _ d hchain
      (by rw [hhash]) (by rw [hhash]) hd htab
    rw [dropWhile_eq_filter_of_sorted _ _ _ hsorted] at hchain' hver
    rw [takeWhile_eq_filter_of_sorted _ _ _ hsorted] at hfreed
    refine ⟨s', _, hcall, by rw [hhash]; exact hvd', hfreed, hchain', ?_⟩
    intro a ha hle
    exact hver a (List.mem_filter.mpr ⟨ha, by simpa using hle⟩)
  · have hmax : max s.hashtable.version_min target = s.hashtable.version_min := by omega
    rw [hmax]
    have hcall : ht_gc_collect_cond s 1 = .ok (s, 0) := by
      by_cases hv : cur'.version ≤ s.hashtable.version_min
      · exact collect_cond_floor_reached s 1 cur' hcur hv
      · rw [collect_cond_open s 1 cur' hcur (by omega) hgate, htf]
        simp only [if_pos (show target ≤ s.hashtable.version_min by omega)]
    have hnone : chain.filter
        (fun a => decide (table_version s.tables a < s.hashtable.version_min)) = [] := by
      rw [List.filter_eq_nil_iff]
      intro a ha
      have := hge a ha
      simp; omega
    have hall : chain.filter
        (fun a => decide (s.hashtable.version_min ≤ table_version s.tables a)) = chain := by
      rw [List.filter_eq_self]
      intro a ha
      simpa using hge a ha
    refine ⟨s, 0, hcall, rfl, by rw [hnone]; simp, by rw [hall]; exact hchain, fun _ _ _ => rfl⟩

/-- The scenario of the specification: records 5, 7 and 9 and current version 10
give floor 5; the tables of versions 3 and 4 are freed and versions 5 to 10
remain the chain. -/
theorem collect_conditional_floor_witness :
    scenario.hashtable.gc_lock = false ∧
      chain_to_current scenario [103, 104, 105, 106, 107, 108, 109, 110] = true ∧
      [103, 104, 105, 106, 107, 108, 109, 110].map (table_version scenario.tables)
        = List.range' scenario.hashtable.version_min 8 ∧
      deref_table scenario scenario.hashtable.ht = .ok (scenario_table 10 none (some 109)) ∧
      registry scenario.records scenario.hashtable.version_list [1, 2, 3] = true ∧
      ∃ s' n, ht_gc_collect_cond scenario 1 = .ok (s', n) ∧
        s'.hashtable.version_min = 5 ∧
        handed s'.freed = [103, 104] ∧
        chain_to_current s' [105, 106, 107, 108, 109, 110] = true ∧
        ∀ a ∈ [103, 104, 105, 106, 107, 108, 109, 110],
          5 ≤ table_version scenario.tables a →
          table_version s'.tables a = table_version scenario.tables a :=
  ⟨rfl, by decide, by decide, rfl, by decide,
    collect_conditional_floor scenario [103, 104, 105, 106, 107, 108, 109, 110] [1, 2, 3]
      (scenario_table 10 none (some 109)) rfl (by decide) (by decide) rfl (by decide)⟩

/-- C5: with the gate free, a chain from `ht_oldest` to the current table with
strictly increasing versions and `version_min` below the current version,
`ht_gc_collect_all` sets `version_min` to the current version and `ht_oldest`
to the current table and hands every chain table older than the current one to
`ht_gc_free`, whatever versions the records hold (the records are not read and
not changed); the current table is not freed. -/
theorem collect_all_frees_all_older (s : State) (chain : List Nat) (cur : clht_hashtable_t)
    (hgate : s.hashtable.gc_lock = false) (hchain : chain_to_current s chain = true)
    (hsorted : (chain.map (table_version s.tables)).Pairwise (· < ·))
    (hcur : deref_table s s.hashtable.ht = .ok cur)
    (hfloor : s.hashtable.version_min < cur.version) :
    ∃ s' n, ht_gc_collect_all s = .ok (s', n) ∧
      s'.hashtable.version_min = cur.version ∧
      s'.hashtable.ht_oldest = s.hashtable.ht ∧ s'.hashtable.ht = s.hashtable.ht ∧
      handed s'.freed = handed s.freed ++ chain.dropLast ∧
      (∀ a ∈ chain.dropLast, s'.tables.load a = none) ∧
      (∀ c, s.hashtable.ht = some c → c ∉ chain.dropLast) ∧
      (∃ t, deref_table s' s'.hashtable.ht = .ok t ∧ t.version = cur.version) ∧
      s'.records = s.records := by
  obtain ⟨pre, c, rfl, hht, _, _, hnotin⟩ := (chain_to_current_iff s chain).mp hchain
  obtain ⟨c', hc', hlc⟩ := deref_table_inv _ _ _ hcur
  rw [hht] at hc'
  simp only [Option.some.injEq] at hc'
  subst hc'
  have hvc : table_version s.tables c = cur.version := table_version_of_load _ _ _ hlc
  have htf : target_floor s 0 = .ok cur.version := by
    simp [target_floor, hcur, Except.map]
  obtain ⟨hT, hD⟩ := sorted_chain_split (table_version s.tables) pre c hsorted
  rw [hvc] at hT hD
  obtain ⟨s', d, hcall, hd, _, hhash, hrec, _, hfreed, htab⟩ :=
    collect_cond_sweep s 0 (pre ++ [c]) cur.version hgate hchain htf hfloor
  obtain ⟨hchain', hver, hnone⟩ := chain_after_sweep s s' (pre ++ [c]) _ d hchain
    (by rw [hhash]) (by rw [hhash]) hd htab
  rw [hD] at hd hchain' hver
  rw [hT] at hfreed hnone
  simp only [List.head?_cons, Option.some.injEq] at hd
  subst hd
  obtain ⟨c2, cur2, _, _, hht2, hcur2, hderef2, _⟩ := chain_to_current_facts s' [c] hchain'
  have hv2 : cur2.version = cur.version := by
    have h1 := hver c (List.mem_singleton_self c)
    rw [hvc] at h1
    have hc2 : c2 = c := by
      have : s'.hashtable.ht = some c := by rw [hhash]; exact hht
      rw [this] at hht2
      exact (Option.some.inj hht2).symm
    subst hc2
    rw [table_version_of_load _ _ _ hcur2] at h1
    exact h1
  refine ⟨s', _, hcall, ?_, ?_, by rw [hhash], ?_, ?_, ?_, ⟨cur2, hderef2, hv2⟩, hrec⟩
  · rw [hhash]; exact hvc
  · rw [hhash]; exact hht.symm
  · simpa using hfreed
  · simpa using hnone
  · intro c1 hc1
    rw [hht] at hc1
    simp only [Option.some.injEq] at hc1
    subst hc1
    simpa using hnotin

/-- The scenario of the specification: the unconditional collect gives floor 10
and frees the tables of versions 3 to 9. -/
theorem collect_all_frees_all_older_witness :
    scenario.hashtable.gc_lock = false ∧
      chain_to_current scenario [103, 104, 105, 106, 107, 108, 109, 110] = true ∧
      ([103, 104, 105, 106, 107, 108, 109, 110].map
        (table_version scenario.tables)).Pairwise (· < ·) ∧
      deref_table scenario scenario.hashtable.ht = .ok (scenario_table 10 none (some 109)) ∧
      scenario.hashtable.version_min < (scenario_table 10 none (some 109)).version ∧
      ∃ s' n, ht_gc_collect_all scenario = .ok (s', n) ∧
        s'.hashtable.version_min = 10 ∧
        s'.hashtable.ht_oldest = some 110 ∧ s'.hashtable.ht = some 110 ∧
        handed s'.freed = [103, 104, 105, 106, 107, 108, 109] ∧
        (∀ a ∈ [103, 104, 105, 106, 107, 108, 109], s'.tables.load a = none) ∧
        (∀ c, scenario.hashtable.ht = some c → c ∉ [103, 104, 105, 106, 107, 108, 109]) ∧
        (∃ t, deref_table s' s'.hashtable.ht = .ok t ∧ t.version = 10) ∧
        s'.records = scenario.records :=
  ⟨rfl, by decide, by decide, rfl, by decide,
    collect_all_frees_all_older scenario [103, 104, 105, 106, 107, 108, 109, 110]
      (scenario_table 10 none (some 109)) rfl (by decide) (by decide) rfl (by decide)⟩

/-- C6 (amended): when `version_min` is at or above the current version,
`ht_gc_collect_all` returns 0 and leaves the whole state unchanged (nothing is
freed), and `ht_gc_collect` called by a registered thread returns 0, frees
nothing and changes nothing but the version of the calling thread's own
record, which it sets to the current version (in a build with `CLHT_DO_GC`
equal to 1; in any other build it changes nothing); so the whole state is
unchanged when that record already holds the current version. -/
theorem collect_at_floor_returns_zero (s : State) (cur : clht_hashtable_t)
    (hcur : deref_table s s.hashtable.ht = .ok cur)
    (hfloor : cur.version ≤ s.hashtable.version_min) :
    ht_gc_collect_all s = .ok (s, 0) ∧
      ∀ (CLHT_DO_GC tid a : Nat) (r : ht_ts_t), s.clht_ts_thread.load tid = some a →
        s.records.load a = some r →
        ht_gc_collect CLHT_DO_GC s tid = .ok
          (if CLHT_DO_GC = 1 then
            { s with records := s.records.store a { r with version := cur.version } }
           else s, 0) ∧
        (r.version = cur.version → ht_gc_collect CLHT_DO_GC s tid = .ok (s, 0)) := by
  refine ⟨collect_cond_floor_reached s 0 cur hcur hfloor, ?_⟩
  intro gc tid a r htid hrec
  have hpub := thread_version_ok s tid s.hashtable.ht cur a r hcur htid hrec
  have hmain : ht_gc_collect gc s tid = .ok
      (if gc = 1 then
        { s with records := s.records.store a { r with version := cur.version } }
       else s, 0) := by
    by_cases hgc : gc = 1
    · simp only [ht_gc_collect, hgc, if_true, CLHT_GC_HT_VERSION_USED, hpub, bind, Except.bind]
      exact collect_cond_floor_reached _ 1 cur hcur hfloor
    · simp only [ht_gc_collect, hgc, if_false]
  refine ⟨hmain, ?_⟩
  intro hv
  rw [hmain]
  by_cases hgc : gc = 1
  · simp only [hgc, if_true]
    have hr : ({ r with version := cur.version } : ht_ts_t) = r := by
      cases r; simp at hv; simp [hv]
    rw [hr, Heap.store_same _ _ _ hrec]
  · simp only [hgc, if_false]

/-- The state `floor_reached`, whose floor equals the current version. -/
theorem collect_at_floor_returns_zero_witness :
    deref_table floor_reached floor_reached.hashtable.ht = .ok (scenario_table 10 none none) ∧
      (scenario_table 10 none none).version ≤ floor_reached.hashtable.version_min ∧
      (ht_gc_collect_all floor_reached = .ok (floor_reached, 0) ∧
        ∀ (CLHT_DO_GC tid a : Nat) (r : ht_ts_t), floor_reached.clht_ts_thread.load tid = some a →
          floor_reached.records.load a = some r →
          ht_gc_collect CLHT_DO_GC floor_reached tid = .ok
            (if CLHT_DO_GC = 1 then
              { floor_reached with
                records := (floor_reached.records.store a
                  { r with version := (scenario_table 10 none none).version }) }
             else floor_reached, 0) ∧
          (r.version = (scenario_table 10 none none).version →
            ht_gc_collect CLHT_DO_GC floor_reached tid = .ok (floor_reached, 0))) :=
  ⟨rfl, by decide,
    collect_at_floor_returns_zero floor_reached (scenario_table 10 none none) rfl (by decide)⟩

/-- C6 (counterexample): `floor_reached` is the scenario after
`ht_gc_collect_all`; there the floor equals the current version 10 and the
record of thread 0 holds version 5; `ht_gc_collect` called by thread 0 returns
0 but leaves that record holding version 10, so the state has changed. -/
theorem collect_at_floor_republishes :
    ht_gc_collect_all scenario = .ok (floor_reached, 7) ∧
      deref_table floor_reached floor_reached.hashtable.ht = .ok (scenario_table 10 none none) ∧
      floor_reached.hashtable.version_min = (scenario_table 10 none none).version ∧
      ht_gc_collect 1 floor_reached 0 = .ok (floor_reached_published, 0) ∧
      record_version floor_reached.records 1 = 5 ∧
      record_version floor_reached_published.records 1 = 10 ∧
      floor_reached_published ≠ floor_reached :=
  ⟨rfl, rfl, rfl, rfl, rfl, rfl, by decide⟩

/-- C7: when the gate is already held, `ht_gc_collect_cond` (in either mode)
returns 0 and leaves the whole state unchanged, the gate still held, nothing
freed; in particular, once a first call has taken the gate with `TRYLOCK_ACQ`,
a second call on that state returns 0 with no state change. -/
theorem collect_cond_gate_held_returns_zero (s : State) (c : Int) (cur : clht_hashtable_t)
    (hcur : deref_table s s.hashtable.ht = .ok cur) (hheld : s.hashtable.gc_lock = true) :
    ht_gc_collect_cond s c = .ok (s, 0) ∧
      ∀ (first : State) (c2 : Int), deref_table first first.hashtable.ht = .ok cur →
        ht_gc_collect_cond
          { first with hashtable :=
            { first.hashtable with gc_lock := (TRYLOCK_ACQ first.hashtable.gc_lock).1 } } c2
          = .ok ({ first with hashtable :=
            { first.hashtable with gc_lock := (TRYLOCK_ACQ first.hashtable.gc_lock).1 } }, 0) := by
  refine ⟨collect_cond_gate_held s c cur hcur hheld, ?_⟩
  intro first c2 hfirst
  exact collect_cond_gate_held _ c2 cur hfirst rfl

/-- The scenario with the gate taken by another collector. -/
theorem collect_cond_gate_held_returns_zero_witness :
    deref_table scenario_gate_held scenario_gate_held.hashtable.ht
        = .ok (scenario_table 10 none (some 109)) ∧
      scenario_gate_held.hashtable.gc_lock = true ∧
      (ht_gc_collect_cond scenario_gate_held 1 = .ok (scenario_gate_held, 0) ∧
        ∀ (first : State) (c2 : Int),
          deref_table first first.hashtable.ht = .ok (scenario_table 10 none (some 109)) →
          ht_gc_collect_cond
            { first with hashtable :=
              { first.hashtable with gc_lock := (TRYLOCK_ACQ first.hashtable.gc_lock).1 } } c2
            = .ok ({ first with hashtable :=
              { first.hashtable with gc_lock := (TRYLOCK_ACQ first.hashtable.gc_lock).1 } }, 0)) :=
  ⟨rfl, rfl,
    collect_cond_gate_held_returns_zero scenario_gate_held 1 (scenario_table 10 none (some 109))
      rfl rfl⟩

/-- C8: for a container with a chain of strictly increasing versions from
`ht_oldest` to the current table that satisfies the container invariant (the
oldest table's version equals `version_min`, and `version_min` is at most the
current version), the invariant holds again whenever a call of
`ht_gc_collect_cond` (either mode) returns; and the call does return whenever
its target floor is defined. -/
theorem collect_cond_preserves_invariant (s : State) (c : Int) (chain : List Nat)
    (hchain : chain_to_current s chain = true)
    (hsorted : (chain.map (table_version s.tables)).Pairwise (· < ·))
    (hinv : container_invariant s = true) :
    (∀ s' n, ht_gc_collect_cond s c = .ok (s', n) → container_invariant s' = true) ∧
      (∀ target, target_floor s c = .ok target →
        ∃ s' n, ht_gc_collect_cond s c = .ok (s', n)) := by
  refine ⟨?_, fun target ht => collect_cond_returns s c chain target hchain ht⟩
  intro s' n hcall
  rcases collect_cond_chain_inv s c chain s' n hchain hcall with ⟨rfl, _⟩ |
    ⟨target, d, _, _, hdh, _, hhash, _, _, _, hchain', hver, _⟩
  · exact hinv
  · obtain ⟨cc, cur, hmem, hlast, hht, hcur, _, _, _, _, _⟩ := chain_to_current_facts s chain hchain
    obtain ⟨cc', cur', hmem', _, hht', hcur', hderef', _⟩ := chain_to_current_facts s' _ hchain'
    have hcc : cc' = cc := by
      have : s'.hashtable.ht = some cc := by rw [hhash]; exact hht
      rw [this] at hht'
      exact (Option.some.inj hht').symm
    subst hcc
    obtain ⟨t, hto, htv⟩ := chain_head_deref s' _ d hchain' hdh
    have hdD : d ∈ chain.dropWhile (fun a => decide (table_version s.tables a < target)) :=
      List.mem_of_mem_head? hdh
    have hdchain : d ∈ chain := (List.dropWhile_sublist _).subset hdD
    rw [container_invariant_iff]
    refine ⟨t, cur', hto, hderef', ?_, ?_⟩
    · rw [htv, hver d hdD, hhash]
    · have h1 := sorted_le_last _ chain cc' hlast hsorted d hdchain
      have h2 := hver cc' hmem'
      rw [table_version_of_load _ _ _ hcur'] at h2
      rw [hhash]
      show table_version s.tables d ≤ cur'.version
      omega

/-- The scenario satisfies the container invariant, in conditional mode. -/
theorem collect_cond_preserves_invariant_witness :
    chain_to_current scenario [103, 104, 105, 106, 107, 108, 109, 110] = true ∧
      ([103, 104, 105, 106, 107, 108, 109, 110].map
        (table_version scenario.tables)).Pairwise (· < ·) ∧
      container_invariant scenario = true ∧
      ((∀ s' n, ht_gc_collect_cond scenario 1 = .ok (s', n) → container_invariant s' = true) ∧
        (∀ target, target_floor scenario 1 = .ok target →
          ∃ s' n, ht_gc_collect_cond scenario 1 = .ok (s', n))) :=
  ⟨by decide, by decide, by decide,
    collect_cond_preserves_invariant scenario 1 [103, 104, 105, 106, 107, 108, 109, 110]
      (by decide) (by decide) (by decide)⟩

/-- C9: if the tables from `ht_oldest` to the current table form a chain whose
versions increase by one from each table to the next, then whenever a call of
`ht_gc_collect_cond` (either mode) returns, the chain from the new `ht_oldest`
to the current table is a suffix of the old chain and is again contiguous,
strictly increasing and without repetition; and the call does return whenever
its target floor is defined. -/
theorem collect_cond_preserves_chain (s : State) (c : Int) (chain : List Nat)
    (hchain : chain_to_current s chain = true)
    (hcontig : (chain.map (table_version s.tables)).Chain' (fun v w => w = v + 1)) :
    (∀ s' n, ht_gc_collect_cond s c = .ok (s', n) →
        ∃ chain', chain' <:+ chain ∧ chain_to_current s' chain' = true ∧
          (chain'.map (table_version s'.tables)).Chain' (fun v w => w = v + 1) ∧
          (chain'.map (table_version s'.tables)).Pairwise (· < ·) ∧ chain'.Nodup) ∧
      (∀ target, target_floor s c = .ok target →
        ∃ s' n, ht_gc_collect_cond s c = .ok (s', n)) := by
  refine ⟨?_, fun target ht => collect_cond_returns s c chain target hchain ht⟩
  intro s' n hcall
  rcases collect_cond_chain_inv s c chain s' n hchain hcall with ⟨rfl, _⟩ |
    ⟨target, d, _, _, _, _, _, _, _, _, hchain', hver, _⟩
  · obtain ⟨_, _, _, _, _, _, _, _, _, hnd, _⟩ := chain_to_current_facts s' chain hchain
    exact ⟨chain, List.suffix_refl _, hchain, hcontig, sorted_of_chain_succ _ hcontig, hnd⟩
  · obtain ⟨_, _, _, _, _, _, _, _, _, hnd', _⟩ := chain_to_current_facts s' _ hchain'
    have hsuf := List.dropWhile_suffix (l := chain)
      (fun a => decide (table_version s.tables a < target))
    have hmap : (chain.dropWhile (fun a => decide (table_version s.tables a < target))).map
          (table_version s'.tables)
        = (chain.dropWhile (fun a => decide (table_version s.tables a < target))).map
          (table_version s.tables) :=
      List.map_congr_left hver
    have hc' : ((chain.dropWhile (fun a => decide (table_version s.tables a < target))).map
        (table_version s'.tables)).Chain' (fun v w => w = v + 1) := by
      rw [hmap]
      exact hcontig.suffix (hsuf.map _)
    exact ⟨_, hsuf, hchain', hc', sorted_of_chain_succ _ hc', hnd'⟩

/-- The scenario has a contiguous chain, in unconditional mode. -/
theorem collect_cond_preserves_chain_witness :
    chain_to_current scenario [103, 104, 105, 106, 107, 108, 109, 110] = true ∧
      ([103, 104, 105, 106, 107, 108, 109, 110].map
        (table_version scenario.tables)).Chain' (fun v w => w = v + 1) ∧
      ((∀ s' n, ht_gc_collect_cond scenario 0 = .ok (s', n) →
          ∃ chain', chain' <:+ [103, 104, 105, 106, 107, 108, 109, 110] ∧
            chain_to_current s' chain' = true ∧
            (chain'.map (table_version s'.tables)).Chain' (fun v w => w = v + 1) ∧
            (chain'.map (table_version s'.tables)).Pairwise (· < ·) ∧ chain'.Nodup) ∧
        (∀ target, target_floor scenario 0 = .ok target →
          ∃ s' n, ht_gc_collect_cond scenario 0 = .ok (s', n))) :=
  ⟨by decide, by simp [table_version, scenario, scenario_table, Heap.load],
    collect_cond_preserves_chain scenario 0 [103, 104, 105, 106, 107, 108, 109, 110]
      (by decide) (by simp [table_version, scenario, scenario_table, Heap.load])⟩

/-- C10: for a container that satisfies the container invariant of §3 (the
version of the table at `ht_oldest` is `version_min`, which is at most the
current version) and has a chain from `ht_oldest` to the current table,
whenever a call of `ht_gc_collect_cond` (either mode) returns, `version_min`
after the call is at least `version_min` before it, and it is strictly greater
exactly when the returned count is not zero; and the call does return whenever
its target floor is defined. -/
theorem collect_cond_floor_monotone (s : State) (c : Int) (chain : List Nat)
    (hchain : chain_to_current s chain = true)
    (hinv : container_invariant s = true) :
    (∀ s' n, ht_gc_collect_cond s c = .ok (s', n) →
        s.hashtable.version_min ≤ s'.hashtable.version_min ∧
        (s.hashtable.version_min < s'.hashtable.version_min ↔ n ≠ 0)) ∧
      (∀ target, target_floor s c = .ok target →
        ∃ s' n, ht_gc_collect_cond s c = .ok (s', n)) := by
  obtain ⟨o, ho, hov⟩ := container_invariant_oldest s hinv
  exact ⟨fun s' n hcall =>
      collect_cond_floor_of_oldest_le s c chain o hchain ho (Nat.le_of_eq hov) s' n hcall,
    fun target ht => collect_cond_returns s c chain target hchain ht⟩

/-- The scenario: a conditional collect raises `version_min` from 3 to 5 and
returns the count 2. -/
theorem collect_cond_floor_monotone_witness :
    chain_to_current scenario [103, 104, 105, 106, 107, 108, 109, 110] = true ∧
      container_invariant scenario = true ∧
      ((∀ s' n, ht_gc_collect_cond scenario 1 = .ok (s', n) →
          scenario.hashtable.version_min ≤ s'.hashtable.version_min ∧
          (scenario.hashtable.version_min < s'.hashtable.version_min ↔ n ≠ 0)) ∧
        (∀ target, target_floor scenario 1 = .ok target →
          ∃ s' n, ht_gc_collect_cond scenario 1 = .ok (s', n))) :=
  ⟨by decide, by decide,
    collect_cond_floor_monotone scenario 1 [103, 104, 105, 106, 107, 108, 109, 110]
      (by decide) (by decide)⟩

/-- C11: in every sequence of register (`ht_gc_thread_init`), publish
(`ht_gc_thread_version`), collect and collect-all calls in which every publish
is of the current table (a thread publishes the table it is about to use, never
a superseded one), run from a state whose records hold versions at most the
current version (as they do when the registry is empty, and after every call),
each call that returns leaves every record in place with a version at least as
large as before that call; and when the whole sequence returns, every record of
the start is still there with a version at least as large, the current table
has kept its version and the records still hold versions at most that
version. -/
theorem record_versions_non_decreasing (s0 : State) (ops : List Op) (cur : clht_hashtable_t)
    (hcur : deref_table s0 s0.hashtable.ht = .ok cur)
    (hbelow : ∀ a r, s0.records.load a = some r → r.version ≤ cur.version)
    (hpub : ∀ tid h, Op.publish tid h ∈ ops → h = s0.hashtable.ht) :
    (∀ pre op post s1 s2, ops = pre ++ op :: post → run_ops s0 pre = .ok s1 →
        Op.exec s1 op = .ok s2 →
        ∀ a r, s1.records.load a = some r →
          ∃ r', s2.records.load a = some r' ∧ r.version ≤ r'.version) ∧
      (∀ s, run_ops s0 ops = .ok s →
        (∀ a r, s0.records.load a = some r →
          ∃ r', s.records.load a = some r' ∧ r.version ≤ r'.version) ∧
        ∃ cur', deref_table s s.hashtable.ht = .ok cur' ∧ cur'.version = cur.version ∧
          ∀ a r, s.records.load a = some r → r.version ≤ cur'.version) := by
  constructor
  · intro pre op post s1 s2 hsplit hpre hop
    subst hsplit
    obtain ⟨hht1, ⟨cur1, hcur1, hv1⟩, _, hb1⟩ :=
      run_ops_records_mono pre s0 s1 cur hcur hbelow
        (fun tid h hm => hpub tid h (List.mem_append_left _ hm)) hpre
    exact (exec_records_mono s1 op s2 cur1 hcur1 (fun a r hr => by rw [hv1]; exact hb1 a r hr)
      (fun tid h e => by
        rw [hht1]
        exact hpub tid h (List.mem_append_right _ (e ▸ List.mem_cons_self _ _))) hop).2.2.1
  · intro s hrun
    obtain ⟨_, ⟨cur', hcur', hv'⟩, hmono, hb⟩ :=
      run_ops_records_mono ops s0 s cur hcur hbelow hpub hrun
    exact ⟨hmono, cur', hcur', hv', fun a r hr => by rw [hv']; exact hb a r hr⟩

/-- In the scenario thread 3 registers, thread 0 publishes the current table
(version 10 over its version 5) and thread 1 calls `ht_gc_collect`, which
publishes version 10 over its version 7 and frees the tables of versions 3 to
8. -/
theorem record_versions_non_decreasing_witness :
    deref_table scenario scenario.hashtable.ht = .ok (scenario_table 10 none (some 109)) ∧
      (∀ a r, scenario.records.load a = some r → r.version ≤ 10) ∧
      (∀ tid h, Op.publish tid h ∈
          [Op.register 3 42 (some 4), Op.publish 0 (some 110), Op.collect 1] →
        h = some 110) ∧
      run_ops scenario [Op.register 3 42 (some 4), Op.publish 0 (some 110), Op.collect 1]
        = .ok scenario_registered_collected ∧
      ((∀ pre op post s1 s2,
          [Op.register 3 42 (some 4), Op.publish 0 (some 110), Op.collect 1]
            = pre ++ op :: post →
          run_ops scenario pre = .ok s1 → Op.exec s1 op = .ok s2 →
          ∀ a r, s1.records.load a = some r →
            ∃ r', s2.records.load a = some r' ∧ r.version ≤ r'.version) ∧
        (∀ s, run_ops scenario [Op.register 3 42 (some 4), Op.publish 0 (some 110), Op.collect 1]
            = .ok s →
          (∀ a r, scenario.records.load a = some r →
            ∃ r', s.records.load a = some r' ∧ r.version ≤ r'.version) ∧
          ∃ cur', deref_table s s.hashtable.ht = .ok cur' ∧ cur'.version = 10 ∧
            ∀ a r, s.records.load a = some r → r.version ≤ cur'.version)) :=
  have hpub : ∀ tid h, Op.publish tid h ∈
      [Op.register 3 42 (some 4), Op.publish 0 (some 110), Op.collect 1] → h = some 110 := by
    intro tid h hm
    simp only [List.mem_cons, Op.publish.injEq, List.mem_singleton, reduceCtorEq, false_or,
      or_false, List.not_mem_nil] at hm
    exact hm.2
  ⟨rfl, records_below_of_all scenario.records 10 (by decide), hpub, rfl,
    record_versions_non_decreasing scenario
      [Op.register 3 42 (some 4), Op.publish 0 (some 110), Op.collect 1]
      (scenario_table 10 none (some 109)) rfl
      (records_below_of_all scenario.records 10 (by decide)) hpub⟩

/-- C12: over every sequence of calls of `ht_gc_collect_cond` (either mode) on
a container whose version chain is well formed (null-terminated, so without
cycle, with predecessor links to the table before) and whose log of frees is
consistent: whenever the sequence returns, every table was handed to
`ht_gc_free` at most once, the chain from `ht_oldest` is a suffix of the
original one and still well formed, and no table that was freed is allocated,
is reached from `ht_oldest` through `table_new` links, or is referenced by the
`table_prev` or `table_new` link of a table of the chain; and the sequence does
return, so that no call frees or dereferences a table that was freed, whenever
the registry scan returns in the start state (no scan is needed if every call
is unconditional). -/
theorem collect_never_frees_twice (s0 : State) (flags : List Int) (full0 : List Nat)
    (hwf : version_chain_wf s0 full0 = true) (hfo : freed_once s0) :
    (∀ s, run_collects s0 flags = .ok s →
        (handed s.freed).Nodup ∧
        ∃ full, full <:+ full0 ∧ version_chain_wf s full = true ∧
          ∀ p ∈ handed s.freed,
            s.tables.load p = none ∧ ¬ reachable s.tables s.hashtable.ht_oldest p ∧
            ∀ a ∈ full, ∀ t, s.tables.load a = some t →
              t.table_prev ≠ some p ∧ t.table_new ≠ some p) ∧
      ((∀ f ∈ flags, f ≠ 0 → ∃ m, ht_gc_min_version_used s0 = .ok m) →
        ∃ s, run_collects s0 flags = .ok s) := by
  constructor
  · intro s hrun
    obtain ⟨full, hsuf, hwf', hfn, hfd⟩ := run_collects_keeps_wf flags s0 s full0 hwf hfo hrun
    obtain ⟨hnt, hpl, _, _, _⟩ := (version_chain_wf_iff s full).mp hwf'
    have hnotin : ∀ p ∈ handed s.freed, p ∉ full := by
      intro p hp hmem
      obtain ⟨t, ht⟩ := null_terminated_allocated _ _ _ hnt p hmem
      rw [hfd p hp] at ht
      simp at ht
    refine ⟨hfn, full, hsuf, hwf', ?_⟩
    intro p hp
    refine ⟨hfd p hp, fun hr => hnotin p hp (reachable_mem _ _ _ hr full hnt), ?_⟩
    intro a ha t hl
    constructor
    · intro hprev
      rcases prev_links_mem _ _ _ hpl a ha t p hl hprev with h | h
      · simp at h
      · exact hnotin p hp h
    · intro hnew
      obtain ⟨l1, l2, hsplit⟩ := List.append_of_mem ha
      subst hsplit
      have hs := null_terminated_suffix _ l1 a l2 _ hnt
      rw [null_terminated_cons] at hs
      obtain ⟨_, t', ht', hrest⟩ := hs
      rw [hl] at ht'
      simp only [Option.some.injEq] at ht'
      subst ht'
      have hhead := null_terminated_head _ _ _ hrest
      rw [hnew] at hhead
      have : p ∈ l2 := List.mem_of_mem_head? hhead.symm
      exact hnotin p hp (List.mem_append_right _ (List.mem_cons_of_mem _ this))
  · intro hscan
    obtain ⟨_, cc, _, _, hchain⟩ := chain_to_current_of_wf s0 full0 hwf
    obtain ⟨_, cur, _, _, _, _, hcur, _⟩ := chain_to_current_facts s0 _ hchain
    refine run_collects_returns flags s0 full0 hwf hfo ?_
    intro f hf
    by_cases hf0 : f ≠ 0
    · obtain ⟨m, hm⟩ := hscan f hf hf0
      exact ⟨m, by simp only [target_floor, hf0, if_true, ne_eq, not_false_eq_true]; exact hm⟩
    · exact ⟨cur.version, by simp only [target_floor, hf0, if_false, hcur, Except.map]⟩

/-- The scenario: a conditional collect frees the tables of versions 3 and 4,
then an unconditional collect frees those of versions 5 to 9. -/
theorem collect_never_frees_twice_witness :
    version_chain_wf scenario [103, 104, 105, 106, 107, 108, 109, 110] = true ∧
      freed_once scenario ∧ run_collects scenario [1, 0] = .ok floor_reached ∧
      ht_gc_min_version_used scenario = .ok 5 ∧
      ((∀ s, run_collects scenario [1, 0] = .ok s →
          (handed s.freed).Nodup ∧
          ∃ full, full <:+ [103, 104, 105, 106, 107, 108, 109, 110] ∧
            version_chain_wf s full = true ∧
            ∀ p ∈ handed s.freed,
              s.tables.load p = none ∧ ¬ reachable s.tables s.hashtable.ht_oldest p ∧
              ∀ a ∈ full, ∀ t, s.tables.load a = some t →
                t.table_prev ≠ some p ∧ t.table_new ≠ some p) ∧
        ((∀ f ∈ [(1 : Int), 0], f ≠ 0 → ∃ m, ht_gc_min_version_used scenario = .ok m) →
          ∃ s, run_collects scenario [1, 0] = .ok s)) :=
  ⟨by decide, ⟨by decide, by decide⟩, rfl, rfl,
    collect_never_frees_twice scenario [1, 0]
      [103, 104, 105, 106, 107, 108, 109, 110] (by decide) ⟨by decide, by decide⟩⟩

/-- C13: whenever `ht_gc_collect_cond` returns, its value is the number of
tables that the call handed to `ht_gc_free`; the value is 0 on each early exit
(gate held, `version_min` at or above the current version, `version_min` at or
above the target floor); and on a chain from `ht_oldest` to the current table
it is the number of tables of the maximal chain prefix with a version below the
target floor, which for strictly increasing versions are all the chain tables
with a version below the target floor. -/
theorem collect_cond_returns_count (s : State) (c : Int) (cur : clht_hashtable_t)
    (hcur : deref_table s s.hashtable.ht = .ok cur) :
    (∀ s' n, ht_gc_collect_cond s c = .ok (s', n) →
        ∃ L : List Nat, handed s'.freed = handed s.freed ++ L ∧ n = (L.length : Int)) ∧
      (s.hashtable.gc_lock = true → ht_gc_collect_cond s c = .ok (s, 0)) ∧
      (cur.version ≤ s.hashtable.version_min → ht_gc_collect_cond s c = .ok (s, 0)) ∧
      (∀ target, s.hashtable.gc_lock = false → target_floor s c = .ok target →
        target ≤ s.hashtable.version_min → ht_gc_collect_cond s c = .ok (s, 0)) ∧
      (∀ chain target, s.hashtable.gc_lock = false → chain_to_current s chain = true →
        target_floor s c = .ok target → s.hashtable.version_min < target →
        ∃ s', ht_gc_collect_cond s c = .ok (s',
            ((chain.takeWhile (fun a => decide (table_version s.tables a < target))).length
              : Int)) ∧
          handed s'.freed = handed s.freed ++
            chain.takeWhile (fun a => decide (table_version s.tables a < target)) ∧
          ((chain.map (table_version s.tables)).Pairwise (· < ·) →
            chain.takeWhile (fun a => decide (table_version s.tables a < target))
              = chain.filter (fun a => decide (table_version s.tables a < target)))) := by
  refine ⟨?_, fun hg => collect_cond_gate_held s c cur hcur hg,
    fun hv => collect_cond_floor_reached s c cur hcur hv,
    fun target hg ht hle => collect_cond_nothing_below s c cur target hcur hg ht hle, ?_⟩
  · intro s' n hcall
    obtain ⟨_, _, hcases⟩ := collect_cond_inv s c s' n hcall
    rcases hcases with ⟨rfl, rfl⟩ | ⟨_, _, target, s1, p, t, _, _, hsw, _, hs'⟩
    · exact ⟨[], by simp, by simp⟩
    · obtain ⟨_, _, _, ⟨L, hL1, hL2, _⟩, _⟩ := sweep_loop_sound _ _ _ _ _ _ _ _ hsw
      subst hs'
      exact ⟨L, hL1, by simpa using hL2⟩
  · intro chain target hg hchain ht hlt
    obtain ⟨s', _, hcall, _, _, _, _, _, hfreed, _⟩ :=
      collect_cond_sweep s c chain target hg hchain ht hlt
    exact ⟨s', hcall, hfreed, fun hs => takeWhile_eq_filter_of_sorted _ _ _ hs⟩

/-- In the scenario the conditional collect frees the two tables below version
5 and returns 2. -/
theorem collect_cond_returns_count_witness :
    deref_table scenario scenario.hashtable.ht = .ok (scenario_table 10 none (some 109)) ∧
      ((∀ s' n, ht_gc_collect_cond scenario 1 = .ok (s', n) →
          ∃ L : List Nat, handed s'.freed = handed scenario.freed ++ L ∧ n = (L.length : Int)) ∧
        (scenario.hashtable.gc_lock = true → ht_gc_collect_cond scenario 1 = .ok (scenario, 0)) ∧
        ((scenario_table 10 none (some 109)).version ≤ scenario.hashtable.version_min →
          ht_gc_collect_cond scenario 1 = .ok (scenario, 0)) ∧
        (∀ target, scenario.hashtable.gc_lock = false → target_floor scenario 1 = .ok target →
          target ≤ scenario.hashtable.version_min →
          ht_gc_collect_cond scenario 1 = .ok (scenario, 0)) ∧
        (∀ chain target, scenario.hashtable.gc_lock = false →
          chain_to_current scenario chain = true →
          target_floor scenario 1 = .ok target → scenario.hashtable.version_min < target →
          ∃ s', ht_gc_collect_cond scenario 1 = .ok (s',
              ((chain.takeWhile
                (fun a => decide (table_version scenario.tables a < target))).length : Int)) ∧
            handed s'.freed = handed scenario.freed ++
              chain.takeWhile (fun a => decide (table_version scenario.tables a < target)) ∧
            ((chain.map (table_version scenario.tables)).Pairwise (· < ·) →
              chain.takeWhile (fun a => decide (table_version scenario.tables a < target))
                = chain.filter (fun a => decide (table_version scenario.tables a < target))))) :=
  ⟨rfl, collect_cond_returns_count scenario 1 (scenario_table 10 none (some 109)) rfl⟩

/-- C14: `ht_gc_thread_init(h, id)`, run without interference in a block that
`memalign` hands out unused, returns and leaves the registry equal to the new
record followed by the previous registry, unchanged and in the same order; the
new record has the given id, the version of the current table and the old
registry head as its link; it becomes the calling thread's record, so that
`clht_gc_get_id()` then returns `id`; no record registered before is removed or
modified, and nothing else of the state changes. -/
theorem thread_init_prepends_record (s : State) (tid : Nat) (id : Int) (ts : Nat)
    (cur : clht_hashtable_t) (hcur : deref_table s s.hashtable.ht = .ok cur)
    (hfresh : s.records.load ts = none) :
    ∃ s', ht_gc_thread_init s tid id (some ts) = .ok s' ∧
      s'.hashtable.version_list = some ts ∧
      s'.records.load ts
        = some { version := cur.version, id := id, next := s.hashtable.version_list } ∧
      (∀ a r, s.records.load a = some r → s'.records.load a = some r) ∧
      (∀ a, a ≠ ts → s'.records.load a = s.records.load a) ∧
      (∀ rs, registry s.records s.hashtable.version_list rs = true →
        registry s'.records s'.hashtable.version_list (ts :: rs) = true) ∧
      s'.clht_ts_thread.load tid = some ts ∧ clht_gc_get_id s' tid = .ok id ∧
      (∀ other, other ≠ tid → s'.clht_ts_thread.load other = s.clht_ts_thread.load other) ∧
      s'.hashtable = { s.hashtable with version_list := some ts } ∧
      s'.tables = s.tables ∧ s'.freed = s.freed := by
  refine ⟨_, thread_init_ok s tid id ts cur hcur, rfl, ?_, ?_, ?_, ?_, ?_, ?_, ?_, rfl, rfl, rfl⟩
  · simp [Heap.load]
  · intro a r hr
    have hne : ts ≠ a := by
      intro e; subst e; rw [hfresh] at hr; simp at hr
    simp [Heap.load, hne, hr]
  · intro a ha
    simp [Heap.load, Ne.symm ha]
  · intro rs hrs
    rw [registry_cons]
    refine ⟨rfl, { version := cur.version, id := id, next := s.hashtable.version_list },
      by simp [Heap.load], ?_⟩
    show registry ((ts, _) :: s.records) s.hashtable.version_list rs = true
    rw [registry_congr _ s.records rs _ ?_]
    · exact hrs
    · intro a ha
      obtain ⟨r, hr⟩ := registry_allocated _ _ _ hrs a ha
      have hne : ts ≠ a := by
        intro e; subst e; rw [hfresh] at hr; simp at hr
      simp [Heap.load, hne]
  · simp [Heap.load]
  · simp [clht_gc_get_id, Heap.load]
  · intro other ho
    simp [Heap.load, Ne.symm ho]

/-- In the scenario thread 3 registers with id 42 in the unused block at
address 4. -/
theorem thread_init_prepends_record_witness :
    deref_table scenario scenario.hashtable.ht = .ok (scenario_table 10 none (some 109)) ∧
      scenario.records.load 4 = none ∧
      ∃ s', ht_gc_thread_init scenario 3 42 (some 4) = .ok s' ∧
        s'.hashtable.version_list = some 4 ∧
        s'.records.load 4 = some { version := 10, id := 42, next := some 1 } ∧
        (∀ a r, scenario.records.load a = some r → s'.records.load a = some r) ∧
        (∀ a, a ≠ 4 → s'.records.load a = scenario.records.load a) ∧
        (∀ rs, registry scenario.records scenario.hashtable.version_list rs = true →
          registry s'.records s'.hashtable.version_list (4 :: rs) = true) ∧
        s'.clht_ts_thread.load 3 = some 4 ∧ clht_gc_get_id s' 3 = .ok 42 ∧
        (∀ other, other ≠ 3 →
          s'.clht_ts_thread.load other = scenario.clht_ts_thread.load other) ∧
        s'.hashtable = { scenario.hashtable with version_list := some 4 } ∧
        s'.tables = scenario.tables ∧ s'.freed = scenario.freed :=
  ⟨rfl, rfl,
    thread_init_prepends_record scenario 3 42 4 (scenario_table 10 none (some 109)) rfl rfl⟩

/-- C15: for a registered calling thread and every table `h`,
`ht_gc_thread_version(h)` sets the version of the calling thread's own record
to the version of `h` and changes nothing else: the id and the link of that
record, every other record, the order of the registry and of the heap of
records, the container (current table, oldest table, floor, registry head,
gate), the tables, the thread-local variables and the log of frees are as
before. -/
theorem thread_version_is_pure_store (s : State) (tid : Nat) (h : Ptr) (t : clht_hashtable_t)
    (a : Nat) (r : ht_ts_t) (hh : deref_table s h = .ok t)
    (htid : s.clht_ts_thread.load tid = some a) (hrec : s.records.load a = some r) :
    ∃ s', ht_gc_thread_version s tid h = .ok s' ∧
      s'.records.load a = some { version := t.version, id := r.id, next := r.next } ∧
      (∀ b, b ≠ a → s'.records.load b = s.records.load b) ∧
      (∀ p rs, registry s'.records p rs = registry s.records p rs) ∧
      s'.hashtable = s.hashtable ∧ s'.tables = s.tables ∧
      s'.clht_ts_thread = s.clht_ts_thread ∧ s'.freed = s.freed ∧
      s'.records.length = s.records.length ∧
      s'.records.map Prod.fst = s.records.map Prod.fst := by
  have hload : ∀ b, (s.records.store a { r with version := t.version }).load b
      = if a = b then some { r with version := t.version } else s.records.load b := by
    intro b
    rw [Heap.load_store]
    by_cases hab : a = b
    · subst hab; simp [hrec]
    · simp [hab]
  refine ⟨_, thread_version_ok s tid h t a r hh htid hrec, ?_, ?_, ?_, rfl, rfl, rfl, rfl,
    Heap.length_store _ _ _, ?_⟩
  · show (s.records.store a { r with version := t.version }).load a = _
    rw [hload]; simp
  · intro b hb
    show (s.records.store a { r with version := t.version }).load b = _
    rw [hload]; simp [Ne.symm hb]
  · intro p rs
    apply registry_congr
    intro b _
    show ((s.records.store a { r with version := t.version }).load b).map _ = _
    rw [hload]
    by_cases hab : a = b
    · subst hab; simp [hrec]
    · simp [hab]
  · show (s.records.store a { r with version := t.version }).map Prod.fst = _
    generalize ({ r with version := t.version } : ht_ts_t) = w
    clear hload hrec
    induction s.records with
    | nil => rfl
    | cons e m ih =>
      obtain ⟨k, v⟩ := e
      by_cases hk : k = a
      · simp [Heap.store, hk]
      · simp [Heap.store, hk, ih]

/-- In the scenario thread 0, whose record at address 1 holds version 5,
publishes the current table. -/
theorem thread_version_is_pure_store_witness :
    deref_table scenario (some 110) = .ok (scenario_table 10 none (some 109)) ∧
      scenario.clht_ts_thread.load 0 = some 1 ∧
      scenario.records.load 1 = some { version := 5, id := 0, next := some 2 } ∧
      ∃ s', ht_gc_thread_version scenario 0 (some 110) = .ok s' ∧
        s'.records.load 1 = some { version := 10, id := 0, next := some 2 } ∧
        (∀ b, b ≠ 1 → s'.records.load b = scenario.records.load b) ∧
        (∀ p rs, registry s'.records p rs = registry scenario.records p rs) ∧
        s'.hashtable = scenario.hashtable ∧ s'.tables = scenario.tables ∧
        s'.clht_ts_thread = scenario.clht_ts_thread ∧ s'.freed = scenario.freed ∧
        s'.records.length = scenario.records.length ∧
        s'.records.map Prod.fst = scenario.records.map Prod.fst :=
  ⟨rfl, rfl, rfl,
    thread_version_is_pure_store scenario 0 (some 110) (scenario_table 10 none (some 109)) 1
      { version := 5, id := 0, next := some 2 } rfl rfl rfl⟩

/-- C16: for a container that satisfies the container invariant of §3, with
the gate free (no other thread is inside a collect) and a chain of strictly
increasing versions from `ht_oldest` to the current table, `ht_gc_destroy`
(default build) returns after handing every table of the chain to `ht_gc_free`
exactly once, in chain order: the older versions first, all of them by the
unconditional collect `ht_gc_collect_all`, and the current table last; the free
of the container follows the free of the current table's descriptor and is the
last free; no table of the chain is left allocated. -/
theorem ht_gc_destroy_frees_chain (s : State) (chain : List Nat)
    (hgate : s.hashtable.gc_lock = false) (hchain : chain_to_current s chain = true)
    (hsorted : (chain.map (table_version s.tables)).Pairwise (· < ·))
    (hinv : container_invariant s = true) :
    ∃ s1 n s' c log, ht_gc_collect_all s = .ok (s1, n) ∧
      handed s1.freed = handed s.freed ++ chain.dropLast ∧
      ht_gc_destroy s = .ok s' ∧ s.hashtable.ht = some c ∧
      handed s'.freed = handed s.freed ++ chain ∧ chain.Nodup ∧
      chain.getLast? = some c ∧
      s'.freed = log ++ [FreeCall.descriptor c, FreeCall.container] ∧
      (∀ a ∈ chain, s'.tables.load a = none) := by
  obtain ⟨pre, c, hsplit, _, _, _, _⟩ := (chain_to_current_iff s chain).mp hchain
  obtain ⟨_, cur, _, _, _, _, hcur, _, _, hnd, _⟩ := chain_to_current_facts s chain hchain
  subst hsplit
  have hfloor := invariant_floor_below_current s pre c cur hchain hsorted hinv hcur
  obtain ⟨s1, n, s', log, h1, h2, h3, h4, h5, h6, h7⟩ :=
    destroy_outcome s pre c cur hgate hchain hsorted hcur hfloor
  exact ⟨s1, n, s', c, log, h1, by simpa using h2, h3, h4, h5, hnd, by simp, h6, h7⟩

/-- The scenario: the teardown frees the tables of versions 3 to 10 in this
order, then the container. -/
theorem ht_gc_destroy_frees_chain_witness :
    scenario.hashtable.gc_lock = false ∧
      chain_to_current scenario [103, 104, 105, 106, 107, 108, 109, 110] = true ∧
      ([103, 104, 105, 106, 107, 108, 109, 110].map
        (table_version scenario.tables)).Pairwise (· < ·) ∧
      container_invariant scenario = true ∧
      ∃ s1 n s' c log, ht_gc_collect_all scenario = .ok (s1, n) ∧
        handed s1.freed = handed scenario.freed ++ [103, 104, 105, 106, 107, 108, 109] ∧
        ht_gc_destroy scenario = .ok s' ∧ scenario.hashtable.ht = some c ∧
        handed s'.freed = handed scenario.freed ++ [103, 104, 105, 106, 107, 108, 109, 110] ∧
        [103, 104, 105, 106, 107, 108, 109, 110].Nodup ∧
        [103, 104, 105, 106, 107, 108, 109, 110].getLast? = some c ∧
        s'.freed = log ++ [FreeCall.descriptor c, FreeCall.container] ∧
        (∀ a ∈ [103, 104, 105, 106, 107, 108, 109, 110], s'.tables.load a = none) :=
  ⟨rfl, by decide, by decide, by decide,
    ht_gc_destroy_frees_chain scenario [103, 104, 105, 106, 107, 108, 109, 110]
      rfl (by decide) (by decide) (by decide)⟩

/-- C17: a call of `ht_gc_collect_cond` (either mode) that starts with the gate
free returns with the gate free, on each of its three paths (no store at all
when `version_min` is at or above the current version, two stores when
`version_min` is at or above the target floor, four stores after a sweep);
every store of the call to the container before the last one leaves the gate
held, and the last store is the release, which changes nothing but the gate:
`version_min` and `ht_oldest` already have their final values when the gate is
released.  The call does return whenever its target floor is defined on a
chain that reaches the current table. -/
theorem collect_cond_releases_gate (s : State) (c : Int)
    (hfree : s.hashtable.gc_lock = false) :
    (∀ s' n, ht_gc_collect_cond s c = .ok (s', n) →
        s'.hashtable.gc_lock = false ∧
        ∃ stores, collect_cond_stores s c = .ok stores ∧
          stores.getLast?.getD s.hashtable = s'.hashtable ∧
          (∀ h ∈ stores.dropLast, h.gc_lock = true) ∧
          (∀ before, stores.dropLast.getLast? = some before →
            s'.hashtable = { before with gc_lock := false }) ∧
          (stores = [] ∨ stores.length = 2 ∨ stores.length = 4)) ∧
      (∀ chain target, chain_to_current s chain = true → target_floor s c = .ok target →
        ∃ s' n, ht_gc_collect_cond s c = .ok (s', n)) := by
  refine ⟨?_, fun chain target hc ht => collect_cond_returns s c chain target hc ht⟩
  intro s' n hcall
  cases hd : deref_table s s.hashtable.ht with
  | error e => simp [ht_gc_collect_cond, hd, bind, Except.bind] at hcall
  | ok cur =>
    by_cases hv : cur.version ≤ s.hashtable.version_min
    · rw [collect_cond_floor_reached s c cur hd hv] at hcall
      simp only [Except.ok.injEq, Prod.mk.injEq] at hcall
      obtain ⟨rfl, _⟩ := hcall
      exact ⟨hfree, [], collect_cond_stores_floor_reached s c cur hd hv, rfl, by simp, by simp,
        Or.inl rfl⟩
    · rw [collect_cond_open s c cur hd (by omega) hfree] at hcall
      have hst := collect_cond_stores_open s c cur hd (by omega) hfree
      cases htf : target_floor s c with
      | error e => simp [htf] at hcall
      | ok target =>
        simp only [htf] at hcall hst
        by_cases ht : target ≤ s.hashtable.version_min
        · simp only [if_pos ht, Except.ok.injEq, Prod.mk.injEq] at hcall
          simp only [if_pos ht] at hst
          obtain ⟨rfl, _⟩ := hcall
          refine ⟨hfree, _, hst, ?_, by simp, ?_, Or.inr (Or.inl rfl)⟩
          · cases hs : s.hashtable
            rw [hs] at hfree
            simp at hfree
            simp [hfree]
          · intro before hb
            simp at hb
            subst hb
            cases hs : s.hashtable
            rw [hs] at hfree
            simp at hfree
            simp [hfree]
        · simp only [if_neg ht] at hcall hst
          cases hsw : sweep_loop target (s.tables.length + 1)
              { s with hashtable := { s.hashtable with gc_lock := true } }
              s.hashtable.ht_oldest 0 with
          | error e => simp [hsw] at hcall
          | ok r =>
            obtain ⟨s1, p, g⟩ := r
            simp only [hsw] at hcall hst
            cases hdp : deref_table s1 p with
            | error e => simp [hdp] at hcall
            | ok t =>
              simp only [hdp, Except.ok.injEq, Prod.mk.injEq] at hcall
              simp only [hdp] at hst
              obtain ⟨rfl, _⟩ := hcall
              obtain ⟨h1, _⟩ := sweep_loop_sound _ _ _ _ _ _ _ _ hsw
              refine ⟨rfl, _, hst, rfl, ?_, ?_, Or.inr (Or.inr rfl)⟩
              · intro h hh
                simp only [List.dropLast, List.mem_cons, List.mem_singleton] at hh
                rcases hh with rfl | rfl | rfl | hh
                · rfl
                · show s1.hashtable.gc_lock = true
                  rw [h1]
                · show s1.hashtable.gc_lock = true
                  rw [h1]
                · simp at hh
              · intro before hb
                simp at hb
                subst hb
                rfl

/-- The scenario starts with the gate free. -/
theorem collect_cond_releases_gate_witness :
    scenario.hashtable.gc_lock = false ∧
      ((∀ s' n, ht_gc_collect_cond scenario 1 = .ok (s', n) →
          s'.hashtable.gc_lock = false ∧
          ∃ stores, collect_cond_stores scenario 1 = .ok stores ∧
            stores.getLast?.getD scenario.hashtable = s'.hashtable ∧
            (∀ h ∈ stores.dropLast, h.gc_lock = true) ∧
            (∀ before, stores.dropLast.getLast? = some before →
              s'.hashtable = { before with gc_lock := false }) ∧
            (stores = [] ∨ stores.length = 2 ∨ stores.length = 4)) ∧
        (∀ chain target, chain_to_current scenario chain = true →
          target_floor scenario 1 = .ok target →
          ∃ s' n, ht_gc_collect_cond scenario 1 = .ok (s', n))) :=
  ⟨rfl, collect_cond_releases_gate scenario 1 rfl⟩

/-- C18: when the current table is reached from `ht_oldest` through `table_new`
links, a call of `ht_gc_collect_cond` (either mode) never dereferences `NULL`:
it returns, or it fails with the fault of the registry scan, which is not a
null dereference.  For every target floor that is at most the current version
the `while` loop ends without fault at a node `cur` that is not `NULL` and is
allocated, so that `cur->version` is read from a live table and every `nxt`
whose `table_prev` the loop wrote was not `NULL`. -/
theorem sweep_never_dereferences_null (s : State) (c : Int) (chain : List Nat)
    (hchain : chain_to_current s chain = true) :
    ht_gc_collect_cond s c ≠ .error .null_deref ∧
      ((∃ s' n, ht_gc_collect_cond s c = .ok (s', n)) ∨
        (∃ e, target_floor s c = .error e ∧ ht_gc_collect_cond s c = .error e)) ∧
      (∀ target, (∀ cur, deref_table s s.hashtable.ht = .ok cur → target ≤ cur.version) →
        ∃ s1 d n t, sweep_loop target (s.tables.length + 1) s s.hashtable.ht_oldest 0
            = .ok (s1, some d, n) ∧ deref_table s1 (some d) = .ok t) := by
  obtain ⟨cc, cur, hmem, _, _, hcur, hd, hold, hvc, hnd, hlen⟩ :=
    chain_to_current_facts s chain hchain
  have hdich : (∃ s' n, ht_gc_collect_cond s c = .ok (s', n)) ∨
      (∃ e, target_floor s c = .error e ∧ ht_gc_collect_cond s c = .error e) := by
    cases htf : target_floor s c with
    | ok target => exact Or.inl (collect_cond_returns s c chain target hchain htf)
    | error e =>
      by_cases hv : cur.version ≤ s.hashtable.version_min
      · exact Or.inl ⟨s, 0, collect_cond_floor_reached s c cur hd hv⟩
      · by_cases hg : s.hashtable.gc_lock = true
        · exact Or.inl ⟨s, 0, collect_cond_gate_held s c cur hd hg⟩
        · right
          refine ⟨e, rfl, ?_⟩
          rw [collect_cond_open s c cur hd (by omega) (by simpa using hg), htf]
  refine ⟨?_, hdich, ?_⟩
  · rcases hdich with ⟨s', n, h⟩ | ⟨e, htf, h⟩
    · rw [h]; simp
    · rw [h]
      intro he
      simp only [Except.error.injEq] at he
      subst he
      exact target_floor_no_null s c cur hd htf
  · intro target htarget
    have htc := htarget cur hd
    have hstop : ∃ a ∈ chain, ¬ table_version s.tables a < target :=
      ⟨cc, hmem, by rw [table_version_of_load _ _ _ hcur]; omega⟩
    obtain ⟨s1, hrun, _, _, _, _, htab⟩ :=
      sweep_loop_chain target (table_version s.tables) chain s (s.tables.length + 1) 0
        hvc hnd (fun _ _ => rfl) hstop (by omega)
    have hDne : chain.dropWhile (fun a => decide (table_version s.tables a < target)) ≠ [] := by
      intro h0
      rw [List.dropWhile_eq_nil_iff] at h0
      obtain ⟨a, ha, hna⟩ := hstop
      exact hna (by simpa using h0 a ha)
    obtain ⟨d, hdhead⟩ : ∃ d,
        (chain.dropWhile (fun a => decide (table_version s.tables a < target))).head? = some d := by
      cases hD : chain.dropWhile (fun a => decide (table_version s.tables a < target)) with
      | nil => exact absurd hD hDne
      | cons d _ => exact ⟨d, rfl⟩
    have hdnot : ¬ table_version s.tables d < target := by
      have := List.head?_dropWhile_not (fun a => decide (table_version s.tables a < target)) chain
      rw [hdhead] at this
      simpa using this
    have hdchain : d ∈ chain :=
      (List.dropWhile_sublist _).subset (List.mem_of_mem_head? hdhead)
    obtain ⟨td, htd⟩ := version_chain_allocated _ _ hvc d hdchain
    have hdT : d ∉ chain.takeWhile (fun a => decide (table_version s.tables a < target)) := by
      intro h
      have := List.mem_takeWhile_imp h
      exact hdnot (by simpa using this)
    rw [← hold, hdhead] at hrun
    have h1 := htab d
    simp only [hdT, if_false] at h1
    by_cases hT : chain.takeWhile (fun a => decide (table_version s.tables a < target)) ≠ []
        ∧ (chain.dropWhile (fun a => decide (table_version s.tables a < target))).head? = some d
    · rw [if_pos hT, htd] at h1
      exact ⟨s1, d, _, null_prev td, hrun, deref_table_ok s1 d _ h1⟩
    · rw [if_neg hT, htd] at h1
      exact ⟨s1, d, _, td, hrun, deref_table_ok s1 d _ h1⟩

/-- In the scenario the current table is reached from the oldest one. -/
theorem sweep_never_dereferences_null_witness :
    chain_to_current scenario [103, 104, 105, 106, 107, 108, 109, 110] = true ∧
      (ht_gc_collect_cond scenario 0 ≠ .error .null_deref ∧
        ((∃ s' n, ht_gc_collect_cond scenario 0 = .ok (s', n)) ∨
          (∃ e, target_floor scenario 0 = .error e ∧ ht_gc_collect_cond scenario 0 = .error e)) ∧
        (∀ target,
          (∀ cur, deref_table scenario scenario.hashtable.ht = .ok cur → target ≤ cur.version) →
          ∃ s1 d n t, sweep_loop target (scenario.tables.length + 1) scenario
              scenario.hashtable.ht_oldest 0 = .ok (s1, some d, n) ∧
            deref_table s1 (some d) = .ok t)) :=
  ⟨by decide,
    sweep_never_dereferences_null scenario 0 [103, 104, 105, 106, 107, 108, 109, 110]
      (by decide)⟩

/-- C19: registering a thread does not change the safe floor: when
`ht_gc_min_version_used` returns `m` before `ht_gc_thread_init(h, id)` (run in
a block that `memalign` hands out unused), the registration returns and
`ht_gc_min_version_used` returns `m` after it, the current table and the
tables being unchanged; the new record holds the version of the current
table. -/
theorem thread_init_keeps_safe_floor (s : State) (tid : Nat) (id : Int) (ts : Nat) (m : Nat)
    (hfresh : s.records.load ts = none) (hscan : ht_gc_min_version_used s = .ok m) :
    ∃ s', ht_gc_thread_init s tid id (some ts) = .ok s' ∧
      ht_gc_min_version_used s' = .ok m ∧
      s'.hashtable.ht = s.hashtable.ht ∧ s'.tables = s.tables := by
  obtain ⟨c, cur, rs, hc, hl, hrs, hm⟩ := min_version_used_inv s m hscan
  have hd : deref_table s s.hashtable.ht = .ok cur := by rw [hc]; exact deref_table_ok s c cur hl
  refine ⟨_, thread_init_ok s tid id ts cur hd, ?_, rfl, rfl⟩
  rw [hm]
  exact scan_after_registration s ts _ _ c cur rs hc hl hrs hfresh rfl rfl

/-- In the scenario the safe floor is 5 before thread 3 registers. -/
theorem thread_init_keeps_safe_floor_witness :
    scenario.records.load 4 = none ∧ ht_gc_min_version_used scenario = .ok 5 ∧
      ∃ s', ht_gc_thread_init scenario 3 42 (some 4) = .ok s' ∧
        ht_gc_min_version_used s' = .ok 5 ∧
        s'.hashtable.ht = scenario.hashtable.ht ∧ s'.tables = scenario.tables :=
  ⟨rfl, rfl, thread_init_keeps_safe_floor scenario 3 42 4 5 rfl rfl⟩

/-- C20: for a table with `num_buckets` in-array buckets, each heading a
null-terminated chain of overflow buckets, `ht_gc_free` (default build)
returns 1 after freeing the overflow buckets of bin 0, then of bin 1, and so on
up to bin `num_buckets - 1`, each chain in chain order, then the bucket array,
then the table descriptor, and nothing else: no in-array bucket is freed on its
own; when the overflow buckets are distinct, every one of these frees happens
exactly once.  The descriptor is deallocated and the rest of the state is
unchanged. -/
theorem ht_gc_free_frees_buckets_array_descriptor (s : State) (p : Nat) (t : clht_hashtable_t)
    (h : s.tables.load p = some t) :
    ∃ s', ht_gc_free s (some p) = .ok (s', 1) ∧
      s'.freed = s.freed ++
        ((List.range t.num_buckets).flatMap (fun bin =>
          match t.table.get? bin with
          | some b => b.next.map FreeCall.bucket
          | none => []) ++ [FreeCall.array p, FreeCall.descriptor p]) ∧
      s'.freed = s.freed ++
        (t.table.flatMap (fun b => b.next.map FreeCall.bucket) ++ [FreeCall.array p, FreeCall.descriptor p]) ∧
      ((t.table.flatMap (fun b => b.next)).Nodup →
        ∀ call ∈ t.table.flatMap (fun b => b.next.map FreeCall.bucket) ++
            [FreeCall.array p, FreeCall.descriptor p],
          (t.table.flatMap (fun b => b.next.map FreeCall.bucket) ++
            [FreeCall.array p, FreeCall.descriptor p]).count call = 1) ∧
      s'.tables = s.tables.dealloc p ∧ s'.tables.load p = none ∧
      s'.hashtable = s.hashtable ∧ s'.records = s.records ∧
      s'.clht_ts_thread = s.clht_ts_thread := by
  have hlog : free_bins t.table s.freed ++ [.array p] ++ [.descriptor p] = s.freed ++
      (t.table.flatMap (fun b => b.next.map FreeCall.bucket) ++ [FreeCall.array p, FreeCall.descriptor p]) := by
    rw [free_bins_eq]; simp
  refine ⟨_, ht_gc_free_ok s p t h, ?_, hlog, ?_, rfl, ?_, rfl, rfl, rfl⟩
  · show free_bins t.table s.freed ++ [.array p] ++ [.descriptor p] = _
    rw [hlog, clht_hashtable_t.num_buckets, flatMap_bins]
  · intro hnd call hcall
    apply List.count_eq_one_of_mem _ hcall
    have hmap : t.table.flatMap (fun b => b.next.map FreeCall.bucket)
        = (t.table.flatMap (fun b => b.next)).map FreeCall.bucket := by
      induction t.table with
      | nil => rfl
      | cons b l ih => simp [List.flatMap_cons, ih]
    rw [hmap]
    rw [List.nodup_append]
    refine ⟨hnd.map (fun a b hab => by injection hab), by simp, ?_⟩
    intro x hx hx'
    obtain ⟨a, _, rfl⟩ := List.mem_map.mp hx
    simp at hx'
  · show (s.tables.dealloc p).load p = none
    rw [Heap.load_dealloc]; simp

/-- The table of version 3 of the scenario has two bins and one overflow bucket,
at address 1003, in the first bin. -/
theorem ht_gc_free_frees_buckets_array_descriptor_witness :
    scenario.tables.load 103 = some (scenario_table 3 (some 104) none) ∧
      ∃ s', ht_gc_free scenario (some 103) = .ok (s', 1) ∧
        s'.freed = scenario.freed ++
          ((List.range (scenario_table 3 (some 104) none).num_buckets).flatMap (fun bin =>
            match (scenario_table 3 (some 104) none).table.get? bin with
            | some b => b.next.map FreeCall.bucket
            | none => []) ++ [FreeCall.array 103, FreeCall.descriptor 103]) ∧
        s'.freed = scenario.freed ++ ([FreeCall.bucket 1003] ++ [FreeCall.array 103, FreeCall.descriptor 103]) ∧
        (((scenario_table 3 (some 104) none).table.flatMap (fun b => b.next)).Nodup →
          ∀ call ∈ [FreeCall.bucket 1003] ++ [FreeCall.array 103, FreeCall.descriptor 103],
            ([FreeCall.bucket 1003] ++ [FreeCall.array 103, FreeCall.descriptor 103]).count call = 1) ∧
        s'.tables = scenario.tables.dealloc 103 ∧ s'.tables.load 103 = none ∧
        s'.hashtable = scenario.hashtable ∧ s'.records = scenario.records ∧
        s'.clht_ts_thread = scenario.clht_ts_thread :=
  ⟨rfl,
    ht_gc_free_frees_buckets_array_descriptor scenario 103 (scenario_table 3 (some 104) none)
      rfl⟩

end CLHT
